import Mathlib

/-!
# libsixel: PNM decoder (`frompnm.c`) and chunk buffer (`chunk.c`)

A shallow embedding of `pnm_get_line` and `load_pnm` from `src/frompnm.c` and of
`memory_write` and `sixel_chunk_from_url` from `src/chunk.c`, followed by theorems about
them.

Conventions of the embedding.

* A byte is a natural number below 256; a byte string is a `List Nat`.
* A C pointer that walks through a buffer (`p` up to `end`, `s` inside `tmp`) is
  represented by the list of the bytes from the pointer up to the end of the buffer.
  `p < end` is `p ≠ []`, `*p` is the head, `p++` is the tail.  Reading through a pointer
  that has reached the end of its buffer is an access outside the object: `Exec.fault`.
* `int` is `Int` reduced with `wrap32` after every arithmetic operation (two's complement
  wrap-around on 32 bits).
* Loops that the C code bounds by a counter recurse on that counter.  The loops that are
  not bounded by the code (the line refill loop of the ASCII variants in `load_pnm`, the
  doubling loop of `memory_write`) take fuel and yield `Exec.timeout` when it runs out.
* What the code obtains from outside (the allocator, `realloc`, the initial content of
  the local array `tmp`, the code returned by the transfer) is a parameter.
-/

namespace Sixel

/-! ## Outcome of running a piece of C code -/

/-- Outcome of an execution: normal completion with a value, an access outside the
bounds of an object (undefined behaviour in C), or fuel exhausted in an unbounded loop. -/
inductive Exec (α : Type) where
  | ok : α → Exec α
  | fault : Exec α
  | timeout : Exec α
  deriving DecidableEq, Repr

/-- Sequencing of executions: the first abnormal outcome is the outcome of the whole. -/
def Exec.bind {α β : Type} (x : Exec α) (f : α → Exec β) : Exec β :=
  match x with
  | Exec.ok a => f a
  | Exec.fault => Exec.fault
  | Exec.timeout => Exec.timeout

instance : Monad Exec where
  pure := Exec.ok
  bind := Exec.bind

/-! ## Status codes (`sixel.h`) -/

/-- Modelled from the spec: the status taxonomy of section 6 (`Ok`); the header `sixel.h`
that gives the numeric values is not among the sources, the value is the one of the
library's public header. -/
def SIXEL_OK : Nat := 0x0000

/-- Modelled from the spec: generic `Fail` of section 6, the failure bit of a status
(value of the public header, as for the statuses below). -/
def SIXEL_FALSE : Nat := 0x1000

/-- Modelled from the spec: `RuntimeError` of section 6. -/
def SIXEL_RUNTIME_ERROR : Nat := SIXEL_FALSE ||| 0x0100

/-- Modelled from the spec: `TransportError` of section 6, low byte reserved for the
transport code. -/
def SIXEL_CURL_ERROR : Nat := SIXEL_FALSE ||| 0x0500

/-- Modelled from the spec: `BadAllocation` of section 6. -/
def SIXEL_BAD_ALLOCATION : Nat := SIXEL_RUNTIME_ERROR ||| 0x0001

/-- Modelled from the spec: the macro `SIXEL_FAILED` of `sixel.h` (not among the
sources): a status is a failure when its failure bit is set. -/
def SIXEL_FAILED (status : Nat) : Bool := (status &&& 0x1000) != 0

/-- Modelled from the spec: the "fixed pixel-format tag identifying 8-bit RGB triplets"
of section 4.4 step 6; `sixel.h` is not among the sources. -/
def SIXEL_PIXELFORMAT_RGB888 : Nat := 0x03

/-! ## `int` arithmetic -/

/-- Reduction of an integer to the range of a 32-bit two's complement `int`. -/
def wrap32 (i : Int) : Int := (i + 2147483648) % 4294967296 - 2147483648

/-- Conversion of an `int` to `size_t` (64 bits), as done for the argument of the
allocator and of `memset`. -/
def size_t_of_int (i : Int) : Nat := (i % 18446744073709551616).toNat

/-- Conversion of an `int` to `unsigned char`, as done by a store into the raster. -/
def uchar_of_int (i : Int) : Nat := (i % 256).toNat

/-- The function `isdigit` of `ctype.h` on a byte, in the C locale. -/
def isdigit (c : Nat) : Bool := decide (48 ≤ c) && decide (c ≤ 57)

/-! ## `pnm_get_line` -/

/-- The `for` loop of `pnm_get_line`: copy the bytes `>= ' '` found at `p` into `line`,
at most 255 of them, and return the advanced `p`, the count `n` and the buffer. -/
def get_line_copy : List Nat → Nat → List Nat → List Nat × Nat × List Nat
  | [], n, line => ([], n, line)
  | c :: p, n, line =>
    if 32 ≤ c then
      if n < 255 then get_line_copy p (n + 1) (line.set n c)
      else get_line_copy p n line
    else (c :: p, n, line)

/-- The statement `if (p < end && *p == '\n') { p++; }` of `pnm_get_line`. -/
def skip_newline : List Nat → List Nat
  | 10 :: q => q
  | q => q

/-- The `do ... while (line[0] == '#')` loop of `pnm_get_line`, one iteration per unit of
`k`.  Every iteration that is repeated has consumed at least the byte `'#'`, so
`p.length + 1` iterations always suffice (`get_line_loop_fuel`). -/
def get_line_loop : Nat → List Nat → List Nat → List Nat × List Nat
  | 0, p, line => (p, line)
  | k + 1, p, line =>
    let r := get_line_copy p 0 line
    let p1 := skip_newline r.1
    let line1 := r.2.2.set r.2.1 0
    if line1.head? = some 35 then get_line_loop k p1 line1 else (p1, line1)

/-- Embedding of `pnm_get_line(p, end, line)`: returns the advanced `p` and the contents
of `line`. -/
def pnm_get_line (p line : List Nat) : List Nat × List Nat :=
  get_line_loop (p.length + 1) p line

/-! ## `load_pnm` -/

/-- The additional message set by `sixel_helper_set_additional_message`. -/
inductive Message where
  /-- The message "load_pnm: first character is not 'P'." -/
  | not_P
  /-- The message "load_pnm: unknown ppm format." -/
  | unknown_format
  /-- The message "load_pnm: invalid data detected." -/
  | invalid_data
  /-- The message "load_pnm: sixel_allocator_malloc() failed." -/
  | malloc_failed
  deriving DecidableEq, Repr

/-- What `load_pnm` leaves behind when it returns: the status, the additional message
it set (if any), `*result` (`none` is `NULL`), the values written to `*psx`, `*psy`,
`*ppixelformat` (`none`: not written), and the size passed to
`sixel_allocator_malloc` (`none`: the allocator was not called). -/
structure LoadResult where
  status : Nat
  message : Option Message
  result : Option (List Nat)
  psx : Option Int
  psy : Option Int
  ppixelformat : Option Nat
  requested : Option Nat
  deriving DecidableEq, Repr

/-- The `switch (tmp[1])` of `load_pnm`: the pair `(ascii, maps)` of the variant, `none`
for the `default` branch. -/
def variant (c : Nat) : Option (Bool × Nat) :=
  if c = 49 then some (true, 0)
  else if c = 50 then some (true, 1)
  else if c = 51 then some (true, 2)
  else if c = 52 then some (false, 0)
  else if c = 53 then some (false, 1)
  else if c = 54 then some (false, 2)
  else none

/-- The loop `while (isdigit(*s) && v >= 0) { v = v * 10 + (*s++ - '0'); }`. -/
def parse_digits : List Nat → Int → Exec (Int × List Nat)
  | [], _ => Exec.fault
  | c :: s, v =>
    if isdigit c = true ∧ 0 ≤ v then
      parse_digits s (wrap32 (wrap32 (v * 10) + ((c : Int) - 48)))
    else Exec.ok (v, c :: s)

/-- The loop `while (*s == ' ') { s++; }`. -/
def skip_spaces : List Nat → Exec (List Nat)
  | [] => Exec.fault
  | c :: s => if c = 32 then skip_spaces s else Exec.ok (c :: s)

/-- The loop `while (*s != '\0') { s++; }`. -/
def skip_to_nul : List Nat → Exec (List Nat)
  | [] => Exec.fault
  | c :: s => if c ≠ 0 then skip_to_nul s else Exec.ok (c :: s)

/-- The local variables of `load_pnm` once the header is parsed (lines 84 to 155). -/
structure Header where
  ascii : Bool
  maps : Nat
  width : Int
  height : Int
  deps : Int
  p : List Nat
  tmp : List Nat
  s : List Nat
  deriving DecidableEq, Repr

/-- Lines 130 to 155 of `load_pnm`: the dimension line and, for graymap and pixmap, the
depth line. -/
def parse_dimensions (ascii : Bool) (maps : Nat) (p tmp : List Nat) : Exec Header := do
  let l2 := pnm_get_line p tmp
  let (width, s1) ← parse_digits l2.2 0
  let s2 ← skip_spaces s1
  let (height, s3) ← parse_digits s2 0
  let s4 ← skip_to_nul s3
  if 0 < maps then
    let l3 := pnm_get_line l2.1 l2.2
    let (deps, s5) ← parse_digits l3.2 0
    pure ⟨ascii, maps, width, height, deps, l3.1, l3.2, s5⟩
  else
    pure ⟨ascii, maps, width, height, 1, l2.1, l2.2, s4⟩

/-- The mutable state of the pixel loop: the input cursor `p`, the token buffer `tmp`,
the token cursor `s` and the raster `*result`. -/
structure Decoder where
  p : List Nat
  tmp : List Nat
  s : List Nat
  result : List Nat
  deriving DecidableEq, Repr

/-- The refill loop of the ASCII variants,
`while (*s == '\0') { if (p >= end) break; p = pnm_get_line(p, end, tmp); s = tmp; }`,
one evaluation of the loop condition per unit of fuel. -/
def refill : Nat → Decoder → Exec Decoder
  | 0, _ => Exec.timeout
  | fuel + 1, d =>
    match d.s with
    | [] => Exec.fault
    | c :: _ =>
      if c = 0 then
        if d.p = [] then Exec.ok d
        else
          let l := pnm_get_line d.p d.tmp
          refill fuel { d with p := l.1, tmp := l.2, s := l.2 }
      else Exec.ok d

/-- Lines 180 to 197: one component of an ASCII variant. -/
def read_ascii (fuel maps : Nat) (d : Decoder) : Exec (Int × Decoder) := do
  let d1 ← refill fuel d
  if maps = 0 then
    match d1.s with
    | [] => Exec.fault
    | c :: s => pure (if c = 48 then 1 else 0, { d1 with s := s })
  else
    let (n, s1) ← parse_digits d1.s 0
    let s2 ← skip_spaces s1
    pure (n, { d1 with s := s2 })

/-- Lines 199 to 209: one component of a binary variant; `none` is the `break` taken
when `p >= end`. -/
def read_binary (maps x : Nat) (d : Decoder) : Option (Int × Decoder) :=
  match d.p with
  | [] => none
  | c :: q =>
    if maps = 0 then
      some (if ((c <<< (x &&& 7)) >>> 7) &&& 1 = 0 then 1 else 0,
            { d with p := if x &&& 7 = 7 then q else c :: q })
    else some ((c : Int), { d with p := q })

/-- The loop `for (i = 0; i < b; i++)` of lines 178 to 212, `k` iterations left; the
components read so far are `comp`.  The first component of the value is `none` when the
loop was left by `break` (so that `i < b` afterwards). -/
def read_components (fuel : Nat) (ascii : Bool) (maps x : Nat) :
    Nat → Decoder → List Int → Exec (Option (List Int) × Decoder)
  | 0, d, comp => Exec.ok (some comp, d)
  | k + 1, d, comp =>
    if ascii then
      match read_ascii fuel maps d with
      | Exec.ok (n, d1) => read_components fuel ascii maps x k d1 (comp ++ [n])
      | Exec.fault => Exec.fault
      | Exec.timeout => Exec.timeout
    else
      match read_binary maps x d with
      | none => Exec.ok (none, d)
      | some (n, d1) => read_components fuel ascii maps x k d1 (comp ++ [n])

/-- The expression `c * 255 / deps` in `int` arithmetic (C division truncates). -/
def scale (c deps : Int) : Int := wrap32 ((wrap32 (c * 255)).tdiv deps)

/-- The `switch (maps)` of lines 217 to 233: the three samples of a pixel. -/
def to_samples (maps : Nat) (deps : Int) (comp : List Int) : Int × Int × Int :=
  if maps = 0 then
    if comp.getD 0 0 = 0 then (0, 0, 0) else (255, 255, 255)
  else if maps = 1 then
    (scale (comp.getD 0 0) deps, scale (comp.getD 0 0) deps, scale (comp.getD 0 0) deps)
  else
    (scale (comp.getD 0 0) deps, scale (comp.getD 1 0) deps, scale (comp.getD 2 0) deps)

/-- The offset `(y * width + x) * 3` of lines 235 to 237, in `int` arithmetic. -/
def pixel_offset (width : Int) (x y : Nat) : Int :=
  wrap32 (wrap32 (wrap32 ((y : Int) * width) + (x : Int)) * 3)

/-- The store `*(*result + off) = v`: a fault when the offset is outside the buffer. -/
def store (result : List Nat) (off : Int) (v : Int) : Exec (List Nat) :=
  if 0 ≤ off ∧ off.toNat < result.length then
    Exec.ok (result.set off.toNat (uchar_of_int v))
  else Exec.fault

/-- Lines 235 to 237: the three stores of a pixel. -/
def store_pixel (result : List Nat) (off : Int) (v : Int × Int × Int) : Exec (List Nat) := do
  let r0 ← store result (off + 0) v.1
  let r1 ← store r0 (off + 1) v.2.1
  store r1 (off + 2) v.2.2

/-- The loop `for (x = 0; x < width; x++)` of lines 176 to 238 for row `y`, with `k`
iterations left (`k = width - x`).  It is left early by the `break` of line 214. -/
def loop_x (fuel : Nat) (h : Header) (y : Nat) : Nat → Nat → Decoder → Exec Decoder
  | 0, _, d => Exec.ok d
  | k + 1, x, d =>
    match read_components fuel h.ascii h.maps x (if h.maps = 2 then 3 else 1) d [] with
    | Exec.ok (none, d1) => Exec.ok d1
    | Exec.ok (some comp, d1) =>
      match store_pixel d1.result (pixel_offset h.width x y) (to_samples h.maps h.deps comp) with
      | Exec.ok r => loop_x fuel h y k (x + 1) { d1 with result := r }
      | Exec.fault => Exec.fault
      | Exec.timeout => Exec.timeout
    | Exec.fault => Exec.fault
    | Exec.timeout => Exec.timeout

/-- The loop `for (y = 0; y < height; y++)` of lines 175 to 239, with `k` iterations
left (`k = height - y`). -/
def loop_y (fuel : Nat) (h : Header) : Nat → Nat → Decoder → Exec Decoder
  | 0, _, d => Exec.ok d
  | k + 1, y, d =>
    match loop_x fuel h y h.width.toNat 0 d with
    | Exec.ok d1 => loop_y fuel h k (y + 1) d1
    | Exec.fault => Exec.fault
    | Exec.timeout => Exec.timeout

/-- The size `width * height * 3 + 1` passed to the allocator and to `memset`, computed
in `int` arithmetic and converted to `size_t`. -/
def raster_size (width height : Int) : Nat :=
  size_t_of_int (wrap32 (wrap32 (wrap32 (width * height) * 3) + 1))

/-- Lines 157 to 248 of `load_pnm`: validation of the header, allocation and the pixel
loop.  `malloc n` tells whether the allocator grants a request of `n` bytes. -/
def decode (fuel : Nat) (malloc : Nat → Bool) (h : Header) : Exec LoadResult :=
  if h.width < 1 ∨ h.height < 1 ∨ h.deps < 1 then
    Exec.ok ⟨SIXEL_RUNTIME_ERROR, some Message.invalid_data, none, none, none, none, none⟩
  else if malloc (raster_size h.width h.height) = false then
    Exec.ok ⟨SIXEL_BAD_ALLOCATION, some Message.malloc_failed, none, none, none, none,
      some (raster_size h.width h.height)⟩
  else
    match loop_y fuel h h.height.toNat 0
        ⟨h.p, h.tmp, h.s, List.replicate (raster_size h.width h.height) 0⟩ with
    | Exec.ok d =>
      Exec.ok ⟨SIXEL_OK, none, some d.result, some h.width, some h.height,
        some SIXEL_PIXELFORMAT_RGB888, some (raster_size h.width h.height)⟩
    | Exec.fault => Exec.fault
    | Exec.timeout => Exec.timeout

/-- The contents of the local array `tmp[256]` on entry: indeterminate, byte `i` is
`stack i`. -/
def initial_tmp (stack : Nat → Nat) : List Nat := (List.range 256).map stack

/-- Embedding of `load_pnm(p, length, allocator, result, psx, psy, ppalette, pncolors,
ppixelformat)`.  `input` is the `length` bytes at `p`; `stack` gives the indeterminate
initial contents of `tmp`; `malloc` is the behaviour of the allocator; `fuel` bounds
each run of the refill loop. -/
def load_pnm (fuel : Nat) (stack : Nat → Nat) (malloc : Nat → Bool) (input : List Nat) :
    Exec LoadResult :=
  let l1 := pnm_get_line input (initial_tmp stack)
  if l1.2.getD 0 0 ≠ 80 then
    Exec.ok ⟨SIXEL_RUNTIME_ERROR, some Message.not_P, none, none, none, none, none⟩
  else
    match variant (l1.2.getD 1 0) with
    | none =>
      Exec.ok ⟨SIXEL_RUNTIME_ERROR, some Message.unknown_format, none, none, none, none, none⟩
    | some (ascii, maps) =>
      match parse_dimensions ascii maps l1.1 l1.2 with
      | Exec.ok h => decode fuel malloc h
      | Exec.fault => Exec.fault
      | Exec.timeout => Exec.timeout

/-! ## Input files and expected samples, for the statements -/

/-- The decimal numeral of `n` in ASCII, most significant digit first, without leading
zeros (the empty string for `0`). -/
def decimal (n : Nat) : List Nat := ((Nat.digits 10 n).reverse).map (fun d => d + 48)

/-- The bytes of a graymap or pixmap file: magic `P` and the digit `m`, newline, width,
space, height, newline, depth, newline, then the pixel data. -/
def pnm_file (m w h depth : Nat) (data : List Nat) : List Nat :=
  [80, m, 10] ++ decimal w ++ [32] ++ decimal h ++ [10] ++ decimal depth ++ [10] ++ data

/-- The byte stored for a component `c` of a graymap or pixmap of depth `deps`. -/
def sample (deps : Int) (c : Nat) : Nat := uchar_of_int (scale (c : Int) deps)

/-- The bytes of a bitmap file: magic `P` and the digit `m`, newline, width, space,
height, newline, then the pixel data. -/
def pbm_file (m w h : Nat) (data : List Nat) : List Nat :=
  [80, m, 10] ++ decimal w ++ [32] ++ decimal h ++ [10] ++ data


/-! ## `chunk.c` -/

/-- Reduction of a natural number to the range of `size_t` (64 bits). -/
def size_t (n : Nat) : Nat := n % 18446744073709551616

/-- The fields `buffer`, `size` and `max_size` of a `sixel_chunk_t`.  The buffer is `none`
for `NULL`, otherwise the bytes of the allocated block. -/
structure Chunk where
  buffer : Option (List Nat)
  size : Nat
  max_size : Nat
  deriving DecidableEq, Repr

/-- The function `realloc(block, n)` of the C library.  `grant n` tells whether a request
of `n` bytes is granted; the new block keeps the contents of the old one up to the lesser
of the two sizes, and byte `i` of the part added is the indeterminate `junk i`. -/
def realloc (grant : Nat → Bool) (junk : Nat → Nat) (block : List Nat) (n : Nat) :
    Option (List Nat) :=
  if grant n = true then
    some ((block ++ (List.range (n - block.length)).map (fun i => junk (block.length + i))).take n)
  else none

/-- The call `memcpy(dst + off, src, n)`: a fault when it leaves one of the two blocks. -/
def memcpy (dst : List Nat) (off : Nat) (src : List Nat) (n : Nat) : Exec (List Nat) :=
  if off + n ≤ dst.length ∧ n ≤ src.length then
    Exec.ok (dst.take off ++ src.take n ++ dst.drop (off + n))
  else Exec.fault

/-- The loop `do { chunk->max_size *= 2; } while (chunk->max_size <= chunk->size + nbytes);`
of `memory_write`, with `need = chunk->size + nbytes`; one iteration per unit of fuel. -/
def grow : Nat → Nat → Nat → Exec Nat
  | 0, _, _ => Exec.timeout
  | fuel + 1, max_size, need =>
    if size_t (max_size * 2) ≤ need then grow fuel (size_t (max_size * 2)) need
    else Exec.ok (size_t (max_size * 2))

/-- Embedding of `memory_write(ptr, size, len, memory)`: the value returned and the chunk
`*memory` afterwards.  `ptr` is `none` for `NULL`, otherwise the bytes at `ptr`. -/
def memory_write (fuel : Nat) (grant : Nat → Bool) (junk : Nat → Nat)
    (ptr : Option (List Nat)) (size len : Nat) (memory : Option Chunk) :
    Exec (Nat × Option Chunk) :=
  match ptr, memory with
  | some src, some chunk =>
    if size_t (size * len) = 0 then Exec.ok (0, some chunk)
    else
      match chunk.buffer with
      | none => Exec.ok (0, some chunk)
      | some buf =>
        if chunk.max_size ≤ size_t (chunk.size + size_t (size * len)) then
          match grow fuel chunk.max_size (size_t (chunk.size + size_t (size * len))) with
          | Exec.ok m =>
            match realloc grant junk buf m with
            | none => Exec.ok (0, some ⟨none, chunk.size, m⟩)
            | some buf1 =>
              match memcpy buf1 chunk.size src (size_t (size * len)) with
              | Exec.ok buf2 =>
                Exec.ok (size_t (size * len),
                  some ⟨some buf2, size_t (chunk.size + size_t (size * len)), m⟩)
              | Exec.fault => Exec.fault
              | Exec.timeout => Exec.timeout
          | Exec.fault => Exec.fault
          | Exec.timeout => Exec.timeout
        else
          match memcpy buf chunk.size src (size_t (size * len)) with
          | Exec.ok buf2 =>
            Exec.ok (size_t (size * len),
              some ⟨some buf2, size_t (chunk.size + size_t (size * len)), chunk.max_size⟩)
          | Exec.fault => Exec.fault
          | Exec.timeout => Exec.timeout
  | _, _ => Exec.ok (0, memory)

/-- A sequence of calls `memory_write(data, 1, n, chunk)` on the same chunk, one per
element of `calls` (`n` its length), as made by the transfer for the fragments of the
body: the values returned and the chunk afterwards. -/
def write_all (fuel : Nat) (grant : Nat → Bool) (junk : Nat → Nat) :
    List (List Nat) → Chunk → Exec (List Nat × Option Chunk)
  | [], c => Exec.ok ([], some c)
  | d :: ds, c =>
    match memory_write fuel grant junk (some d) 1 d.length (some c) with
    | Exec.ok (r, some c1) =>
      match write_all fuel grant junk ds c1 with
      | Exec.ok (rs, c2) => Exec.ok (r :: rs, c2)
      | Exec.fault => Exec.fault
      | Exec.timeout => Exec.timeout
    | Exec.ok (r, none) => Exec.ok ([r], none)
    | Exec.fault => Exec.fault
    | Exec.timeout => Exec.timeout

/-- The code `CURLE_OK` of libcurl. -/
def CURLE_OK : Nat := 0

/-- Modelled from the spec: `NotImplemented` of section 6 (`sixel.h` is not among the
sources). -/
def SIXEL_NOT_IMPLEMENTED : Nat := (SIXEL_FALSE ||| 0x0300) ||| 0x0001

/-- Embedding of the status computed by `sixel_chunk_from_url`.  `have_libcurl` is the
build option `HAVE_LIBCURL`, `code` the value returned by `curl_easy_perform`. -/
def sixel_chunk_from_url (have_libcurl : Bool) (code : Nat) : Nat :=
  if have_libcurl then
    if code ≠ CURLE_OK then SIXEL_CURL_ERROR &&& (code &&& 0xff)
    else SIXEL_OK
  else SIXEL_NOT_IMPLEMENTED


/-! ## The line reader as the specification words it -/

/-- The line reader as the specification words it, to be compared with `pnm_get_line`:
take the maximal run of bytes of at least 0x20 at the cursor, consume one following
newline if present, and repeat while the run taken begins with `'#'`.  The result is the
last run taken and the cursor after it; the first argument bounds the number of runs. -/
def spec_runs : Nat → List Nat → List Nat × List Nat
  | 0, p => ([], p)
  | k + 1, p =>
    if (p.takeWhile (fun c => decide (32 ≤ c))).head? = some 35 then
      spec_runs k
        (if (p.dropWhile (fun c => decide (32 ≤ c))).head? = some 10 then
          (p.dropWhile (fun c => decide (32 ≤ c))).tail
        else p.dropWhile (fun c => decide (32 ≤ c)))
    else
      (p.takeWhile (fun c => decide (32 ≤ c)),
        if (p.dropWhile (fun c => decide (32 ≤ c))).head? = some 10 then
          (p.dropWhile (fun c => decide (32 ≤ c))).tail
        else p.dropWhile (fun c => decide (32 ≤ c)))

/-- The last run taken from the cursor `p` and the cursor after it, in the words of the
specification: no more runs can be taken than there are bytes, plus one. -/
def spec_get_line (p : List Nat) : List Nat × List Nat := spec_runs (p.length + 1) p

/-! ## The binary bitmap as the specification words it -/

/-- The value of the three samples of pixel `(x, y)` of a binary bitmap of the given width
with data bytes `d`, as the specification words it, to be compared with the pixel loop:
bit `7 - x mod 8` of the byte `d[y * (width / 8) + x / 8]`, 255 when the bit is 0, and 0
when it is 1 or when the byte lies beyond the data. -/
def spec_bit_sample (width : Nat) (d : List Nat) (x y : Nat) : Nat :=
  match d[y * (width / 8) + x / 8]? with
  | none => 0
  | some b => if (b / 2 ^ (7 - x % 8)) % 2 = 0 then 255 else 0

/-- The samples of the first `m` pixels of that bitmap in raster order, pixel `k` being
pixel `(k mod width, k / width)`. -/
def spec_bitmap (width : Nat) (d : List Nat) : Nat → List Nat
  | 0 => []
  | m + 1 =>
    spec_bitmap width d m ++ List.replicate 3 (spec_bit_sample width d (m % width) (m / width))

/-! ## The read loop of `sixel_chunk_from_file` -/

/-- Embedding of `sixel_chunk_init(pchunk, initial_size)`: the status returned and the
fields of the chunk.  `malloc n` tells whether the allocator grants `n` bytes; byte `i` of
the block granted is the indeterminate `junk i`. -/
def sixel_chunk_init (malloc : Nat → Bool) (junk : Nat → Nat) (initial_size : Nat) :
    Nat × Chunk :=
  if malloc initial_size = true then
    (SIXEL_OK, ⟨some ((List.range initial_size).map junk), 0, initial_size⟩)
  else (SIXEL_BAD_ALLOCATION, ⟨none, 0, initial_size⟩)

/-- The capacity after the statement
`if (pchunk->max_size - pchunk->size < 4096) { pchunk->max_size *= 2; ... }` of
`sixel_chunk_from_file`, in `size_t` arithmetic. -/
def from_file_capacity (c : Chunk) : Nat :=
  if size_t (c.max_size + 18446744073709551616 - c.size) < 4096 then size_t (c.max_size * 2)
  else c.max_size

/-- The call `fread(pchunk->buffer + pchunk->size, 1, 4096, f)` and what follows it in the
loop of `sixel_chunk_from_file`, when `fread` delivers the bytes `block`: with no byte
delivered the loop is left and the function returns `SIXEL_OK`, otherwise `size` grows by
the number of bytes and the loop goes on (`none`).  A fault is a write outside of the
buffer. -/
def from_file_read (block buf : List Nat) (size cap : Nat) : Exec (Option Nat × Chunk) :=
  match memcpy buf size block block.length with
  | Exec.ok buf1 =>
    if block.length = 0 then Exec.ok (some SIXEL_OK, ⟨some buf1, size, cap⟩)
    else Exec.ok (none, ⟨some buf1, size_t (size + block.length), cap⟩)
  | Exec.fault => Exec.fault
  | Exec.timeout => Exec.timeout

/-- One iteration of the loop `for (;;)` of `sixel_chunk_from_file` (lines 243 to 274) on a
stream that is not a terminal, when `fread` delivers the bytes `block`: the chunk
afterwards, with `none` when the loop goes on and `some status` when the function returns
with that status.  `grant` and `junk` are the behaviour of `realloc`. -/
def from_file_iteration (grant : Nat → Bool) (junk : Nat → Nat) (block : List Nat)
    (c : Chunk) : Exec (Option Nat × Chunk) :=
  if size_t (c.max_size + 18446744073709551616 - c.size) < 4096 then
    match realloc grant junk (c.buffer.getD []) (size_t (c.max_size * 2)) with
    | none => Exec.ok (some SIXEL_BAD_ALLOCATION, ⟨none, c.size, size_t (c.max_size * 2)⟩)
    | some buf => from_file_read block buf c.size (size_t (c.max_size * 2))
  else
    match c.buffer with
    | none => Exec.fault
    | some buf => from_file_read block buf c.size c.max_size

/-- The chunks at the head of the loop of `sixel_chunk_from_file` as called by
`sixel_chunk_new`: the chunk made by `sixel_chunk_init(*ppchunk, 1024 * 32)`, then the
chunk after every iteration that goes on, `fread` delivering at most 4096 bytes. -/
inductive from_file_reachable (malloc grant : Nat → Bool) (junk : Nat → Nat) : Chunk → Prop
  | init (c : Chunk) :
    sixel_chunk_init malloc junk (1024 * 32) = (SIXEL_OK, c) →
    from_file_reachable malloc grant junk c
  | step (c c1 : Chunk) (block : List Nat) :
    from_file_reachable malloc grant junk c → block.length ≤ 4096 →
    from_file_iteration grant junk block c = Exec.ok (none, c1) →
    from_file_reachable malloc grant junk c1


/-! ## Basic facts -/

@[simp] theorem Exec.ok_bind {α β : Type} (a : α) (f : α → Exec β) :
    (Exec.ok a >>= f) = f a := rfl

@[simp] theorem Exec.fault_bind {α β : Type} (f : α → Exec β) :
    ((Exec.fault : Exec α) >>= f) = Exec.fault := rfl

@[simp] theorem Exec.timeout_bind {α β : Type} (f : α → Exec β) :
    ((Exec.timeout : Exec α) >>= f) = Exec.timeout := rfl

@[simp] theorem Exec.pure_eq {α : Type} (a : α) : (pure a : Exec α) = Exec.ok a := rfl

theorem wrap32_eq (i : Int) (h0 : -2147483648 ≤ i) (h1 : i < 2147483648) : wrap32 i = i := by
  unfold wrap32; omega

/-! ## Facts about `pnm_get_line` -/

theorem get_line_copy_length (p : List Nat) (n : Nat) (line : List Nat) :
    (get_line_copy p n line).2.2.length = line.length := by
  induction p generalizing n line with
  | nil => simp [get_line_copy]
  | cons c p ih =>
    unfold get_line_copy
    split_ifs
    · rw [ih]; simp
    · rw [ih]
    · rfl

theorem get_line_copy_count (p : List Nat) (n : Nat) (line : List Nat) (hn : n ≤ 255) :
    (get_line_copy p n line).2.1 ≤ 255 := by
  induction p generalizing n line with
  | nil => simpa [get_line_copy] using hn
  | cons c p ih =>
    unfold get_line_copy
    split_ifs with h1 h2
    · exact ih _ _ (by omega)
    · exact ih _ _ hn
    · exact hn

theorem get_line_loop_length (k : Nat) (p line : List Nat) :
    (get_line_loop k p line).2.length = line.length := by
  induction k generalizing p line with
  | zero => rfl
  | succ k ih =>
    simp only [get_line_loop]
    split_ifs
    · rw [ih]; simp [get_line_copy_length]
    · simp [get_line_copy_length]

theorem pnm_get_line_length (p line : List Nat) :
    (pnm_get_line p line).2.length = line.length :=
  get_line_loop_length _ p line

theorem get_line_loop_nul_of_nul (k : Nat) (p line : List Nat) (h256 : line.length = 256)
    (h : 0 ∈ line) : 0 ∈ (get_line_loop k p line).2 := by
  induction k generalizing p line with
  | zero => exact h
  | succ k ih =>
    have hc := get_line_copy_count p 0 line (by omega)
    have hl := get_line_copy_length p 0 line
    have hmem : 0 ∈ (get_line_copy p 0 line).2.2.set (get_line_copy p 0 line).2.1 0 :=
      List.mem_set _ _ (by rw [hl]; omega) 0
    simp only [get_line_loop]
    split_ifs
    · exact ih _ _ (by simp [hl, h256]) hmem
    · exact hmem

theorem pnm_get_line_nul (p line : List Nat) (h256 : line.length = 256) :
    0 ∈ (pnm_get_line p line).2 := by
  have hc := get_line_copy_count p 0 line (by omega)
  have hl := get_line_copy_length p 0 line
  have hmem : 0 ∈ (get_line_copy p 0 line).2.2.set (get_line_copy p 0 line).2.1 0 :=
    List.mem_set _ _ (by rw [hl]; omega) 0
  simp only [pnm_get_line, get_line_loop]
  split_ifs
  · exact get_line_loop_nul_of_nul _ _ _ (by simp [hl, h256]) hmem
  · exact hmem

/-- Every byte counted by the copy loop has been consumed from the input. -/
theorem get_line_copy_consumed (p : List Nat) (n : Nat) (buf : List Nat) :
    (get_line_copy p n buf).1.length + ((get_line_copy p n buf).2.1 - n) ≤ p.length := by
  induction p generalizing n buf with
  | nil => simp [get_line_copy]
  | cons c p ih =>
    unfold get_line_copy
    split_ifs with h1 h2
    · have := ih (n + 1) (buf.set n c)
      simp only [List.length_cons]
      omega
    · have := ih n buf
      simp only [List.length_cons]
      omega
    · simp

/-- The fuel `p.length + 1` given to the loop of `pnm_get_line` is never exhausted: any
larger amount gives the same result. -/
theorem get_line_loop_fuel (k1 k2 : Nat) (p buf : List Nat) (h1 : p.length < k1)
    (h2 : p.length < k2) : get_line_loop k1 p buf = get_line_loop k2 p buf := by
  induction k1 generalizing k2 p buf with
  | zero => omega
  | succ k1 ih =>
    cases k2 with
    | zero => omega
    | succ k2 =>
      simp only [get_line_loop]
      by_cases hh : ((get_line_copy p 0 buf).2.2.set (get_line_copy p 0 buf).2.1 0).head?
          = some 35
      · rw [if_pos hh, if_pos hh]
        have hcons := get_line_copy_consumed p 0 buf
        have hn : (get_line_copy p 0 buf).2.1 ≠ 0 := by
          intro h0
          rw [h0] at hh
          cases hb : (get_line_copy p 0 buf).2.2 with
          | nil => rw [hb] at hh; simp at hh
          | cons b bs => rw [hb] at hh; simp at hh
        have hp1 : (skip_newline (get_line_copy p 0 buf).1).length
            ≤ (get_line_copy p 0 buf).1.length := by
          unfold skip_newline
          split
          · next q heq => rw [heq]; exact Nat.le_succ _
          · exact le_refl _
        exact ih k2 _ _ (by omega) (by omega)
      · rw [if_neg hh, if_neg hh]

theorem initial_tmp_length (stack : Nat → Nat) : (initial_tmp stack).length = 256 := by
  simp [initial_tmp]

/-! ## The header loops stay inside a NUL-terminated line -/

theorem parse_digits_ok (s : List Nat) (v : Int) (h : 0 ∈ s) :
    ∃ v1 s1, parse_digits s v = Exec.ok (v1, s1) ∧ 0 ∈ s1 := by
  induction s generalizing v with
  | nil => simp at h
  | cons c s ih =>
    unfold parse_digits
    split_ifs with hc
    · have : c ≠ 0 := by
        rintro rfl
        simp [isdigit] at hc
      have hs : 0 ∈ s := by
        rcases List.mem_cons.1 h with h0 | h0
        · exact absurd h0.symm this
        · exact h0
      exact ih _ hs
    · exact ⟨v, c :: s, rfl, h⟩

theorem skip_spaces_ok (s : List Nat) (h : 0 ∈ s) :
    ∃ s1, skip_spaces s = Exec.ok s1 ∧ 0 ∈ s1 := by
  induction s with
  | nil => simp at h
  | cons c s ih =>
    unfold skip_spaces
    split_ifs with hc
    · have hs : 0 ∈ s := by
        rcases List.mem_cons.1 h with h0 | h0
        · omega
        · exact h0
      exact ih hs
    · exact ⟨c :: s, rfl, h⟩

theorem skip_to_nul_ok (s : List Nat) (h : 0 ∈ s) :
    ∃ s1, skip_to_nul s = Exec.ok s1 ∧ s1.head? = some 0 := by
  induction s with
  | nil => simp at h
  | cons c s ih =>
    unfold skip_to_nul
    split_ifs with hc
    · have hs : 0 ∈ s := by
        rcases List.mem_cons.1 h with h0 | h0
        · omega
        · exact h0
      exact ih hs
    · exact ⟨c :: s, rfl, by simp at hc; simp [hc]⟩

/-- The header parse of lines 130 to 155 never leaves the token buffer: it always
completes. -/
theorem parse_dimensions_ok (ascii : Bool) (maps : Nat) (p tmp : List Nat)
    (h256 : tmp.length = 256) :
    ∃ h, parse_dimensions ascii maps p tmp = Exec.ok h ∧ h.ascii = ascii ∧ h.maps = maps ∧
      (maps = 0 → h.deps = 1 ∧ h.p = (pnm_get_line p tmp).1 ∧ h.tmp = (pnm_get_line p tmp).2 ∧
        h.s.head? = some 0) := by
  have hn2 := pnm_get_line_nul p tmp h256
  have hl2 := pnm_get_line_length p tmp
  obtain ⟨w, s1, e1, m1⟩ := parse_digits_ok _ 0 hn2
  obtain ⟨s2, e2, m2⟩ := skip_spaces_ok s1 m1
  obtain ⟨ht, s3, e3, m3⟩ := parse_digits_ok s2 0 m2
  obtain ⟨s4, e4, m4⟩ := skip_to_nul_ok s3 m3
  unfold parse_dimensions
  simp only [e1, e2, e3, e4, Exec.ok_bind]
  split_ifs with hm
  · have hn3 := pnm_get_line_nul (pnm_get_line p tmp).1 (pnm_get_line p tmp).2 (by omega)
    obtain ⟨d, s5, e5, _⟩ := parse_digits_ok _ 0 hn3
    simp only [e5, Exec.ok_bind, Exec.pure_eq]
    exact ⟨_, rfl, rfl, rfl, by omega⟩
  · simp only [Exec.pure_eq]
    exact ⟨_, rfl, rfl, rfl, fun _ => ⟨rfl, rfl, rfl, m4⟩⟩


theorem variant_eq_none (c : Nat) : variant c = none ↔ ¬ (49 ≤ c ∧ c ≤ 54) := by
  unfold variant
  constructor
  · intro h
    split_ifs at h
    omega
  · intro h
    split_ifs <;> first | omega | rfl

theorem variant_maps (c : Nat) (a : Bool) (m : Nat) (h : variant c = some (a, m)) :
    (m = 0 ↔ (c = 49 ∨ c = 52)) ∧ (a = true ↔ (c = 49 ∨ c = 50 ∨ c = 51)) := by
  unfold variant at h
  split_ifs at h
  all_goals
    simp only [Option.some.injEq, Prod.mk.injEq] at h
    obtain ⟨rfl, rfl⟩ := h
    simp_all

/-- The copy loop only writes at positions from `n` on and never moves `n` back. -/
theorem get_line_copy_below (p : List Nat) (n : Nat) (line : List Nat) :
    n ≤ (get_line_copy p n line).2.1 ∧
      ∀ i, i < n → ((get_line_copy p n line).2.2)[i]? = (line)[i]? := by
  induction p generalizing n line with
  | nil => simp [get_line_copy]
  | cons c p ih =>
    unfold get_line_copy
    split_ifs with h1 h2
    · obtain ⟨a, b⟩ := ih (n + 1) (line.set n c)
      refine ⟨by omega, fun i hi => ?_⟩
      rw [b i (by omega), List.getElem?_set_ne (by omega)]
    · exact ih n line
    · exact ⟨le_refl _, fun _ _ => rfl⟩

/-- A first line that starts with two printable bytes, the first of them not `'#'`, is
returned with these two bytes in front. -/
theorem pnm_get_line_two (a b : Nat) (rest line : List Nat) (ha : 32 ≤ a) (hb : 32 ≤ b)
    (ha35 : a ≠ 35) (h256 : line.length = 256) :
    (pnm_get_line (a :: b :: rest) line).2[0]? = some a ∧
      (pnm_get_line (a :: b :: rest) line).2[1]? = some b := by
  have hcopy : get_line_copy (a :: b :: rest) 0 line
      = get_line_copy rest 2 ((line.set 0 a).set 1 b) := by
    simp [get_line_copy, ha, hb]
  obtain ⟨hn, hbelow⟩ := get_line_copy_below rest 2 ((line.set 0 a).set 1 b)
  have hlen := get_line_copy_length rest 2 ((line.set 0 a).set 1 b)
  have h0 : ((get_line_copy rest 2 ((line.set 0 a).set 1 b)).2.2.set
      (get_line_copy rest 2 ((line.set 0 a).set 1 b)).2.1 0)[0]? = some a := by
    rw [List.getElem?_set_ne (by omega), hbelow 0 (by omega), List.getElem?_set_ne (by omega),
      List.getElem?_set_self (by omega)]
  have h1 : ((get_line_copy rest 2 ((line.set 0 a).set 1 b)).2.2.set
      (get_line_copy rest 2 ((line.set 0 a).set 1 b)).2.1 0)[1]? = some b := by
    rw [List.getElem?_set_ne (by omega), hbelow 1 (by omega),
      List.getElem?_set_self (by simp; omega)]
  have hhead : ((get_line_copy rest 2 ((line.set 0 a).set 1 b)).2.2.set
      (get_line_copy rest 2 ((line.set 0 a).set 1 b)).2.1 0).head? ≠ some 35 := by
    rw [List.head?_eq_getElem?, h0]
    simpa using ha35
  simp only [pnm_get_line, get_line_loop, hcopy, if_neg hhead]
  exact ⟨h0, h1⟩

/-- After validation of the header `load_pnm` sets no magic-stage message. -/
theorem decode_message (fuel : Nat) (malloc : Nat → Bool) (h : Header) (r : LoadResult)
    (hr : decode fuel malloc h = Exec.ok r) :
    r.message ≠ some Message.not_P ∧ r.message ≠ some Message.unknown_format := by
  unfold decode at hr
  split_ifs at hr
  · cases hr; simp
  · cases hr; simp
  · split at hr
    · cases hr; simp
    · cases hr
    · cases hr

/-- C3. `load_pnm` fails at the magic stage (status `SIXEL_RUNTIME_ERROR` with one of the
two messages of lines 91 to 128, `*result` left `NULL`, none of `*psx`, `*psy`,
`*ppixelformat` written, allocator not called) if and only if the first two bytes of the
first non-comment line returned by `pnm_get_line` are not `'P'` followed by one of
`'1'..'6'`; the empty input and every input that begins with "PX" fail in this way. -/
theorem load_pnm_magic_stage (fuel : Nat) (stack : Nat → Nat) (malloc : Nat → Bool)
    (input : List Nat) :
    ((∃ msg, (msg = Message.not_P ∨ msg = Message.unknown_format) ∧
        load_pnm fuel stack malloc input
          = Exec.ok ⟨SIXEL_RUNTIME_ERROR, some msg, none, none, none, none, none⟩) ↔
      ¬ ((pnm_get_line input (initial_tmp stack)).2.getD 0 0 = 80 ∧
          49 ≤ (pnm_get_line input (initial_tmp stack)).2.getD 1 0 ∧
          (pnm_get_line input (initial_tmp stack)).2.getD 1 0 ≤ 54)) ∧
    load_pnm fuel stack malloc []
      = Exec.ok ⟨SIXEL_RUNTIME_ERROR, some Message.not_P, none, none, none, none, none⟩ ∧
    ∀ rest, load_pnm fuel stack malloc (80 :: 88 :: rest)
      = Exec.ok ⟨SIXEL_RUNTIME_ERROR, some Message.unknown_format, none, none, none, none,
          none⟩ := by
  refine ⟨⟨?_, ?_⟩, ?_, ?_⟩
  · rintro ⟨msg, hmsg, hrun⟩ ⟨hP, h1, h6⟩
    unfold load_pnm at hrun
    simp only [hP, ne_eq, not_true_eq_false, if_false] at hrun
    cases hv : variant ((pnm_get_line input (initial_tmp stack)).2.getD 1 0) with
    | none => exact (variant_eq_none _).1 hv ⟨h1, h6⟩
    | some am =>
      obtain ⟨a, m⟩ := am
      obtain ⟨h, hh, _⟩ := parse_dimensions_ok a m (pnm_get_line input (initial_tmp stack)).1
        (pnm_get_line input (initial_tmp stack)).2
        (by rw [pnm_get_line_length, initial_tmp_length])
      simp only [hv, hh] at hrun
      have hm := decode_message fuel malloc h _ hrun
      rcases hmsg with rfl | rfl
      · exact hm.1 rfl
      · exact hm.2 rfl
  · intro hbad
    unfold load_pnm
    by_cases hP : (pnm_get_line input (initial_tmp stack)).2.getD 0 0 = 80
    · have hv : variant ((pnm_get_line input (initial_tmp stack)).2.getD 1 0) = none :=
        (variant_eq_none _).2 (fun h => hbad ⟨hP, h⟩)
      simp only [hP, ne_eq, not_true_eq_false, if_false, hv]
      exact ⟨_, Or.inr rfl, rfl⟩
    · simp only [ne_eq, hP, not_false_eq_true, if_true]
      exact ⟨_, Or.inl rfl, rfl⟩
  · have h0 : (pnm_get_line [] (initial_tmp stack)).2.getD 0 0 = 0 := by
      have hl := initial_tmp_length stack
      have hne : ((initial_tmp stack).set 0 0).head? ≠ some 35 := by
        rw [List.head?_eq_getElem?, List.getElem?_set_self (by omega)]
        simp
      simp only [pnm_get_line, get_line_loop, get_line_copy, if_neg hne,
        List.getD_eq_getElem?_getD]
      rw [List.getElem?_set_self (by omega)]
      rfl
    unfold load_pnm
    rw [if_pos (by rw [h0]; decide)]
  · intro rest
    obtain ⟨h0, h1⟩ := pnm_get_line_two 80 88 rest (initial_tmp stack) (by omega) (by omega)
      (by omega) (initial_tmp_length stack)
    unfold load_pnm
    simp only [List.getD_eq_getElem?_getD, h0, h1, Option.getD_some]
    simp [variant]

/-- C4. For every input with a valid magic the header parse completes, and if the parsed
width is below 1, or the parsed height is below 1, or the parsed depth is below 1,
`load_pnm` returns `SIXEL_RUNTIME_ERROR` with `*result = NULL` without calling the
allocator; for the bitmap variants (`P1`, `P4`) the depth is 1 and the input cursor after
the header is the one returned for the dimension line (no depth line is consumed). -/
theorem load_pnm_rejects_dimensions (fuel : Nat) (stack : Nat → Nat) (malloc : Nat → Bool)
    (input : List Nat)
    (hP : (pnm_get_line input (initial_tmp stack)).2.getD 0 0 = 80)
    (hd : 49 ≤ (pnm_get_line input (initial_tmp stack)).2.getD 1 0 ∧
      (pnm_get_line input (initial_tmp stack)).2.getD 1 0 ≤ 54) :
    ∃ ascii maps, variant ((pnm_get_line input (initial_tmp stack)).2.getD 1 0)
        = some (ascii, maps) ∧
      (∃ h, parse_dimensions ascii maps (pnm_get_line input (initial_tmp stack)).1
        (pnm_get_line input (initial_tmp stack)).2 = Exec.ok h) ∧
      (∀ h, parse_dimensions ascii maps (pnm_get_line input (initial_tmp stack)).1
          (pnm_get_line input (initial_tmp stack)).2 = Exec.ok h →
        ((h.width < 1 ∨ h.height < 1 ∨ h.deps < 1) →
          load_pnm fuel stack malloc input
            = Exec.ok ⟨SIXEL_RUNTIME_ERROR, some Message.invalid_data, none, none, none, none,
                none⟩) ∧
        (((pnm_get_line input (initial_tmp stack)).2.getD 1 0 = 49 ∨
            (pnm_get_line input (initial_tmp stack)).2.getD 1 0 = 52) →
          h.deps = 1 ∧
          h.p = (pnm_get_line (pnm_get_line input (initial_tmp stack)).1
            (pnm_get_line input (initial_tmp stack)).2).1)) := by
  cases hv : variant ((pnm_get_line input (initial_tmp stack)).2.getD 1 0) with
  | none => exact absurd hd ((variant_eq_none _).1 hv)
  | some am =>
    obtain ⟨a, m⟩ := am
    obtain ⟨h0, hh0, _, _, hbit⟩ := parse_dimensions_ok a m
      (pnm_get_line input (initial_tmp stack)).1 (pnm_get_line input (initial_tmp stack)).2
      (by rw [pnm_get_line_length, initial_tmp_length])
    refine ⟨a, m, rfl, ⟨h0, hh0⟩, fun h hh => ⟨fun hbad => ?_, fun hb => ?_⟩⟩
    · unfold load_pnm
      simp only [hP, ne_eq, not_true_eq_false, if_false, hv, hh]
      unfold decode
      rw [if_pos hbad]
    · have hm : m = 0 := (variant_maps _ a m hv).1.2 hb
      have he : h = h0 := by
        rw [hh0] at hh
        cases hh
        rfl
      subst he
      exact ⟨(hbit hm).1, (hbit hm).2.1⟩

/-- Witness of C4: the input "P6\n0 5\n255\n" (zero width) is rejected. -/
theorem load_pnm_rejects_dimensions_witness :
    load_pnm 0 (fun _ => 0) (fun _ => true) [80, 54, 10, 48, 32, 53, 10, 50, 53, 53, 10]
      = Exec.ok ⟨SIXEL_RUNTIME_ERROR, some Message.invalid_data, none, none, none, none,
          none⟩ := by
  obtain ⟨a, m, hv, hall⟩ := load_pnm_rejects_dimensions 0 (fun _ => 0) (fun _ => true)
    [80, 54, 10, 48, 32, 53, 10, 50, 53, 53, 10] (by decide) (by decide)
  have hv2 : variant ((pnm_get_line [80, 54, 10, 48, 32, 53, 10, 50, 53, 53, 10]
      (initial_tmp (fun _ => 0))).2.getD 1 0) = some (false, 2) := by decide
  rw [hv2] at hv
  cases hv
  obtain ⟨⟨h, hh⟩, hall⟩ := hall
  have hw : (match parse_dimensions false 2
      (pnm_get_line [80, 54, 10, 48, 32, 53, 10, 50, 53, 53, 10] (initial_tmp (fun _ => 0))).1
      (pnm_get_line [80, 54, 10, 48, 32, 53, 10, 50, 53, 53, 10] (initial_tmp (fun _ => 0))).2
      with
    | Exec.ok h => decide (h.width < 1)
    | _ => false) = true := by decide
  rw [hh] at hw
  exact (hall h hh).1 (Or.inl (of_decide_eq_true hw))


/-! ## Lines without comment -/

/-- The copy loop on a run of printable bytes that fits the buffer. -/
theorem get_line_copy_run (run pre old rest : List Nat) (hrun : ∀ c ∈ run, 32 ≤ c)
    (hfit : pre.length + run.length ≤ 255) (hold : run.length ≤ old.length)
    (hrest : rest.head?.all (fun c => decide (c < 32)) = true) :
    get_line_copy (run ++ rest) pre.length (pre ++ old)
      = (rest, pre.length + run.length, pre ++ run ++ old.drop run.length) := by
  induction run generalizing pre old with
  | nil =>
    cases rest with
    | nil => simp [get_line_copy]
    | cons c q =>
      have hc : ¬ 32 ≤ c := by simpa using hrest
      simp [get_line_copy, hc]
  | cons c run ih =>
    cases old with
    | nil => simp at hold
    | cons o old =>
      have h32 : 32 ≤ c := hrun c (by simp)
      have hlt : pre.length < 255 := by simp at hfit; omega
      have hset : (pre ++ o :: old).set pre.length c = (pre ++ [c]) ++ old := by
        simp
      have := ih (pre ++ [c]) old (fun x hx => hrun x (by simp [hx]))
        (by simp at hfit ⊢; omega) (by simpa using hold)
      simp only [List.length_append, List.length_singleton] at this
      show get_line_copy (c :: (run ++ rest)) pre.length (pre ++ o :: old) = _
      rw [get_line_copy, if_pos h32, if_pos hlt, hset, this]
      simp [Nat.add_assoc, Nat.add_comm 1]

/-- A line of at most 255 printable bytes that does not begin with `'#'` and is ended by
a newline is returned whole, NUL-terminated, with the cursor after the newline. -/
theorem pnm_get_line_run (run rest buf : List Nat) (hrun : ∀ c ∈ run, 32 ≤ c)
    (hfit : run.length ≤ 255) (hhead : run.head? ≠ some 35) (h256 : buf.length = 256) :
    pnm_get_line (run ++ 10 :: rest) buf = (rest, run ++ 0 :: buf.drop (run.length + 1)) := by
  have hcopy := get_line_copy_run run [] buf (10 :: rest) hrun (by simpa using hfit)
    (by omega) (by simp)
  simp only [List.length_nil, Nat.zero_add, List.nil_append] at hcopy
  have hset : (run ++ buf.drop run.length).set run.length 0
      = run ++ 0 :: buf.drop (run.length + 1) := by
    rw [List.set_append_right _ _ (le_refl _)]
    simp only [Nat.sub_self]
    congr 1
    rw [List.drop_eq_getElem_cons (by omega : run.length < buf.length)]
    rfl
  have hh : (run ++ 0 :: buf.drop (run.length + 1)).head? ≠ some 35 := by
    cases run with
    | nil => simp
    | cons c run => simpa using hhead
  simp only [pnm_get_line, get_line_loop, hcopy, hset, if_neg hh, skip_newline]

theorem parse_digits_little (L : List Nat) (hL : ∀ d ∈ L, d < 10) (v : Nat) (tail : List Nat)
    (hb : v * 10 ^ L.length + Nat.ofDigits 10 L < 2147483648) :
    parse_digits ((L.reverse.map (fun d => d + 48)) ++ tail) (v : Int)
      = parse_digits tail ((v * 10 ^ L.length + Nat.ofDigits 10 L : Nat) : Int) := by
  induction L generalizing tail with
  | nil => simp
  | cons d L ih =>
    have hd : d < 10 := hL d (by simp)
    have hsplit : ((d :: L).reverse.map (fun d => d + 48)) ++ tail
        = (L.reverse.map (fun d => d + 48)) ++ ((d + 48) :: tail) := by simp
    have hexp : v * 10 ^ (d :: L).length + Nat.ofDigits 10 (d :: L)
        = (v * 10 ^ L.length + Nat.ofDigits 10 L) * 10 + d := by
      simp [Nat.ofDigits_cons, pow_succ]; ring
    rw [hexp] at hb ⊢
    rw [hsplit, ih (fun x hx => hL x (by simp [hx])) _ (by omega)]
    generalize v * 10 ^ L.length + Nat.ofDigits 10 L = u at hb ⊢
    have hdig : isdigit (d + 48) = true := by simp [isdigit]; omega
    have hw : wrap32 (wrap32 ((u : Int) * 10) + (((d + 48 : Nat) : Int) - 48))
        = ((u * 10 + d : Nat) : Int) := by
      rw [wrap32_eq ((u : Int) * 10) (by omega) (by omega)]
      rw [wrap32_eq _ (by push_cast; omega) (by push_cast; omega)]
      push_cast; ring
    rw [parse_digits, if_pos ⟨hdig, by omega⟩, hw]

theorem parse_digits_decimal (n : Nat) (hn : n < 2147483648) (c : Nat) (rest : List Nat)
    (hc : isdigit c = false) :
    parse_digits (decimal n ++ c :: rest) 0 = Exec.ok ((n : Int), c :: rest) := by
  have h := parse_digits_little (Nat.digits 10 n) (fun d hd => Nat.digits_lt_base (by omega) hd)
    0 (c :: rest) (by simpa [Nat.ofDigits_digits] using hn)
  simp only [Nat.zero_mul, Nat.zero_add, Nat.ofDigits_digits, Nat.cast_zero] at h
  rw [decimal, h, parse_digits, if_neg (by simp [hc])]

theorem decimal_printable (n : Nat) : ∀ c ∈ decimal n, 48 ≤ c ∧ c ≤ 57 := by
  intro c hc
  simp only [decimal, List.mem_map, List.mem_reverse] at hc
  obtain ⟨d, hd, rfl⟩ := hc
  have := Nat.digits_lt_base (by omega : 1 < 10) hd
  omega

theorem decimal_length (n : Nat) (hn : n < 2147483648) : (decimal n).length ≤ 10 := by
  simp only [decimal, List.length_map, List.length_reverse]
  by_contra hlen
  push_neg at hlen
  rcases Nat.eq_zero_or_pos n with h0 | hpos
  · subst h0; simp at hlen
  · have h1 := Nat.base_pow_length_digits_le 10 n (by omega) (by omega)
    have h2 : 10 ^ 11 ≤ 10 ^ (Nat.digits 10 n).length :=
      Nat.pow_le_pow_right (by omega) (by omega)
    omega

theorem decimal_ne_nil (n : Nat) (hn : 1 ≤ n) : decimal n ≠ [] := by
  simp only [decimal, ne_eq, List.map_eq_nil_iff, List.reverse_eq_nil_iff,
    Nat.digits_eq_nil_iff_eq_zero]
  omega



theorem skip_spaces_digit (c : Nat) (s : List Nat) (hc : c ≠ 32) :
    skip_spaces (32 :: c :: s) = Exec.ok (c :: s) := by
  simp [skip_spaces, hc]

/-- The header of a graymap or pixmap file is parsed to its width, height and depth, with
the input cursor left on the first byte of the pixel data. -/
theorem parse_header_pnm_file (stack : Nat → Nat) (m w h depth : Nat) (data : List Nat)
    (a : Bool) (mp : Nat) (hv : variant m = some (a, mp)) (hmp : 0 < mp)
    (hw : 1 ≤ w) (hw2 : w < 2147483648) (hh : 1 ≤ h) (hh2 : h < 2147483648)
    (hd : 1 ≤ depth) (hd2 : depth < 2147483648) :
    (pnm_get_line (pnm_file m w h depth data) (initial_tmp stack)).2.getD 0 0 = 80 ∧
    (pnm_get_line (pnm_file m w h depth data) (initial_tmp stack)).2.getD 1 0 = m ∧
    ∃ tmp s, parse_dimensions a mp
        (pnm_get_line (pnm_file m w h depth data) (initial_tmp stack)).1
        (pnm_get_line (pnm_file m w h depth data) (initial_tmp stack)).2
      = Exec.ok ⟨a, mp, w, h, depth, data, tmp, s⟩ := by
  have hm : 49 ≤ m ∧ m ≤ 54 := by
    by_contra hcon
    rw [(variant_eq_none m).2 hcon] at hv
    cases hv
  -- first line
  have e1 : pnm_file m w h depth data = [80, m] ++ 10 ::
      ((decimal w ++ 32 :: decimal h) ++ 10 :: (decimal depth ++ 10 :: data)) := by
    simp [pnm_file]
  have l1 := pnm_get_line_run [80, m]
    ((decimal w ++ 32 :: decimal h) ++ 10 :: (decimal depth ++ 10 :: data)) (initial_tmp stack)
    (by intro c hc; simp at hc; rcases hc with rfl | rfl <;> omega) (by simp) (by simp)
    (initial_tmp_length stack)
  rw [← e1] at l1
  rw [l1]
  refine ⟨rfl, rfl, ?_⟩
  -- second line
  have hpw := decimal_printable w
  have hph := decimal_printable h
  have hpd := decimal_printable depth
  have hlw := decimal_length w hw2
  have hlh := decimal_length h hh2
  have hld := decimal_length depth hd2
  obtain ⟨cw, qw, ew⟩ := List.exists_cons_of_ne_nil (decimal_ne_nil w hw)
  obtain ⟨ch, qh, eh⟩ := List.exists_cons_of_ne_nil (decimal_ne_nil h hh)
  obtain ⟨cd, qd, ed⟩ := List.exists_cons_of_ne_nil (decimal_ne_nil depth hd)
  have hcw := hpw cw (by simp [ew])
  have hch := hph ch (by simp [eh])
  have hcd := hpd cd (by simp [ed])
  have len1 : ([80, m] ++ 0 :: List.drop ([80, m].length + 1) (initial_tmp stack)).length
      = 256 := by
    simp [initial_tmp_length]
  have l2 := pnm_get_line_run (decimal w ++ 32 :: decimal h) (decimal depth ++ 10 :: data)
    ([80, m] ++ 0 :: List.drop ([80, m].length + 1) (initial_tmp stack))
    (by
      intro c hc
      simp only [List.mem_append, List.mem_cons] at hc
      rcases hc with hc | rfl | hc
      · exact le_trans (by omega) (hpw c hc).1
      · omega
      · exact le_trans (by omega) (hph c hc).1)
    (by simp; omega) (by rw [ew]; simp; omega) len1
  have len2 : ((decimal w ++ 32 :: decimal h) ++ 0 :: List.drop
      ((decimal w ++ 32 :: decimal h).length + 1)
      ([80, m] ++ 0 :: List.drop ([80, m].length + 1) (initial_tmp stack))).length = 256 := by
    have := pnm_get_line_length ((decimal w ++ 32 :: decimal h) ++ 10 ::
      (decimal depth ++ 10 :: data))
      ([80, m] ++ 0 :: List.drop ([80, m].length + 1) (initial_tmp stack))
    rw [l2] at this
    rw [this, len1]
  have l3 := pnm_get_line_run (decimal depth) data _
    (fun c hc => le_trans (by omega) (hpd c hc).1) (by omega) (by rw [ed]; simp; omega) len2
  generalize ([80, m] ++ 0 :: List.drop ([80, m].length + 1) (initial_tmp stack)) = tmp1
    at l2 l3 len2 ⊢
  unfold parse_dimensions
  simp only [l2, l3]
  generalize List.drop ((decimal w ++ 32 :: decimal h).length + 1) tmp1 = stale2
  generalize List.drop ((decimal depth).length + 1)
    ((decimal w ++ 32 :: decimal h) ++ 0 :: stale2) = stale3
  have p1 : parse_digits ((decimal w ++ 32 :: decimal h) ++ 0 :: stale2) 0
      = Exec.ok ((w : Int), 32 :: (decimal h ++ 0 :: stale2)) := by
    have := parse_digits_decimal w hw2 32 (decimal h ++ 0 :: stale2) (by decide)
    simpa using this
  have p2 : skip_spaces (32 :: (decimal h ++ 0 :: stale2))
      = Exec.ok (decimal h ++ 0 :: stale2) := by
    rw [eh]
    exact skip_spaces_digit ch _ (by omega)
  have p3 : parse_digits (decimal h ++ 0 :: stale2) 0 = Exec.ok ((h : Int), 0 :: stale2) :=
    parse_digits_decimal h hh2 0 stale2 (by decide)
  have p4 : skip_to_nul (0 :: stale2) = Exec.ok (0 :: stale2) := by simp [skip_to_nul]
  have p5 : parse_digits (decimal depth ++ 0 :: stale3) 0
      = Exec.ok ((depth : Int), 0 :: stale3) :=
    parse_digits_decimal depth hd2 0 stale3 (by decide)
  simp only [p1, p2, p3, p4, p5, Exec.ok_bind, hmp, if_true, Exec.pure_eq]
  exact ⟨_, _, rfl⟩



/-! ## The pixel loop of the binary pixmap -/

theorem store_at (A C : List Nat) (b : Nat) (v : Int) :
    store (A ++ b :: C) (A.length : Int) v = Exec.ok (A ++ uchar_of_int v :: C) := by
  unfold store
  rw [if_pos ⟨by omega, by simp⟩]
  simp

theorem store_pixel_at (A C : List Nat) (b0 b1 b2 : Nat) (v : Int × Int × Int) :
    store_pixel (A ++ b0 :: b1 :: b2 :: C) (A.length : Int) v
      = Exec.ok (A ++ uchar_of_int v.1 :: uchar_of_int v.2.1 :: uchar_of_int v.2.2 :: C) := by
  unfold store_pixel
  have e0 : ((A.length : Int) + 0) = (A.length : Int) := by omega
  have e1 : ((A.length : Int) + 1) = ((A ++ [uchar_of_int v.1]).length : Int) := by simp
  have e2 : ((A.length : Int) + 2)
      = ((A ++ [uchar_of_int v.1, uchar_of_int v.2.1]).length : Int) := by simp
  have s1 : A ++ uchar_of_int v.1 :: b1 :: b2 :: C
      = (A ++ [uchar_of_int v.1]) ++ b1 :: b2 :: C := by simp
  have s2 : (A ++ [uchar_of_int v.1]) ++ uchar_of_int v.2.1 :: b2 :: C
      = (A ++ [uchar_of_int v.1, uchar_of_int v.2.1]) ++ b2 :: C := by simp
  rw [e0, store_at, Exec.ok_bind, e1, s1, store_at, Exec.ok_bind, e2, s2, store_at]
  simp

theorem pixel_offset_eq (w x y : Nat) (hb : (y * w + x) * 3 < 2147483648) :
    pixel_offset (w : Int) x y = (((y * w + x) * 3 : Nat) : Int) := by
  unfold pixel_offset
  have h1 : ((y : Int) * (w : Int)) = ((y * w : Nat) : Int) := by push_cast; rfl
  have w1 : wrap32 ((y * w : Nat) : Int) = ((y * w : Nat) : Int) :=
    wrap32_eq _ (by omega) (by omega)
  have w2 : wrap32 (((y * w : Nat) : Int) + (x : Int)) = ((y * w + x : Nat) : Int) := by
    rw [wrap32_eq _ (by omega) (by omega)]; push_cast; rfl
  have w3 : wrap32 (((y * w + x : Nat) : Int) * 3) = (((y * w + x) * 3 : Nat) : Int) := by
    rw [wrap32_eq _ (by omega) (by omega)]; push_cast; rfl
  rw [h1, w1, w2, w3]

theorem read_components_pixmap (fuel x : Nat) (c0 c1 c2 : Nat) (q tmp s res : List Nat) :
    read_components fuel false 2 x 3 ⟨c0 :: c1 :: c2 :: q, tmp, s, res⟩ []
      = Exec.ok (some [(c0 : Int), (c1 : Int), (c2 : Int)], ⟨q, tmp, s, res⟩) := by
  simp [read_components, read_binary]

theorem three_cons {α : Type} (P : List α) (k : Nat) (h : P.length = 3 * (k + 1)) :
    ∃ c0 c1 c2 P1, P = c0 :: c1 :: c2 :: P1 ∧ P1.length = 3 * k := by
  match P, h with
  | c0 :: c1 :: c2 :: P1, h => exact ⟨c0, c1, c2, P1, rfl, by simp at h; omega⟩

theorem loop_x_zero (fuel : Nat) (h : Header) (y x : Nat) (d : Decoder) :
    loop_x fuel h y 0 x d = Exec.ok d := rfl

theorem loop_x_succ (fuel : Nat) (h : Header) (y k x : Nat) (d : Decoder) :
    loop_x fuel h y (k + 1) x d =
      match read_components fuel h.ascii h.maps x (if h.maps = 2 then 3 else 1) d [] with
      | Exec.ok (none, d1) => Exec.ok d1
      | Exec.ok (some comp, d1) =>
        match store_pixel d1.result (pixel_offset h.width x y)
            (to_samples h.maps h.deps comp) with
        | Exec.ok r => loop_x fuel h y k (x + 1) { d1 with result := r }
        | Exec.fault => Exec.fault
        | Exec.timeout => Exec.timeout
      | Exec.fault => Exec.fault
      | Exec.timeout => Exec.timeout := rfl

/-- One row of a binary pixmap whose data is complete: the next `k` pixels of the row are
the scaled data bytes, everything else in the raster is unchanged. -/
theorem loop_x_pixmap (fuel : Nat) (h : Header) (w y : Nat) (ha : h.ascii = false)
    (hm : h.maps = 2) (hw : h.width = (w : Int)) :
    ∀ (k x : Nat) (A B C P Q tmp s : List Nat), A.length = (y * w + x) * 3 →
      B.length = 3 * k → P.length = 3 * k → (y * w + x + k) * 3 < 2147483648 →
      loop_x fuel h y k x ⟨P ++ Q, tmp, s, A ++ B ++ C⟩
        = Exec.ok ⟨Q, tmp, s, A ++ P.map (sample h.deps) ++ C⟩ := by
  intro k
  induction k with
  | zero =>
    intro x A B C P Q tmp s _ hB hP _
    have hB0 : B = [] := List.length_eq_zero.1 (by omega)
    have hP0 : P = [] := List.length_eq_zero.1 (by omega)
    subst hB0 hP0
    simp only [loop_x_zero, List.nil_append, List.append_nil, List.map_nil]
  | succ k ih =>
    intro x A B C P Q tmp s hA hB hP hbound
    obtain ⟨c0, c1, c2, P1, rfl, hP1⟩ := three_cons P k hP
    obtain ⟨b0, b1, b2, B1, rfl, hB1⟩ := three_cons B k hB
    have hoff : pixel_offset h.width x y = (A.length : Int) := by
      rw [hw, pixel_offset_eq w x y (by omega), hA]
    have hres : A ++ [b0, b1, b2] ++ B1 ++ C = A ++ b0 :: b1 :: b2 :: (B1 ++ C) := by simp
    have hnext := ih (x + 1)
      (A ++ [sample h.deps c0, sample h.deps c1, sample h.deps c2]) B1 C P1 Q tmp s
      (by simp; omega) hB1 hP1 (by omega)
    simp only [loop_x_succ, ha, hm, if_true, List.cons_append, read_components_pixmap]
    have hres2 : A ++ b0 :: b1 :: b2 :: B1 ++ C = A ++ b0 :: b1 :: b2 :: (B1 ++ C) := by simp
    rw [hres2, hoff, store_pixel_at]
    simp only [to_samples, List.getD_cons_zero, List.getD_cons_succ]
    simp only [show (2 : Nat) ≠ 0 by omega, show (2 : Nat) ≠ 1 by omega, if_false]
    have hfin : A ++ uchar_of_int (scale (↑c0) h.deps) :: uchar_of_int (scale (↑c1) h.deps) ::
        uchar_of_int (scale (↑c2) h.deps) :: (B1 ++ C)
        = A ++ [sample h.deps c0, sample h.deps c1, sample h.deps c2] ++ B1 ++ C := by
      simp [sample]
    rw [hfin, hnext]
    simp

/-- The rows of a binary pixmap whose data is complete. -/
theorem loop_y_pixmap (fuel : Nat) (h : Header) (w : Nat) (ha : h.ascii = false)
    (hm : h.maps = 2) (hw : h.width = (w : Int)) :
    ∀ (k y : Nat) (A B C P Q tmp s : List Nat), A.length = y * w * 3 →
      B.length = 3 * (w * k) → P.length = 3 * (w * k) → (y + k) * w * 3 < 2147483648 →
      loop_y fuel h k y ⟨P ++ Q, tmp, s, A ++ B ++ C⟩
        = Exec.ok ⟨Q, tmp, s, A ++ P.map (sample h.deps) ++ C⟩ := by
  intro k
  induction k with
  | zero =>
    intro y A B C P Q tmp s _ hB hP _
    have hB0 : B = [] := List.length_eq_zero.1 (by omega)
    have hP0 : P = [] := List.length_eq_zero.1 (by omega)
    subst hB0 hP0
    simp only [loop_y, List.nil_append, List.append_nil, List.map_nil]
  | succ k ih =>
    intro y A B C P Q tmp s hA hB hP hbound
    have e1 : w * (k + 1) = w + w * k := by ring
    have e2 : (y + (k + 1)) * w * 3 = (y * w + 0 + w) * 3 + w * k * 3 := by ring
    have e3 : (y + 1 + k) * w * 3 = (y + (k + 1)) * w * 3 := by ring
    have e4 : (y + 1) * w * 3 = y * w * 3 + 3 * w := by ring
    have hrow := loop_x_pixmap fuel h w y ha hm hw w 0 A (B.take (3 * w))
      (B.drop (3 * w) ++ C) (P.take (3 * w)) (P.drop (3 * w) ++ Q) tmp s
      (by omega) (by rw [List.length_take]; omega) (by rw [List.length_take]; omega)
      (by omega)
    have hrest := ih (y + 1) (A ++ (P.take (3 * w)).map (sample h.deps)) (B.drop (3 * w)) C
      (P.drop (3 * w)) Q tmp s
      (by rw [List.length_append, List.length_map, List.length_take]; omega)
      (by rw [List.length_drop]; omega) (by rw [List.length_drop]; omega) (by omega)
    have hP2 : P ++ Q = P.take (3 * w) ++ (P.drop (3 * w) ++ Q) := by
      rw [← List.append_assoc, List.take_append_drop]
    have hB2 : A ++ B ++ C = A ++ B.take (3 * w) ++ (B.drop (3 * w) ++ C) := by
      simp only [List.append_assoc]
      rw [← List.append_assoc (B.take (3 * w)), List.take_append_drop]
    have hfin : A ++ (P.take (3 * w)).map (sample h.deps) ++
        (P.drop (3 * w)).map (sample h.deps) ++ C = A ++ P.map (sample h.deps) ++ C := by
      rw [List.append_assoc A, ← List.map_append, List.take_append_drop]
    have hwn : h.width.toNat = w := by rw [hw]; simp
    rw [loop_y, hwn, hP2, hB2, hrow]
    simp only []
    have hB3 : A ++ (P.take (3 * w)).map (sample h.deps) ++ (B.drop (3 * w) ++ C)
        = A ++ (P.take (3 * w)).map (sample h.deps) ++ B.drop (3 * w) ++ C := by
      simp only [List.append_assoc]
    rw [hB3, hrest, hfin]

theorem sample_255 (c : Nat) (hc : c < 256) : sample 255 c = c := by
  unfold sample scale uchar_of_int
  have h1 : wrap32 ((c : Int) * 255) = (c : Int) * 255 := wrap32_eq _ (by omega) (by omega)
  have h2 : ((c : Int) * 255).tdiv 255 = (c : Int) := by
    rw [Int.tdiv_eq_ediv (by omega) (by omega)]
    exact Int.mul_ediv_cancel _ (by omega)
  rw [h1, h2, wrap32_eq _ (by omega) (by omega)]
  omega

theorem raster_size_eq (w h : Nat) (hb : w * h * 3 + 1 < 2147483648) :
    raster_size (w : Int) (h : Int) = w * h * 3 + 1 := by
  have h1 : ((w : Int) * (h : Int)) = ((w * h : Nat) : Int) := by push_cast; rfl
  have w1 : wrap32 ((w * h : Nat) : Int) = ((w * h : Nat) : Int) :=
    wrap32_eq _ (by omega) (by omega)
  have w2 : wrap32 (((w * h : Nat) : Int) * 3) = ((w * h * 3 : Nat) : Int) := by
    rw [wrap32_eq _ (by omega) (by omega)]; push_cast; rfl
  have w3 : wrap32 (((w * h * 3 : Nat) : Int) + 1) = ((w * h * 3 + 1 : Nat) : Int) := by
    rw [wrap32_eq _ (by omega) (by omega)]; push_cast; rfl
  unfold raster_size
  rw [h1, w1, w2, w3]
  unfold size_t_of_int
  generalize w * h * 3 + 1 = n at hb
  omega

theorem decimal_255 : decimal 255 = [50, 53, 53] := by norm_num [decimal]

/-- C1. Binary pixmap round trip: for every width and height of at least 1 with
`width * height * 3` in the range of `int` and every raster `r` of `width * height * 3`
bytes, `load_pnm` applied to "P6\n<width> <height>\n255\n" followed by `r` returns
`SIXEL_OK` with `*psx = width`, `*psy = height`, and the first `width * height * 3` bytes
of `*result` are `r` (the allocator being one that grants the raster). -/
theorem load_pnm_pixmap_round_trip (fuel : Nat) (stack : Nat → Nat) (malloc : Nat → Bool)
    (width height : Nat) (r : List Nat) (hw : 1 ≤ width) (hh : 1 ≤ height)
    (hrange : width * height * 3 ≤ 2147483647) (hr : r.length = width * height * 3)
    (hbytes : ∀ b ∈ r, b < 256) (halloc : malloc (width * height * 3 + 1) = true) :
    load_pnm fuel stack malloc
        ([80, 54, 10] ++ decimal width ++ [32] ++ decimal height ++ [10, 50, 53, 53, 10] ++ r)
      = Exec.ok ⟨SIXEL_OK, none, some (r ++ [0]), some (width : Int), some (height : Int),
          some SIXEL_PIXELFORMAT_RGB888, some (width * height * 3 + 1)⟩ ∧
    (r ++ [0]).take (width * height * 3) = r := by
  have hmod : 2147483647 % 3 = 1 := by norm_num
  have hwh : width * height * 3 + 1 < 2147483648 := by omega
  have hw2 : width < 2147483648 := by
    have : width * 1 ≤ width * height := Nat.mul_le_mul_left _ hh
    omega
  have hh2 : height < 2147483648 := by
    have : 1 * height ≤ width * height := Nat.mul_le_mul_right _ hw
    omega
  have hfile : [80, 54, 10] ++ decimal width ++ [32] ++ decimal height ++ [10, 50, 53, 53, 10]
      ++ r = pnm_file 54 width height 255 r := by
    simp [pnm_file, decimal_255]
  obtain ⟨h0, h1, tmp, s, hparse⟩ := parse_header_pnm_file stack 54 width height 255 r false 2
    (by decide) (by omega) hw hw2 hh hh2 (by omega) (by omega)
  refine ⟨?_, ?_⟩
  · rw [hfile]
    unfold load_pnm
    simp only [h0, h1, ne_eq, not_true_eq_false, if_false]
    rw [show variant 54 = some (false, 2) by decide]
    simp only [hparse]
    unfold decode
    have hsize := raster_size_eq width height hwh
    simp only [Nat.cast_ofNat] at hsize ⊢
    have hnot : ¬ ((width : Int) < 1 ∨ (height : Int) < 1 ∨ (255 : Int) < 1) := by omega
    rw [if_neg hnot, hsize, halloc]
    simp only [Bool.true_eq_false, if_false, Int.toNat_ofNat]
    have hloop := loop_y_pixmap fuel ⟨false, 2, width, height, 255, r, tmp, s⟩ width rfl rfl rfl
      height 0 [] (List.replicate (width * height * 3) 0) [0] r [] tmp s
      (by simp) (by simp; ring) (by rw [hr]; ring)
      (by rw [Nat.zero_add, Nat.mul_comm height width]; omega)
    have hrep : List.replicate (width * height * 3 + 1) 0
        = [] ++ List.replicate (width * height * 3) 0 ++ [0] := by
      simp [List.replicate_succ']
    have hmap : r.map (sample 255) = r := by
      have : r.map (sample 255) = r.map id :=
        List.map_congr_left (fun c hc => sample_255 c (hbytes c hc))
      simpa using this
    rw [List.append_nil] at hloop
    rw [hrep, hloop]
    simp only [List.nil_append, hmap]
  · rw [List.take_append_of_le_length (by omega), ← hr, List.take_length]

/-- Witness of C1: a pixmap of width 2 and height 1 with the raster 1, 2, 3, 4, 5, 6. -/
theorem load_pnm_pixmap_round_trip_witness :
    load_pnm 0 (fun _ => 0) (fun _ => true)
        ([80, 54, 10] ++ decimal 2 ++ [32] ++ decimal 1 ++ [10, 50, 53, 53, 10]
          ++ [1, 2, 3, 4, 5, 6])
      = Exec.ok ⟨SIXEL_OK, none, some ([1, 2, 3, 4, 5, 6] ++ [0]), some ((2 : Nat) : Int),
          some ((1 : Nat) : Int), some SIXEL_PIXELFORMAT_RGB888, some (2 * 1 * 3 + 1)⟩ ∧
    ([1, 2, 3, 4, 5, 6] ++ [0]).take (2 * 1 * 3) = [1, 2, 3, 4, 5, 6] :=
  load_pnm_pixmap_round_trip 0 (fun _ => 0) (fun _ => true) 2 1 [1, 2, 3, 4, 5, 6]
    (by decide) (by decide) (by decide) (by decide) (by decide) rfl

/-! ## Binary variants once the input is exhausted -/

theorem loop_x_exhausted (fuel : Nat) (h : Header) (y : Nat) (ha : h.ascii = false) :
    ∀ (k x : Nat) (d : Decoder), d.p = [] → loop_x fuel h y k x d = Exec.ok d := by
  intro k x d hp
  cases k with
  | zero => rfl
  | succ k =>
    have hr : ∀ b comp, read_components fuel false h.maps x (b + 1) d comp
        = Exec.ok (none, d) := by
      intro b comp
      simp [read_components, read_binary, hp]
    rw [loop_x_succ, ha]
    by_cases hm : h.maps = 2
    · rw [if_pos hm, hr 2]
    · rw [if_neg hm, hr 0]

theorem loop_y_exhausted (fuel : Nat) (h : Header) (ha : h.ascii = false) :
    ∀ (k y : Nat) (d : Decoder), d.p = [] → loop_y fuel h k y d = Exec.ok d := by
  intro k
  induction k with
  | zero => intro y d _; rfl
  | succ k ih =>
    intro y d hp
    rw [loop_y, loop_x_exhausted fuel h y ha _ _ d hp]
    exact ih (y + 1) d hp

/-- The part of `load_pnm` after the validation of the header, when the header is
accepted and the allocator grants the raster. -/
theorem decode_accepted (fuel : Nat) (malloc : Nat → Bool) (a : Bool) (mp : Nat)
    (w ht dp : Int) (p tmp s : List Nat) (hw : 1 ≤ w) (hh : 1 ≤ ht) (hd : 1 ≤ dp)
    (hal : malloc (raster_size w ht) = true) :
    decode fuel malloc ⟨a, mp, w, ht, dp, p, tmp, s⟩ =
      match loop_y fuel ⟨a, mp, w, ht, dp, p, tmp, s⟩ ht.toNat 0
          ⟨p, tmp, s, List.replicate (raster_size w ht) 0⟩ with
      | Exec.ok d =>
        Exec.ok ⟨SIXEL_OK, none, some d.result, some w, some ht,
          some SIXEL_PIXELFORMAT_RGB888, some (raster_size w ht)⟩
      | Exec.fault => Exec.fault
      | Exec.timeout => Exec.timeout := by
  unfold decode
  rw [if_neg (by simp only []; omega)]
  simp only [hal]
  try rfl

/-- Unfolding of `load_pnm` on an input whose first line is `P` and a variant digit. -/
theorem load_pnm_of_magic (fuel : Nat) (stack : Nat → Nat) (malloc : Nat → Bool)
    (input : List Nat) (m : Nat) (a : Bool) (mp : Nat) (hv : variant m = some (a, mp))
    (h0 : (pnm_get_line input (initial_tmp stack)).2.getD 0 0 = 80)
    (h1 : (pnm_get_line input (initial_tmp stack)).2.getD 1 0 = m) :
    load_pnm fuel stack malloc input =
      match parse_dimensions a mp (pnm_get_line input (initial_tmp stack)).1
          (pnm_get_line input (initial_tmp stack)).2 with
      | Exec.ok h => decode fuel malloc h
      | Exec.fault => Exec.fault
      | Exec.timeout => Exec.timeout := by
  unfold load_pnm
  simp only [h0, h1, ne_eq, not_true_eq_false, if_false, hv]
  try rfl

theorem loop_y_first_row_fault (fuel : Nat) (h : Header) (k : Nat) (d : Decoder)
    (hrow : loop_x fuel h 0 h.width.toNat 0 d = Exec.fault) :
    loop_y fuel h (k + 1) 0 d = Exec.fault := by
  rw [loop_y, hrow]

theorem loop_x_store_fault (fuel : Nat) (h : Header) (y k x : Nat) (d d1 : Decoder)
    (comp : List Int)
    (hread : read_components fuel h.ascii h.maps x (if h.maps = 2 then 3 else 1) d []
      = Exec.ok (some comp, d1))
    (hstore : store_pixel d1.result (pixel_offset h.width x y) (to_samples h.maps h.deps comp)
      = Exec.fault) :
    loop_x fuel h y (k + 1) x d = Exec.fault := by
  rw [loop_x_succ, hread]
  simp only [hstore]

theorem decimal_65536 : decimal 65536 = [54, 53, 53, 51, 54] := by norm_num [decimal]

theorem raster_size_65536 : raster_size 65536 65536 = 1 := by decide

/-- C2 (failing input). On the input "P6\n65536 65536\n255\n" the header is accepted and
an allocator that grants every request is used; `load_pnm` returns `SIXEL_OK` with
`*psx = 65536` and `*psy = 65536`, but the size it computed in `int` arithmetic is 1 and
the raster it returns holds a single byte instead of `65536 * 65536 * 3` samples. -/
theorem load_pnm_raster_too_small (fuel : Nat) (stack : Nat → Nat) :
    load_pnm fuel stack (fun _ => true)
        [80, 54, 10, 54, 53, 53, 51, 54, 32, 54, 53, 53, 51, 54, 10, 50, 53, 53, 10]
      = Exec.ok ⟨SIXEL_OK, none, some [0], some 65536, some 65536,
          some SIXEL_PIXELFORMAT_RGB888, some 1⟩ := by
  have hfile : [80, 54, 10, 54, 53, 53, 51, 54, 32, 54, 53, 53, 51, 54, 10, 50, 53, 53, 10]
      = pnm_file 54 65536 65536 255 [] := by
    simp [pnm_file, decimal_255, decimal_65536]
  obtain ⟨h0, h1, tmp, s, hparse⟩ := parse_header_pnm_file stack 54 65536 65536 255 [] false 2
    (by decide) (by omega) (by omega) (by omega) (by omega) (by omega) (by omega) (by omega)
  rw [hfile, load_pnm_of_magic fuel stack _ _ 54 false 2 (by decide) h0 h1, hparse]
  simp only [Nat.cast_ofNat]
  rw [decode_accepted fuel _ false 2 65536 65536 255 [] tmp s (by omega) (by omega) (by omega)
    rfl, loop_y_exhausted fuel _ rfl _ _ _ rfl]
  simp only [raster_size_65536]
  rfl

/-- C5 (failing input). On the input "P6\n65536 65536\n255\n" followed by the three data
bytes 1, 2, 3 (a truncated pixmap, `k = 3`), with an allocator that grants every request,
`load_pnm` does not return `SIXEL_OK` with first pixel (1,2,3): the raster it allocated
holds one byte and the store of the second sample of pixel 0 is outside of it. -/
theorem load_pnm_truncated_overflow (fuel : Nat) (stack : Nat → Nat) :
    load_pnm fuel stack (fun _ => true)
        [80, 54, 10, 54, 53, 53, 51, 54, 32, 54, 53, 53, 51, 54, 10, 50, 53, 53, 10, 1, 2, 3]
      = Exec.fault := by
  have hfile : [80, 54, 10, 54, 53, 53, 51, 54, 32, 54, 53, 53, 51, 54, 10, 50, 53, 53, 10,
      1, 2, 3] = pnm_file 54 65536 65536 255 [1, 2, 3] := by
    simp [pnm_file, decimal_255, decimal_65536]
  obtain ⟨h0, h1, tmp, s, hparse⟩ := parse_header_pnm_file stack 54 65536 65536 255 [1, 2, 3]
    false 2
    (by decide) (by omega) (by omega) (by omega) (by omega) (by omega) (by omega) (by omega)
  rw [hfile, load_pnm_of_magic fuel stack _ _ 54 false 2 (by decide) h0 h1, hparse]
  simp only [Nat.cast_ofNat]
  rw [decode_accepted fuel _ false 2 65536 65536 255 [1, 2, 3] tmp s (by omega) (by omega)
    (by omega) rfl]
  obtain ⟨k, hk⟩ : ∃ k, (65536 : Int).toNat = k + 1 := ⟨65535, rfl⟩
  rw [hk, raster_size_65536, loop_y_first_row_fault]
  show loop_x fuel ⟨false, 2, 65536, 65536, 255, [1, 2, 3], tmp, s⟩ 0 (65536 : Int).toNat 0
    ⟨[1, 2, 3], tmp, s, [0]⟩ = Exec.fault
  rw [hk]
  exact loop_x_store_fault fuel _ 0 k 0 _ ⟨[], tmp, s, [0]⟩ [1, 2, 3]
    (read_components_pixmap fuel 0 1 2 3 [] tmp s [0])
    (by
      show store_pixel [0] (pixel_offset 65536 0 0) (to_samples 2 255 [1, 2, 3]) = Exec.fault
      decide)

/-- C8 (failing input). The header "P5\n65536 65536\n255\n" is accepted; the size handed
to the allocator and to `memset`, `width * height * 3 + 1` in 32-bit `int` arithmetic, is
1, which is not greater than the index `(0 * width + 0) * 3 + 2 = 2` of the third store
of pixel (0,0); with one data byte present `load_pnm` performs a store outside the
raster. -/
theorem load_pnm_write_out_of_bounds (fuel : Nat) (stack : Nat → Nat) :
    raster_size 65536 65536 = 1 ∧ pixel_offset 65536 0 0 + 2 = 2 ∧
    load_pnm fuel stack (fun _ => true)
        [80, 53, 10, 54, 53, 53, 51, 54, 32, 54, 53, 53, 51, 54, 10, 50, 53, 53, 10, 7]
      = Exec.fault := by
  refine ⟨raster_size_65536, by decide, ?_⟩
  have hfile : [80, 53, 10, 54, 53, 53, 51, 54, 32, 54, 53, 53, 51, 54, 10, 50, 53, 53, 10, 7]
      = pnm_file 53 65536 65536 255 [7] := by
    simp [pnm_file, decimal_255, decimal_65536]
  obtain ⟨h0, h1, tmp, s, hparse⟩ := parse_header_pnm_file stack 53 65536 65536 255 [7]
    false 1
    (by decide) (by omega) (by omega) (by omega) (by omega) (by omega) (by omega) (by omega)
  rw [hfile, load_pnm_of_magic fuel stack _ _ 53 false 1 (by decide) h0 h1, hparse]
  simp only [Nat.cast_ofNat]
  rw [decode_accepted fuel _ false 1 65536 65536 255 [7] tmp s (by omega) (by omega)
    (by omega) rfl]
  obtain ⟨k, hk⟩ : ∃ k, (65536 : Int).toNat = k + 1 := ⟨65535, rfl⟩
  rw [hk, raster_size_65536, loop_y_first_row_fault]
  show loop_x fuel ⟨false, 1, 65536, 65536, 255, [7], tmp, s⟩ 0 (65536 : Int).toNat 0
    ⟨[7], tmp, s, [0]⟩ = Exec.fault
  rw [hk]
  exact loop_x_store_fault fuel _ 0 k 0 _ ⟨[], tmp, s, [0]⟩ [7]
    (by simp [read_components, read_binary])
    (by
      show store_pixel [0] (pixel_offset 65536 0 0) (to_samples 1 255 [7]) = Exec.fault
      decide)

/-- The header of a bitmap file is parsed to its width and height with depth 1; the
token buffer then holds the dimension line and the token cursor is on its terminator. -/
theorem parse_header_pbm_file (stack : Nat → Nat) (m w h : Nat) (data : List Nat)
    (a : Bool) (hv : variant m = some (a, 0))
    (hw : 1 ≤ w) (hw2 : w < 2147483648) (hh : 1 ≤ h) (hh2 : h < 2147483648) :
    (pnm_get_line (pbm_file m w h data) (initial_tmp stack)).2.getD 0 0 = 80 ∧
    (pnm_get_line (pbm_file m w h data) (initial_tmp stack)).2.getD 1 0 = m ∧
    ∃ stale, ((decimal w ++ 32 :: decimal h) ++ 0 :: stale).length = 256 ∧
      parse_dimensions a 0
        (pnm_get_line (pbm_file m w h data) (initial_tmp stack)).1
        (pnm_get_line (pbm_file m w h data) (initial_tmp stack)).2
      = Exec.ok ⟨a, 0, w, h, 1, data, (decimal w ++ 32 :: decimal h) ++ 0 :: stale,
          0 :: stale⟩ := by
  have hm : 49 ≤ m ∧ m ≤ 54 := by
    by_contra hcon
    rw [(variant_eq_none m).2 hcon] at hv
    cases hv
  have e1 : pbm_file m w h data = [80, m] ++ 10 ::
      ((decimal w ++ 32 :: decimal h) ++ 10 :: data) := by
    simp [pbm_file]
  have l1 := pnm_get_line_run [80, m]
    ((decimal w ++ 32 :: decimal h) ++ 10 :: data) (initial_tmp stack)
    (by intro c hc; simp at hc; rcases hc with rfl | rfl <;> omega) (by simp) (by simp)
    (initial_tmp_length stack)
  rw [← e1] at l1
  rw [l1]
  refine ⟨rfl, rfl, ?_⟩
  have hpw := decimal_printable w
  have hph := decimal_printable h
  have hlw := decimal_length w hw2
  have hlh := decimal_length h hh2
  obtain ⟨cw, qw, ew⟩ := List.exists_cons_of_ne_nil (decimal_ne_nil w hw)
  obtain ⟨ch, qh, eh⟩ := List.exists_cons_of_ne_nil (decimal_ne_nil h hh)
  have hcw := hpw cw (by simp [ew])
  have hch := hph ch (by simp [eh])
  have len1 : ([80, m] ++ 0 :: List.drop ([80, m].length + 1) (initial_tmp stack)).length
      = 256 := by
    simp [initial_tmp_length]
  have l2 := pnm_get_line_run (decimal w ++ 32 :: decimal h) data
    ([80, m] ++ 0 :: List.drop ([80, m].length + 1) (initial_tmp stack))
    (by
      intro c hc
      simp only [List.mem_append, List.mem_cons] at hc
      rcases hc with hc | rfl | hc
      · exact le_trans (by omega) (hpw c hc).1
      · omega
      · exact le_trans (by omega) (hph c hc).1)
    (by simp; omega) (by rw [ew]; simp; omega) len1
  have len2 : ((decimal w ++ 32 :: decimal h) ++ 0 :: List.drop
      ((decimal w ++ 32 :: decimal h).length + 1)
      ([80, m] ++ 0 :: List.drop ([80, m].length + 1) (initial_tmp stack))).length = 256 := by
    have := pnm_get_line_length ((decimal w ++ 32 :: decimal h) ++ 10 :: data)
      ([80, m] ++ 0 :: List.drop ([80, m].length + 1) (initial_tmp stack))
    rw [l2] at this
    rw [this, len1]
  generalize ([80, m] ++ 0 :: List.drop ([80, m].length + 1) (initial_tmp stack)) = tmp1
    at l2 len2 ⊢
  unfold parse_dimensions
  simp only [l2]
  generalize List.drop ((decimal w ++ 32 :: decimal h).length + 1) tmp1 = stale2 at len2 ⊢
  have p1 : parse_digits ((decimal w ++ 32 :: decimal h) ++ 0 :: stale2) 0
      = Exec.ok ((w : Int), 32 :: (decimal h ++ 0 :: stale2)) := by
    have := parse_digits_decimal w hw2 32 (decimal h ++ 0 :: stale2) (by decide)
    simpa using this
  have p2 : skip_spaces (32 :: (decimal h ++ 0 :: stale2))
      = Exec.ok (decimal h ++ 0 :: stale2) := by
    rw [eh]
    exact skip_spaces_digit ch _ (by omega)
  have p3 : parse_digits (decimal h ++ 0 :: stale2) 0 = Exec.ok ((h : Int), 0 :: stale2) :=
    parse_digits_decimal h hh2 0 stale2 (by decide)
  have p4 : skip_to_nul (0 :: stale2) = Exec.ok (0 :: stale2) := by simp [skip_to_nul]
  simp only [p1, p2, p3, p4, Exec.ok_bind, Nat.lt_irrefl, if_false, Exec.pure_eq]
  exact ⟨stale2, len2, rfl⟩

/-! ## The refill loop -/

/-- On a control byte other than newline `pnm_get_line` consumes nothing and returns an
empty line. -/
theorem pnm_get_line_control (c : Nat) (rest buf : List Nat) (hc : c < 32) (hc10 : c ≠ 10)
    (hbuf : buf ≠ []) : pnm_get_line (c :: rest) buf = (c :: rest, buf.set 0 0) := by
  have hcopy : get_line_copy (c :: rest) 0 buf = (c :: rest, 0, buf) := by
    simp [get_line_copy, hc]
  have hhead : (buf.set 0 0).head? ≠ some 35 := by
    cases buf with
    | nil => exact absurd rfl hbuf
    | cons b buf => simp
  have hskip : skip_newline (c :: rest) = c :: rest := by
    unfold skip_newline
    split
    · next q heq =>
      simp only [List.cons.injEq] at heq
      exact absurd heq.1 hc10
    · rfl
  simp only [pnm_get_line, get_line_loop, hcopy, hskip]
  rw [if_neg hhead]

/-- The refill loop never ends when the input cursor is on a control byte other than
newline and the token cursor is on a terminator: whatever the fuel, it runs out. -/
theorem refill_stuck (c : Nat) (rest : List Nat) (hc : c < 32) (hc10 : c ≠ 10) :
    ∀ (fuel : Nat) (tmp s res : List Nat), tmp ≠ [] → s.head? = some 0 →
      refill fuel ⟨c :: rest, tmp, s, res⟩ = Exec.timeout := by
  intro fuel
  induction fuel with
  | zero => intro tmp s res _ _; rfl
  | succ f ih =>
    intro tmp s res htmp hs
    cases s with
    | nil => simp at hs
    | cons b s =>
      have hb : b = 0 := by simpa using hs
      subst hb
      have hne : (tmp.set 0 0) ≠ [] := by
        cases tmp with
        | nil => exact absurd rfl htmp
        | cons t tmp => simp
      have hh : (tmp.set 0 0).head? = some 0 := by
        cases tmp with
        | nil => exact absurd rfl htmp
        | cons t tmp => simp
      simp only [refill, if_true, pnm_get_line_control c rest tmp hc hc10 htmp]
      simpa using ih (tmp.set 0 0) (tmp.set 0 0) res hne hh

theorem loop_y_first_row_timeout (fuel : Nat) (h : Header) (k : Nat) (d : Decoder)
    (hrow : loop_x fuel h 0 h.width.toNat 0 d = Exec.timeout) :
    loop_y fuel h (k + 1) 0 d = Exec.timeout := by
  rw [loop_y, hrow]

theorem decimal_1 : decimal 1 = [49] := by norm_num [decimal]

theorem decimal_2 : decimal 2 = [50] := by norm_num [decimal]

/-- C7 (failing input). On the input "P1\n1 1\n" followed by a carriage return, with an
allocator that grants every request, the line refill loop of `load_pnm` makes no
progress: for every amount of fuel and every initial content of `tmp` the run ends by
exhaustion of the fuel, that is, `load_pnm` does not terminate. -/
theorem load_pnm_refill_diverges (fuel : Nat) (stack : Nat → Nat) :
    load_pnm fuel stack (fun _ => true) [80, 49, 10, 49, 32, 49, 10, 13] = Exec.timeout := by
  have hfile : [80, 49, 10, 49, 32, 49, 10, 13] = pbm_file 49 1 1 [13] := by
    simp [pbm_file, decimal_1]
  obtain ⟨h0, h1, stale, hlen, hparse⟩ := parse_header_pbm_file stack 49 1 1 [13] true
    (by decide) (by omega) (by omega) (by omega) (by omega)
  rw [hfile, load_pnm_of_magic fuel stack _ _ 49 true 0 (by decide) h0 h1, hparse]
  simp only [Nat.cast_one]
  rw [decode_accepted fuel _ true 0 1 1 1 [13] _ _ (by omega) (by omega) (by omega) rfl]
  have hstuck := refill_stuck 13 [] (by omega) (by omega) fuel
    ((decimal 1 ++ 32 :: decimal 1) ++ 0 :: stale) (0 :: stale)
    (List.replicate (raster_size 1 1) 0) (by simp) rfl
  have hread : read_ascii fuel 0 ⟨[13], (decimal 1 ++ 32 :: decimal 1) ++ 0 :: stale,
      0 :: stale, List.replicate (raster_size 1 1) 0⟩ = Exec.timeout := by
    unfold read_ascii
    rw [hstuck]
    rfl
  have hrow : loop_x fuel ⟨true, 0, 1, 1, 1, [13], (decimal 1 ++ 32 :: decimal 1) ++ 0 :: stale,
      0 :: stale⟩ 0 1 0 ⟨[13], (decimal 1 ++ 32 :: decimal 1) ++ 0 :: stale, 0 :: stale,
      List.replicate (raster_size 1 1) 0⟩ = Exec.timeout := by
    rw [loop_x_succ]
    simp only [read_components, if_true, hread]
  rw [show (1 : Int).toNat = 0 + 1 from rfl, loop_y_first_row_timeout fuel _ 0 _ hrow]

theorem refill_ready (n : Nat) (d : Decoder) (c : Nat) (s : List Nat) (hs : d.s = c :: s)
    (hc : c ≠ 0) : refill (n + 1) d = Exec.ok d := by
  simp [refill, hs, hc]

/-- With the token cursor on a terminator and a whole line ahead in the input, the refill
loop reads that line and stops. -/
theorem refill_line (n : Nat) (run rest tmp s res : List Nat) (c : Nat) (q : List Nat)
    (hq : run = c :: q) (hrun : ∀ b ∈ run, 32 ≤ b) (hfit : run.length ≤ 255)
    (hc : c ≠ 35) (h256 : tmp.length = 256) :
    refill (n + 2) ⟨run ++ 10 :: rest, tmp, 0 :: s, res⟩
      = Exec.ok ⟨rest, run ++ 0 :: tmp.drop (run.length + 1),
          run ++ 0 :: tmp.drop (run.length + 1), res⟩ := by
  have hl := pnm_get_line_run run rest tmp hrun hfit (by rw [hq]; simpa using hc) h256
  have hne : run ++ 10 :: rest ≠ [] := by simp
  have hc0 : c ≠ 0 := by
    have := hrun c (by rw [hq]; simp)
    omega
  rw [refill]
  simp only [if_true, hne, if_false, hl]
  exact refill_ready n _ c (q ++ 0 :: tmp.drop (run.length + 1)) (by rw [hq]; rfl) hc0

/-- One pixel of an ASCII bitmap: the refill loop is run, one character is consumed and
the pixel is white when that character is `'0'`, black otherwise. -/
theorem loop_x_bitmap_step (fuel : Nat) (w ht dp : Int) (p0 tmp0 s0 : List Nat) (y k x : Nat)
    (p tmp s res p1 tmp1 s1 res1 r : List Nat) (c : Nat)
    (hfill : refill fuel ⟨p, tmp, s, res⟩ = Exec.ok ⟨p1, tmp1, c :: s1, res1⟩)
    (hstore : store_pixel res1 (pixel_offset w x y)
      (if c = 48 then (255, 255, 255) else (0, 0, 0)) = Exec.ok r) :
    loop_x fuel ⟨true, 0, w, ht, dp, p0, tmp0, s0⟩ y (k + 1) x ⟨p, tmp, s, res⟩
      = loop_x fuel ⟨true, 0, w, ht, dp, p0, tmp0, s0⟩ y k (x + 1) ⟨p1, tmp1, s1, r⟩ := by
  have hread : read_components fuel true 0 x 1 ⟨p, tmp, s, res⟩ []
      = Exec.ok (some [if c = 48 then 1 else 0], ⟨p1, tmp1, s1, res1⟩) := by
    simp [read_components, read_ascii, hfill]
  have hsamp : to_samples 0 dp [if c = 48 then 1 else 0]
      = if c = 48 then (255, 255, 255) else (0, 0, 0) := by
    by_cases hc : c = 48 <;> simp [to_samples, hc]
  rw [loop_x_succ]
  simp only [show ((0 : Nat) = 2) = False by simp, if_false, hread, hsamp, hstore]

theorem raster_size_2_2 : raster_size 2 2 = 13 := by decide

/-- On the input "P1\n2 2\n1 0\n0 1\n" (its 15 bytes, followed by anything, for instance the
terminating NUL of the string) `load_pnm` returns `SIXEL_OK` with width 2, height 2 and the
raster [(0,0,0),(0,0,0),(255,255,255),(255,255,255)]: the ASCII bitmap branch decodes every
character of a token line as a pixel, the blank of "1 0" included, and the last `'1'` is
never read.  This holds whatever the initial content of `tmp`, for every fuel of at least
2 and every allocator that grants the 13 bytes requested. -/
theorem load_pnm_bitmap_blanks (n : Nat) (stack : Nat → Nat) (malloc : Nat → Bool)
    (rest : List Nat) (hmalloc : malloc 13 = true) :
    load_pnm (n + 2) stack malloc
        ([80, 49, 10, 50, 32, 50, 10, 49, 32, 48, 10, 48, 32, 49, 10] ++ rest)
      = Exec.ok ⟨SIXEL_OK, none,
          some [0, 0, 0, 0, 0, 0, 255, 255, 255, 255, 255, 255, 0],
          some 2, some 2, some SIXEL_PIXELFORMAT_RGB888, some 13⟩ := by
  have hfile : [80, 49, 10, 50, 32, 50, 10, 49, 32, 48, 10, 48, 32, 49, 10] ++ rest
      = pbm_file 49 2 2 ([49, 32, 48] ++ 10 :: ([48, 32, 49] ++ 10 :: rest)) := by
    simp [pbm_file, decimal_2]
  obtain ⟨h0, h1, stale, hlen, hparse⟩ := parse_header_pbm_file stack 49 2 2
    ([49, 32, 48] ++ 10 :: ([48, 32, 49] ++ 10 :: rest)) true
    (by decide) (by omega) (by omega) (by omega) (by omega)
  rw [hfile, load_pnm_of_magic (n + 2) stack _ _ 49 true 0 (by decide) h0 h1, hparse]
  simp only [Nat.cast_ofNat, decimal_2] at hlen ⊢
  rw [decode_accepted (n + 2) _ true 0 2 2 1 _ _ _ (by omega) (by omega) (by omega)
    (by rw [raster_size_2_2]; exact hmalloc)]
  have hstale : stale.length = 252 := by simpa using hlen
  have hZ : List.replicate (raster_size 2 2) 0 = [0, 0, 0, 0, 0, 0, 0, 0, 0, 0, 0, 0, 0] := by
    rw [raster_size_2_2]; rfl
  rw [hZ]
  have r1 := refill_line n [49, 32, 48] ([48, 32, 49] ++ 10 :: rest)
    ([50] ++ 32 :: [50] ++ 0 :: stale) stale [0, 0, 0, 0, 0, 0, 0, 0, 0, 0, 0, 0, 0] 49 [32, 48]
    rfl (by decide) (by decide) (by decide) (by simp [hstale])
  have r2 := refill_line n [48, 32, 49] rest ([49, 32, 48, 0] ++ stale) stale
    [0, 0, 0, 0, 0, 0, 255, 255, 255, 0, 0, 0, 0] 48 [32, 49] rfl
    (by decide) (by decide) (by decide) (by simp [hstale])
  simp only [List.drop_succ_cons, List.drop_zero, List.length_cons, List.length_nil,
    List.cons_append, List.nil_append, List.singleton_append] at r1 r2 ⊢
  have st0 : store_pixel [0, 0, 0, 0, 0, 0, 0, 0, 0, 0, 0, 0, 0] (pixel_offset 2 0 0)
      (if 49 = 48 then (255, 255, 255) else (0, 0, 0))
      = Exec.ok [0, 0, 0, 0, 0, 0, 0, 0, 0, 0, 0, 0, 0] := by decide
  have st1 : store_pixel [0, 0, 0, 0, 0, 0, 0, 0, 0, 0, 0, 0, 0] (pixel_offset 2 1 0)
      (if 32 = 48 then (255, 255, 255) else (0, 0, 0))
      = Exec.ok [0, 0, 0, 0, 0, 0, 0, 0, 0, 0, 0, 0, 0] := by decide
  have st2 : store_pixel [0, 0, 0, 0, 0, 0, 0, 0, 0, 0, 0, 0, 0] (pixel_offset 2 0 1)
      (if 48 = 48 then (255, 255, 255) else (0, 0, 0))
      = Exec.ok [0, 0, 0, 0, 0, 0, 255, 255, 255, 0, 0, 0, 0] := by decide
  have st3 : store_pixel [0, 0, 0, 0, 0, 0, 255, 255, 255, 0, 0, 0, 0] (pixel_offset 2 1 1)
      (if 48 = 48 then (255, 255, 255) else (0, 0, 0))
      = Exec.ok [0, 0, 0, 0, 0, 0, 255, 255, 255, 255, 255, 255, 0] := by decide
  have f1 : refill (n + 2) ⟨48 :: 32 :: 49 :: 10 :: rest, 49 :: 32 :: 48 :: 0 :: stale,
      32 :: 48 :: 0 :: stale, [0, 0, 0, 0, 0, 0, 0, 0, 0, 0, 0, 0, 0]⟩
      = Exec.ok ⟨48 :: 32 :: 49 :: 10 :: rest, 49 :: 32 :: 48 :: 0 :: stale,
        32 :: 48 :: 0 :: stale, [0, 0, 0, 0, 0, 0, 0, 0, 0, 0, 0, 0, 0]⟩ :=
    refill_ready (n + 1) _ 32 (48 :: 0 :: stale) rfl (by decide)
  have f2 : refill (n + 2) ⟨48 :: 32 :: 49 :: 10 :: rest, 49 :: 32 :: 48 :: 0 :: stale,
      48 :: 0 :: stale, [0, 0, 0, 0, 0, 0, 0, 0, 0, 0, 0, 0, 0]⟩
      = Exec.ok ⟨48 :: 32 :: 49 :: 10 :: rest, 49 :: 32 :: 48 :: 0 :: stale,
        48 :: 0 :: stale, [0, 0, 0, 0, 0, 0, 0, 0, 0, 0, 0, 0, 0]⟩ :=
    refill_ready (n + 1) _ 48 (0 :: stale) rfl (by decide)
  have row0 : loop_x (n + 2) ⟨true, 0, 2, 2, 1,
      49 :: 32 :: 48 :: 10 :: 48 :: 32 :: 49 :: 10 :: rest, 50 :: 32 :: 50 :: 0 :: stale,
      0 :: stale⟩ 0 2 0
      ⟨49 :: 32 :: 48 :: 10 :: 48 :: 32 :: 49 :: 10 :: rest, 50 :: 32 :: 50 :: 0 :: stale,
        0 :: stale, [0, 0, 0, 0, 0, 0, 0, 0, 0, 0, 0, 0, 0]⟩
      = Exec.ok ⟨48 :: 32 :: 49 :: 10 :: rest, 49 :: 32 :: 48 :: 0 :: stale, 48 :: 0 :: stale,
        [0, 0, 0, 0, 0, 0, 0, 0, 0, 0, 0, 0, 0]⟩ := by
    rw [loop_x_bitmap_step (n + 2) 2 2 1 _ _ _ 0 1 0 _ _ _ _ _ _ _ _ _ 49 r1 st0,
      loop_x_bitmap_step (n + 2) 2 2 1 _ _ _ 0 0 1 _ _ _ _ _ _ _ _ _ 32 f1 st1, loop_x_zero]
  have row1 : loop_x (n + 2) ⟨true, 0, 2, 2, 1,
      49 :: 32 :: 48 :: 10 :: 48 :: 32 :: 49 :: 10 :: rest, 50 :: 32 :: 50 :: 0 :: stale,
      0 :: stale⟩ 1 2 0
      ⟨48 :: 32 :: 49 :: 10 :: rest, 49 :: 32 :: 48 :: 0 :: stale, 48 :: 0 :: stale,
        [0, 0, 0, 0, 0, 0, 0, 0, 0, 0, 0, 0, 0]⟩
      = Exec.ok ⟨rest, 48 :: 32 :: 49 :: 0 :: stale, 32 :: 49 :: 0 :: stale,
        [0, 0, 0, 0, 0, 0, 255, 255, 255, 255, 255, 255, 0]⟩ := by
    rw [loop_x_bitmap_step (n + 2) 2 2 1 _ _ _ 1 1 0 _ _ _ _ _ _ _ _ _ 48 f2 st2,
      loop_x_bitmap_step (n + 2) 2 2 1 _ _ _ 1 0 1 _ _ _ _ _ _ _ _ _ 48 r2 st3, loop_x_zero]
  have hrows : loop_y (n + 2) ⟨true, 0, 2, 2, 1,
      49 :: 32 :: 48 :: 10 :: 48 :: 32 :: 49 :: 10 :: rest, 50 :: 32 :: 50 :: 0 :: stale,
      0 :: stale⟩ 2 0
      ⟨49 :: 32 :: 48 :: 10 :: 48 :: 32 :: 49 :: 10 :: rest, 50 :: 32 :: 50 :: 0 :: stale,
        0 :: stale, [0, 0, 0, 0, 0, 0, 0, 0, 0, 0, 0, 0, 0]⟩
      = Exec.ok ⟨rest, 48 :: 32 :: 49 :: 0 :: stale, 32 :: 49 :: 0 :: stale,
        [0, 0, 0, 0, 0, 0, 255, 255, 255, 255, 255, 255, 0]⟩ := by
    rw [loop_y]
    simp only [show (2 : Int).toNat = 2 from rfl, row0]
    rw [loop_y]
    simp only [show (2 : Int).toNat = 2 from rfl, row1]
    rfl
  simp only [show (2 : Int).toNat = 2 from rfl, hrows, raster_size_2_2]

/-- The doubling loop ends as soon as the fuel exceeds what is needed, and leaves the
first capacity `m * 2 ^ (k + 1)` that exceeds `need`. -/
theorem grow_spec (fuel m need : Nat) (hm : 1 ≤ m) (hle : m ≤ need)
    (hov : 2 * need < 18446744073709551616) (hfuel : need < fuel + m) :
    ∃ k, grow fuel m need = Exec.ok (m * 2 ^ (k + 1)) ∧ need < m * 2 ^ (k + 1) ∧
      m * 2 ^ k ≤ need := by
  induction fuel generalizing m with
  | zero => omega
  | succ fuel ih =>
    have hs : size_t (m * 2) = m * 2 := by
      unfold size_t
      exact Nat.mod_eq_of_lt (by omega)
    rw [grow, hs]
    by_cases hc : m * 2 ≤ need
    · rw [if_pos hc]
      obtain ⟨k, hk, h1, h2⟩ := ih (m * 2) (by omega) hc (by omega)
      refine ⟨k + 1, ?_, ?_, ?_⟩
      · rw [hk]; congr 1; ring
      · calc need < m * 2 * 2 ^ (k + 1) := h1
          _ = m * 2 ^ (k + 1 + 1) := by ring
      · calc m * 2 ^ (k + 1) = m * 2 * 2 ^ k := by ring
          _ ≤ need := h2
    · rw [if_neg hc]
      exact ⟨0, by simp, by simpa using Nat.lt_of_not_le hc, by simpa using hle⟩

theorem realloc_granted (grant : Nat → Bool) (junk : Nat → Nat) (hgrant : ∀ n, grant n = true)
    (block : List Nat) (n : Nat) (hn : block.length ≤ n) :
    ∃ tail, realloc grant junk block n = some (block ++ tail) ∧
      (block ++ tail).length = n := by
  refine ⟨(List.range (n - block.length)).map (fun i => junk (block.length + i)), ?_, ?_⟩
  · unfold realloc
    rw [if_pos (hgrant n), List.take_of_length_le (by simp; omega)]
  · simp; omega

theorem memcpy_at (A B C src : List Nat) (hB : B.length = src.length) :
    memcpy (A ++ B ++ C) A.length src src.length = Exec.ok (A ++ src ++ C) := by
  unfold memcpy
  rw [if_pos ⟨by simp; omega, le_refl _⟩]
  simp [List.take_append_eq_append_take, List.drop_append_eq_append_drop, hB]

/-- One call of `memory_write` on a well-formed chunk whose first `size` bytes are `A`:
the call returns the number of bytes, which are appended after `A`. -/
theorem memory_write_append (fuel : Nat) (grant : Nat → Bool) (junk : Nat → Nat)
    (hgrant : ∀ n, grant n = true) (c : Chunk) (A T d : List Nat)
    (hbuf : c.buffer = some (A ++ T)) (hA : A.length = c.size)
    (hlen : (A ++ T).length = c.max_size) (hmax : 0 < c.max_size)
    (hov : 2 * (c.size + d.length) < 18446744073709551616)
    (hfuel : c.size + d.length < fuel) :
    ∃ T1 m, memory_write fuel grant junk (some d) 1 d.length (some c)
        = Exec.ok (d.length, some ⟨some (A ++ d ++ T1), c.size + d.length, m⟩) ∧
      (A ++ d ++ T1).length = m ∧ c.size + d.length ≤ m ∧ c.max_size ≤ m ∧ 0 < m := by
  obtain ⟨buf, sz, mx⟩ := c
  simp only [] at hbuf hA hlen hmax hov hfuel ⊢
  subst hbuf
  have hs1 : size_t (1 * d.length) = d.length := by
    unfold size_t
    rw [Nat.one_mul]
    exact Nat.mod_eq_of_lt (by omega)
  have hs2 : size_t (sz + d.length) = sz + d.length := by
    unfold size_t
    exact Nat.mod_eq_of_lt (by omega)
  have hlen2 : A.length + T.length = mx := by simpa using hlen
  unfold memory_write
  simp only [hs1, hs2]
  by_cases hd : d.length = 0
  · have hd0 : d = [] := List.length_eq_zero.1 hd
    subst hd0
    refine ⟨T, mx, ?_, ?_, ?_, le_refl _, hmax⟩
    · simp
    · simpa using hlen
    · simp only [List.length_nil, Nat.add_zero]
      omega
  · rw [if_neg hd]
    by_cases hfull : mx ≤ sz + d.length
    · rw [if_pos hfull]
      obtain ⟨k, hk, h1, h2⟩ := grow_spec fuel mx (sz + d.length) hmax hfull hov (by omega)
      have hmle : mx ≤ mx * 2 ^ (k + 1) := Nat.le_mul_of_pos_right _ (Nat.two_pow_pos _)
      obtain ⟨tail, hre, hrl⟩ := realloc_granted grant junk hgrant (A ++ T)
        (mx * 2 ^ (k + 1)) (by omega)
      have hrl2 : A.length + (T.length + tail.length) = mx * 2 ^ (k + 1) := by
        simpa [Nat.add_assoc] using hrl
      have hsplit : A ++ T ++ tail
          = A ++ (T ++ tail).take d.length ++ (T ++ tail).drop d.length := by
        rw [List.append_assoc, List.append_assoc, List.take_append_drop]
      have hcopy := memcpy_at A ((T ++ tail).take d.length) ((T ++ tail).drop d.length) d
        (by
          rw [List.length_take, List.length_append]
          omega)
      rw [← hsplit, hA] at hcopy
      simp only [hk, hre, hcopy]
      refine ⟨_, _, rfl, ?_, by omega, hmle, by omega⟩
      simp only [List.length_append, List.length_drop]
      omega
    · rw [if_neg hfull]
      have hsplit : A ++ T = A ++ T.take d.length ++ T.drop d.length := by
        rw [List.append_assoc, List.take_append_drop]
      have hcopy := memcpy_at A (T.take d.length) (T.drop d.length) d
        (by
          rw [List.length_take]
          omega)
      rw [← hsplit, hA] at hcopy
      simp only [hcopy]
      refine ⟨_, _, rfl, ?_, by omega, le_refl _, hmax⟩
      simp only [List.length_append, List.length_drop]
      omega

/-- Accounting of a sequence of appends, from any well-formed chunk. -/
theorem write_all_append (grant : Nat → Bool) (junk : Nat → Nat)
    (hgrant : ∀ n, grant n = true) (fuel : Nat) :
    ∀ (calls : List (List Nat)) (c : Chunk) (A T : List Nat),
      c.buffer = some (A ++ T) → A.length = c.size → (A ++ T).length = c.max_size →
      0 < c.max_size →
      2 * (c.size + (calls.map List.length).sum) < 18446744073709551616 →
      c.size + (calls.map List.length).sum < fuel →
      ∃ T1 m, write_all fuel grant junk calls c
          = Exec.ok (calls.map List.length,
              some ⟨some (A ++ calls.flatten ++ T1), c.size + (calls.map List.length).sum, m⟩) ∧
        (A ++ calls.flatten ++ T1).length = m ∧
        c.size + (calls.map List.length).sum ≤ m ∧ c.max_size ≤ m := by
  intro calls
  induction calls with
  | nil =>
    intro c A T hbuf hA hlen hmax _ _
    refine ⟨T, c.max_size, ?_, by simpa using hlen, ?_, le_refl _⟩
    · simp only [write_all, List.map_nil, List.sum_nil, Nat.add_zero, List.flatten_nil,
        List.append_nil, ← hbuf]
    · simp only [List.length_append] at hlen
      simp only [List.map_nil, List.sum_nil, Nat.add_zero]
      omega
  | cons d ds ih =>
    intro c A T hbuf hA hlen hmax hov hfuel
    simp only [List.map_cons, List.sum_cons] at hov hfuel ⊢
    obtain ⟨T1, m, hw, hl1, hle1, hmx1, hpos1⟩ := memory_write_append fuel grant junk hgrant c A T
      d hbuf hA hlen hmax (by omega) (by omega)
    obtain ⟨T2, m2, hw2, hl2, hle2, hmx2⟩ := ih ⟨some (A ++ d ++ T1), c.size + d.length, m⟩
      (A ++ d) T1 rfl (by simp [hA]) hl1 hpos1 (by simp only []; omega) (by simp only []; omega)
    refine ⟨T2, m2, ?_, ?_, ?_, ?_⟩
    · rw [write_all, hw]
      simp only []
      rw [hw2]
      simp only [List.flatten_cons, List.append_assoc, Nat.add_assoc]
    · simpa [List.append_assoc] using hl2
    · simp only [] at hle2; omega
    · simp only [] at hmx2; omega

theorem sum_take_le (l : List Nat) (i : Nat) : (l.take i).sum ≤ l.sum := by
  have h : l.sum = (l.take i).sum + (l.drop i).sum := by
    rw [← List.sum_append, List.take_append_drop]
  omega

/-- C9. Chunk append accounting: starting from a chunk with a non-null buffer of
`max_size > 0` bytes and `size = 0`, for every sequence of calls of `memory_write` with
`n_1 .. n_k` bytes (no `size_t` overflow: twice the total is in the range of `size_t`;
every `realloc` granted) and every `i <= k`, the first `i` calls return `n_1 .. n_i`,
`size` after them is `n_1 + ... + n_i`, the bytes appended lie one after the other from
the start of the buffer, and `size <= max_size`; `max_size` has not decreased. -/
theorem memory_write_accounting (grant : Nat → Bool) (junk : Nat → Nat)
    (hgrant : ∀ n, grant n = true) (fuel : Nat) (calls : List (List Nat)) (c : Chunk)
    (b : List Nat) (hbuf : c.buffer = some b) (hlen : b.length = c.max_size)
    (hsize : c.size = 0) (hmax : 0 < c.max_size)
    (hov : 2 * (calls.map List.length).sum < 18446744073709551616)
    (hfuel : (calls.map List.length).sum < fuel) (i : Nat) :
    ∃ c1 b1, write_all fuel grant junk (calls.take i) c
        = Exec.ok ((calls.take i).map List.length, some c1) ∧
      c1.size = ((calls.take i).map List.length).sum ∧ c1.buffer = some b1 ∧
      b1.take c1.size = (calls.take i).flatten ∧ b1.length = c1.max_size ∧
      c1.size ≤ c1.max_size ∧ c.max_size ≤ c1.max_size := by
  have hle : ((calls.take i).map List.length).sum ≤ (calls.map List.length).sum := by
    rw [List.map_take]
    exact sum_take_le _ i
  obtain ⟨T1, m, hw, hl, hle2, hmx⟩ := write_all_append grant junk hgrant fuel (calls.take i) c
    [] b (by simpa using hbuf) (by simp [hsize]) (by simpa using hlen) hmax
    (by rw [hsize]; omega) (by rw [hsize]; omega)
  rw [hsize, Nat.zero_add] at hw hle2
  refine ⟨_, _, hw, rfl, rfl, ?_, hl, hle2, hmx⟩
  simp only [List.nil_append]
  rw [List.take_append_of_le_length (by simp)]
  apply List.take_of_length_le
  simp

/-- Witness of C9: appends of 3, 2 and 4 bytes to a chunk of capacity 4, after the first
two of them. -/
theorem memory_write_accounting_witness :
    ∃ c1 b1, write_all 10 (fun _ => true) (fun _ => 0)
        ([[1, 2, 3], [4, 5], [6, 7, 8, 9]].take 2) ⟨some [0, 0, 0, 0], 0, 4⟩
        = Exec.ok (([[1, 2, 3], [4, 5], [6, 7, 8, 9]].take 2).map List.length, some c1) ∧
      c1.size = (([[1, 2, 3], [4, 5], [6, 7, 8, 9]].take 2).map List.length).sum ∧
      c1.buffer = some b1 ∧
      b1.take c1.size = ([[1, 2, 3], [4, 5], [6, 7, 8, 9]].take 2).flatten ∧
      b1.length = c1.max_size ∧ c1.size ≤ c1.max_size ∧
      (⟨some [0, 0, 0, 0], 0, 4⟩ : Chunk).max_size ≤ c1.max_size :=
  memory_write_accounting (fun _ => true) (fun _ => 0) (fun _ => rfl) 10
    [[1, 2, 3], [4, 5], [6, 7, 8, 9]] ⟨some [0, 0, 0, 0], 0, 4⟩ [0, 0, 0, 0] rfl rfl rfl
    (by decide) (by decide) (by decide) 2

/-! ## The status of a failed transfer -/

theorem curl_error_and (code : Nat) : SIXEL_CURL_ERROR &&& (code &&& 0xff) = 0 := by
  have h : SIXEL_CURL_ERROR &&& 0xff = 0 := by decide
  rw [Nat.and_comm code, ← Nat.and_assoc, h, Nat.zero_and]

/-- C10 (failing input). When `curl_easy_perform` fails, with whatever code (`code + 1`
is any code other than `CURLE_OK`), `sixel_chunk_from_url` returns `SIXEL_OK`: the status
`SIXEL_CURL_ERROR & (code & 0xff)` is 0 because the low byte of `SIXEL_CURL_ERROR` is 0.
It is not a failing status, and it is not `SIXEL_CURL_ERROR | (code & 0xff)`. -/
theorem sixel_chunk_from_url_failure_status (code : Nat) :
    sixel_chunk_from_url true (code + 1) = SIXEL_OK ∧
    SIXEL_FAILED (sixel_chunk_from_url true (code + 1)) = false ∧
    sixel_chunk_from_url true (code + 1) ≠ SIXEL_CURL_ERROR ||| ((code + 1) &&& 0xff) ∧
    SIXEL_FAILED (SIXEL_CURL_ERROR ||| ((code + 1) &&& 0xff)) = true := by
  have hval : sixel_chunk_from_url true (code + 1) = 0 := by
    unfold sixel_chunk_from_url
    rw [if_pos rfl, if_pos (by simp [CURLE_OK])]
    exact curl_error_and (code + 1)
  have hbit : (SIXEL_CURL_ERROR ||| ((code + 1) &&& 0xff)) &&& 0x1000 = 0x1000 := by
    have h1 : (0x1000 : Nat) &&& SIXEL_CURL_ERROR = 0x1000 := by decide
    have h2 : (0x1000 : Nat) &&& 0xff = 0 := by decide
    rw [Nat.and_comm, Nat.and_or_distrib_left, h1, Nat.and_comm (code + 1), ← Nat.and_assoc, h2,
      Nat.zero_and, Nat.or_zero]
  refine ⟨hval, ?_, ?_, ?_⟩
  · rw [hval]; decide
  · rw [hval]
    intro h
    have := congrArg (fun v => v &&& 0x1000) h
    simp only [hbit] at this
    exact absurd this (by decide)
  · unfold SIXEL_FAILED
    rw [hbit]
    decide

/-! ## The raster keeps its size -/

theorem store_length (res : List Nat) (off v : Int) (r : List Nat)
    (h : store res off v = Exec.ok r) : r.length = res.length := by
  unfold store at h
  split_ifs at h
  cases h
  simp

theorem store_pixel_length (res : List Nat) (off : Int) (v : Int × Int × Int) (r : List Nat)
    (h : store_pixel res off v = Exec.ok r) : r.length = res.length := by
  unfold store_pixel at h
  cases h0 : store res (off + 0) v.1 with
  | ok r0 =>
    rw [h0] at h
    simp only [Exec.ok_bind] at h
    cases h1 : store r0 (off + 1) v.2.1 with
    | ok r1 =>
      rw [h1] at h
      simp only [Exec.ok_bind] at h
      rw [store_length _ _ _ _ h, store_length _ _ _ _ h1, store_length _ _ _ _ h0]
    | fault => rw [h1] at h; cases h
    | timeout => rw [h1] at h; cases h
  | fault => rw [h0] at h; cases h
  | timeout => rw [h0] at h; cases h

theorem refill_result (fuel : Nat) (d d1 : Decoder) (h : refill fuel d = Exec.ok d1) :
    d1.result = d.result := by
  induction fuel generalizing d with
  | zero => cases h
  | succ fuel ih =>
    unfold refill at h
    split at h
    · cases h
    · split_ifs at h
      · cases h; rfl
      · exact (ih _ h).trans rfl
      · cases h; rfl

theorem read_ascii_result (fuel maps : Nat) (d d1 : Decoder) (n : Int)
    (h : read_ascii fuel maps d = Exec.ok (n, d1)) : d1.result = d.result := by
  unfold read_ascii at h
  cases hf : refill fuel d with
  | ok d0 =>
    have hr := refill_result fuel d d0 hf
    rw [hf] at h
    simp only [Exec.ok_bind] at h
    split_ifs at h
    · split at h
      · cases h
      · simp only [Exec.pure_eq, Exec.ok.injEq, Prod.mk.injEq] at h
        rw [← h.2]
        exact hr
    · cases hp : parse_digits d0.s 0 with
      | ok r =>
        rw [hp] at h
        simp only [Exec.ok_bind] at h
        cases hs : skip_spaces r.2 with
        | ok s2 =>
          rw [hs] at h
          simp only [Exec.ok_bind, Exec.pure_eq, Exec.ok.injEq, Prod.mk.injEq] at h
          rw [← h.2]
          exact hr
        | fault => rw [hs] at h; cases h
        | timeout => rw [hs] at h; cases h
      | fault => rw [hp] at h; cases h
      | timeout => rw [hp] at h; cases h
  | fault => rw [hf] at h; cases h
  | timeout => rw [hf] at h; cases h

theorem read_binary_result (maps x : Nat) (d d1 : Decoder) (n : Int)
    (h : read_binary maps x d = some (n, d1)) : d1.result = d.result := by
  unfold read_binary at h
  split at h
  · cases h
  · split_ifs at h <;> (simp only [Option.some.injEq, Prod.mk.injEq] at h; rw [← h.2])

theorem read_components_result (fuel : Nat) (ascii : Bool) (maps x : Nat) :
    ∀ (k : Nat) (d : Decoder) (comp : List Int) (oc : Option (List Int)) (d1 : Decoder),
      read_components fuel ascii maps x k d comp = Exec.ok (oc, d1) →
      d1.result = d.result := by
  intro k
  induction k with
  | zero =>
    intro d comp oc d1 h
    simp only [read_components, Exec.ok.injEq, Prod.mk.injEq] at h
    rw [← h.2]
  | succ k ih =>
    intro d comp oc d1 h
    unfold read_components at h
    split_ifs at h
    · cases hr : read_ascii fuel maps d with
      | ok r =>
        rw [hr] at h
        simp only [] at h
        rw [ih _ _ _ _ h, read_ascii_result fuel maps d r.2 r.1 hr]
      | fault => rw [hr] at h; cases h
      | timeout => rw [hr] at h; cases h
    · cases hr : read_binary maps x d with
      | none =>
        rw [hr] at h
        simp only [Exec.ok.injEq, Prod.mk.injEq] at h
        rw [← h.2]
      | some r =>
        rw [hr] at h
        simp only [] at h
        rw [ih _ _ _ _ h, read_binary_result maps x d r.2 r.1 hr]

theorem loop_x_length (fuel : Nat) (h : Header) (y : Nat) :
    ∀ (k x : Nat) (d d1 : Decoder), loop_x fuel h y k x d = Exec.ok d1 →
      d1.result.length = d.result.length := by
  intro k
  induction k with
  | zero =>
    intro x d d1 hd
    rw [loop_x_zero] at hd
    cases hd
    rfl
  | succ k ih =>
    intro x d d1 hd
    rw [loop_x_succ] at hd
    cases hr : read_components fuel h.ascii h.maps x (if h.maps = 2 then 3 else 1) d [] with
    | ok r =>
      obtain ⟨oc, d0⟩ := r
      have hres := read_components_result fuel h.ascii h.maps x _ d [] oc d0 hr
      rw [hr] at hd
      cases oc with
      | none =>
        simp only [Exec.ok.injEq] at hd
        rw [← hd, hres]
      | some comp =>
        simp only [] at hd
        cases hst : store_pixel d0.result (pixel_offset h.width x y)
            (to_samples h.maps h.deps comp) with
        | ok r =>
          rw [hst] at hd
          simp only [] at hd
          rw [ih _ _ _ hd]
          simp only []
          rw [store_pixel_length _ _ _ _ hst, hres]
        | fault => rw [hst] at hd; cases hd
        | timeout => rw [hst] at hd; cases hd
    | fault => rw [hr] at hd; cases hd
    | timeout => rw [hr] at hd; cases hd

theorem loop_y_length (fuel : Nat) (h : Header) :
    ∀ (k y : Nat) (d d1 : Decoder), loop_y fuel h k y d = Exec.ok d1 →
      d1.result.length = d.result.length := by
  intro k
  induction k with
  | zero =>
    intro y d d1 hd
    rw [loop_y] at hd
    cases hd
    rfl
  | succ k ih =>
    intro y d d1 hd
    rw [loop_y] at hd
    cases hx : loop_x fuel h y h.width.toNat 0 d with
    | ok d0 =>
      rw [hx] at hd
      simp only [] at hd
      rw [ih _ _ _ hd, loop_x_length fuel h y _ _ _ _ hx]
    | fault => rw [hx] at hd; cases hd
    | timeout => rw [hx] at hd; cases hd

/-- Once the header is accepted and the raster is granted, a run of `load_pnm` that
returns can only return `SIXEL_OK`, with the width and height of the header, the tag
`SIXEL_PIXELFORMAT_RGB888` and a raster of the size that was requested: no content of the
pixel data leads to a failure status.  The size requested is `width * height * 3 + 1`
provided that this is in the range of `int` (`raster_size_eq`). -/
theorem decode_returns (fuel : Nat) (malloc : Nat → Bool) (h : Header) (r : LoadResult)
    (hw : 1 ≤ h.width) (hh : 1 ≤ h.height) (hd : 1 ≤ h.deps)
    (hal : malloc (raster_size h.width h.height) = true)
    (hr : decode fuel malloc h = Exec.ok r) :
    r.status = SIXEL_OK ∧ r.psx = some h.width ∧ r.psy = some h.height ∧
      r.ppixelformat = some SIXEL_PIXELFORMAT_RGB888 ∧
      ∃ buf, r.result = some buf ∧ buf.length = raster_size h.width h.height := by
  unfold decode at hr
  rw [if_neg (by omega), hal] at hr
  simp only [Bool.true_eq_false, if_false] at hr
  cases hl : loop_y fuel h h.height.toNat 0
      ⟨h.p, h.tmp, h.s, List.replicate (raster_size h.width h.height) 0⟩ with
  | ok d =>
    rw [hl] at hr
    simp only [Exec.ok.injEq] at hr
    subst hr
    refine ⟨rfl, rfl, rfl, rfl, d.result, rfl, ?_⟩
    rw [loop_y_length fuel h _ _ _ _ hl]
    simp
  | fault => rw [hl] at hr; cases hr
  | timeout => rw [hl] at hr; cases hr

/-! ## The pixel loop of a truncated binary pixmap -/

theorem read_components_pixmap_short (fuel x : Nat) (P tmp s res : List Nat)
    (hP : P.length < 3) :
    read_components fuel false 2 x 3 ⟨P, tmp, s, res⟩ [] = Exec.ok (none, ⟨[], tmp, s, res⟩) := by
  match P, hP with
  | [], _ => simp [read_components, read_binary]
  | [a], _ => simp [read_components, read_binary]
  | [a, b], _ => simp [read_components, read_binary]

theorem three_cons_of_le {α : Type} (P : List α) (h : 3 ≤ P.length) :
    ∃ c0 c1 c2 P1, P = c0 :: c1 :: c2 :: P1 := by
  match P, h with
  | c0 :: c1 :: c2 :: P1, _ => exact ⟨c0, c1, c2, P1, rfl⟩

/-- One row of a binary pixmap whose data ends inside the row: the pixels that are
complete in the data are stored, the rest of the raster is unchanged, and the input is
exhausted. -/
theorem loop_x_pixmap_short (fuel : Nat) (h : Header) (w y : Nat) (ha : h.ascii = false)
    (hm : h.maps = 2) (hw : h.width = (w : Int)) :
    ∀ (k x : Nat) (A R P tmp s : List Nat), A.length = (y * w + x) * 3 →
      3 * k ≤ R.length → P.length < 3 * k → (y * w + x + k) * 3 < 2147483648 →
      loop_x fuel h y k x ⟨P, tmp, s, A ++ R⟩
        = Exec.ok ⟨[], tmp, s, A ++ (P.take (3 * (P.length / 3))).map (sample h.deps)
            ++ R.drop (3 * (P.length / 3))⟩ := by
  intro k
  induction k with
  | zero => intro x A R P tmp s _ _ hP _; omega
  | succ k ih =>
    intro x A R P tmp s hA hR hP hbound
    by_cases hshort : P.length < 3
    · have hz : P.length / 3 = 0 := Nat.div_eq_of_lt hshort
      rw [loop_x_succ, ha, hm]
      simp only [if_true, read_components_pixmap_short fuel x P tmp s _ hshort, hz]
      simp
    · obtain ⟨c0, c1, c2, P1, rfl⟩ := three_cons_of_le P (by omega)
      obtain ⟨b0, b1, b2, R1, rfl⟩ := three_cons_of_le R (by omega)
      have hP1 : P1.length < 3 * k := by simp at hP; omega
      have hR2 : 3 * k ≤ R1.length := by simp at hR; omega
      have hoff : pixel_offset h.width x y = (A.length : Int) := by
        rw [hw, pixel_offset_eq w x y (by omega), hA]
      have hnext := ih (x + 1)
        (A ++ [sample h.deps c0, sample h.deps c1, sample h.deps c2]) R1 P1 tmp s
        (by simp; omega) hR2 hP1 (by omega)
      have hdiv : (c0 :: c1 :: c2 :: P1).length / 3 = P1.length / 3 + 1 := by
        simp only [List.length_cons]
        omega
      rw [loop_x_succ, ha, hm]
      simp only [if_true, read_components_pixmap]
      rw [hoff, store_pixel_at]
      simp only [to_samples, List.getD_cons_zero, List.getD_cons_succ]
      simp only [show (2 : Nat) ≠ 0 by omega, show (2 : Nat) ≠ 1 by omega, if_false]
      have hfin : A ++ uchar_of_int (scale (↑c0) h.deps) ::
          uchar_of_int (scale (↑c1) h.deps) :: uchar_of_int (scale (↑c2) h.deps) :: R1
          = A ++ [sample h.deps c0, sample h.deps c1, sample h.deps c2] ++ R1 := by
        simp [sample]
      rw [hfin, hnext, hdiv]
      have e3 : 3 * (P1.length / 3 + 1) = 3 * (P1.length / 3) + 3 := by ring
      rw [e3]
      simp [List.take_succ_cons, List.drop_succ_cons]

/-- The rows of a binary pixmap whose data holds at most the pixels of the rows left:
the pixels that are complete in the data are stored in order, the rest of the raster is
unchanged, and the input is exhausted. -/
theorem loop_y_pixmap_data (fuel : Nat) (h : Header) (w : Nat) (ha : h.ascii = false)
    (hm : h.maps = 2) (hw : h.width = (w : Int)) :
    ∀ (k y : Nat) (A B C P tmp s : List Nat), A.length = y * w * 3 →
      B.length = 3 * (w * k) → P.length ≤ 3 * (w * k) → (y + k) * w * 3 < 2147483648 →
      loop_y fuel h k y ⟨P, tmp, s, A ++ B ++ C⟩
        = Exec.ok ⟨[], tmp, s, A ++ (P.take (3 * (P.length / 3))).map (sample h.deps)
            ++ B.drop (3 * (P.length / 3)) ++ C⟩ := by
  intro k
  induction k with
  | zero =>
    intro y A B C P tmp s _ hB hP _
    have hB0 : B = [] := List.length_eq_zero.1 (by omega)
    have hP0 : P = [] := List.length_eq_zero.1 (by omega)
    subst hB0 hP0
    simp [loop_y]
  | succ k ih =>
    intro y A B C P tmp s hA hB hP hbound
    have e1 : w * (k + 1) = w + w * k := by ring
    have e2 : (y + (k + 1)) * w * 3 = (y * w + 0 + w) * 3 + w * k * 3 := by ring
    have e3 : (y + 1 + k) * w * 3 = (y + (k + 1)) * w * 3 := by ring
    have e4 : (y + 1) * w * 3 = y * w * 3 + 3 * w := by ring
    have hwn : h.width.toNat = w := by rw [hw]; simp
    by_cases hfull : 3 * w ≤ P.length
    · have hrow := loop_x_pixmap fuel h w y ha hm hw w 0 A (B.take (3 * w))
        (B.drop (3 * w) ++ C) (P.take (3 * w)) (P.drop (3 * w)) tmp s
        (by omega) (by rw [List.length_take]; omega) (by rw [List.length_take]; omega)
        (by omega)
      have hrest := ih (y + 1) (A ++ (P.take (3 * w)).map (sample h.deps)) (B.drop (3 * w)) C
        (P.drop (3 * w)) tmp s
        (by rw [List.length_append, List.length_map, List.length_take]; omega)
        (by rw [List.length_drop]; omega) (by rw [List.length_drop]; omega) (by omega)
      have hB2 : A ++ B ++ C = A ++ B.take (3 * w) ++ (B.drop (3 * w) ++ C) := by
        simp only [List.append_assoc]
        rw [← List.append_assoc (B.take (3 * w)), List.take_append_drop]
      have hB3 : A ++ (P.take (3 * w)).map (sample h.deps) ++ (B.drop (3 * w) ++ C)
          = A ++ (P.take (3 * w)).map (sample h.deps) ++ B.drop (3 * w) ++ C := by
        simp only [List.append_assoc]
      have hdiv : P.length / 3 = w + (P.length - 3 * w) / 3 := by omega
      have e5 : 3 * (w + (P.length - 3 * w) / 3) = 3 * w + 3 * ((P.length - 3 * w) / 3) := by
        ring
      rw [loop_y, hwn]
      nth_rewrite 1 [← List.take_append_drop (3 * w) P]
      rw [hB2, hrow]
      simp only []
      rw [hB3, hrest, List.length_drop, hdiv, e5, List.take_add, List.map_append,
        List.drop_drop]
      simp only [List.append_assoc, Nat.add_comm]
    · have hrow := loop_x_pixmap_short fuel h w y ha hm hw w 0 A (B ++ C) P tmp s
        (by omega) (by rw [List.length_append]; omega) (by omega) (by omega)
      have hdrop : (B ++ C).drop (3 * (P.length / 3)) = B.drop (3 * (P.length / 3)) ++ C := by
        rw [List.drop_append_of_le_length (by omega)]
      rw [loop_y, hwn, List.append_assoc, hrow]
      simp only []
      rw [loop_y_exhausted fuel h ha _ _ _ rfl, hdrop]
      simp only [List.append_assoc]

/-- For a binary pixmap whose dimensions are such that `width * height * 3 + 1` is in the
range of `int`, with any depth in the range of `int` and pixel data of `k` bytes, `k` at
most `width * height * 3`, `load_pnm` returns `SIXEL_OK`; the first `k / 3` pixels of the
raster are the scaled data bytes and all the bytes after them are 0. -/
theorem load_pnm_pixmap_data (fuel : Nat) (stack : Nat → Nat) (malloc : Nat → Bool)
    (width height depth : Nat) (data : List Nat) (hw : 1 ≤ width) (hh : 1 ≤ height)
    (hd : 1 ≤ depth) (hd2 : depth < 2147483648)
    (hrange : width * height * 3 + 1 < 2147483648)
    (hdata : data.length ≤ width * height * 3)
    (halloc : malloc (width * height * 3 + 1) = true) :
    load_pnm fuel stack malloc (pnm_file 54 width height depth data)
      = Exec.ok ⟨SIXEL_OK, none,
          some ((data.take (3 * (data.length / 3))).map (sample (depth : Int))
            ++ List.replicate (width * height * 3 + 1 - 3 * (data.length / 3)) 0),
          some (width : Int), some (height : Int), some SIXEL_PIXELFORMAT_RGB888,
          some (width * height * 3 + 1)⟩ := by
  have hw2 : width < 2147483648 := by
    have : width * 1 ≤ width * height := Nat.mul_le_mul_left _ hh
    omega
  have hh2 : height < 2147483648 := by
    have : 1 * height ≤ width * height := Nat.mul_le_mul_right _ hw
    omega
  obtain ⟨h0, h1, tmp, s, hparse⟩ := parse_header_pnm_file stack 54 width height depth data
    false 2 (by decide) (by omega) hw hw2 hh hh2 hd hd2
  have hsize := raster_size_eq width height hrange
  rw [load_pnm_of_magic fuel stack _ _ 54 false 2 (by decide) h0 h1, hparse]
  simp only []
  rw [decode_accepted fuel _ false 2 width height depth data tmp s (by omega) (by omega)
      (by omega) (by rw [hsize]; exact halloc), hsize]
  have hloop := loop_y_pixmap_data fuel ⟨false, 2, width, height, depth, data, tmp, s⟩ width
    rfl rfl rfl height 0 [] (List.replicate (width * height * 3) 0) [0] data tmp s
    (by simp) (by simp; ring) (by omega)
    (by rw [Nat.zero_add, Nat.mul_comm height width]; omega)
  have hrep : List.replicate (width * height * 3 + 1) 0
      = [] ++ List.replicate (width * height * 3) 0 ++ [0] := by
    simp [List.replicate_succ']
  have hk : 3 * (data.length / 3) ≤ width * height * 3 := by omega
  have htail : List.drop (3 * (data.length / 3)) (List.replicate (width * height * 3) 0) ++ [0]
      = List.replicate (width * height * 3 + 1 - 3 * (data.length / 3)) 0 := by
    rw [List.drop_replicate]
    have : width * height * 3 + 1 - 3 * (data.length / 3)
        = (width * height * 3 - 3 * (data.length / 3)) + 1 := by omega
    rw [this, List.replicate_succ']
  rw [Int.toNat_ofNat, hrep, hloop]
  simp only [List.nil_append, List.append_assoc, htail]


/-! ## The line reader in general -/

theorem split_at {α : Type} (buf : List α) (n : Nat) (h : n < buf.length) :
    ∃ A o B, buf = A ++ o :: B ∧ A.length = n :=
  ⟨buf.take n, buf[n], buf.drop (n + 1), by
    rw [← List.drop_eq_getElem_cons h, List.take_append_drop], by
    simp [Nat.min_eq_left (le_of_lt h)]⟩

/-- The copy loop of `pnm_get_line` in closed form: the cursor stops after the maximal run
of bytes of at least 0x20, and the buffer receives the bytes of the run that fit below
index 255. -/
theorem get_line_copy_eq (p : List Nat) (n : Nat) (buf : List Nat) (hn : n ≤ 255)
    (hb : 255 ≤ buf.length) :
    get_line_copy p n buf
      = (p.dropWhile (fun c => decide (32 ≤ c)),
         min 255 (n + (p.takeWhile (fun c => decide (32 ≤ c))).length),
         buf.take n ++ (p.takeWhile (fun c => decide (32 ≤ c))).take (255 - n)
           ++ buf.drop (min 255 (n + (p.takeWhile (fun c => decide (32 ≤ c))).length))) := by
  induction p generalizing n buf with
  | nil => simp [get_line_copy, Nat.min_eq_right hn]
  | cons c q ih =>
    by_cases hc : 32 ≤ c
    · rw [get_line_copy, if_pos hc]
      simp only [List.takeWhile_cons, List.dropWhile_cons, hc, decide_True, if_true,
        List.length_cons]
      by_cases hlt : n < 255
      · rw [if_pos hlt, ih (n + 1) (buf.set n c) (by omega) (by simpa using hb)]
        obtain ⟨A, o, B, rfl, hA⟩ := split_at buf n (by omega)
        subst hA
        have hset : (A ++ o :: B).set A.length c = A ++ c :: B := by simp
        have e2 : 255 - A.length = (255 - (A.length + 1)) + 1 := by omega
        rw [hset, e2, List.take_succ_cons]
        generalize (List.takeWhile (fun c => decide (32 ≤ c)) q).length = L
        have hm : min 255 (A.length + 1 + L) = A.length + (min 254 (A.length + L) - A.length + 1)
            := by omega
        have hm2 : min 255 (A.length + (L + 1))
            = A.length + (min 254 (A.length + L) - A.length + 1) := by omega
        rw [hm, hm2, List.drop_append, List.drop_append]
        simp [List.take_append, Nat.add_assoc, Nat.add_comm 1]
      · have h255 : n = 255 := by omega
        subst h255
        rw [if_neg hlt, ih 255 buf (le_refl _) hb]
        simp
    · rw [get_line_copy, if_neg hc]
      simp [List.takeWhile_cons, List.dropWhile_cons, hc, Nat.min_eq_right hn]


theorem skip_newline_eq (q : List Nat) :
    skip_newline q = if q.head? = some 10 then q.tail else q := by
  unfold skip_newline
  split
  · simp
  · next h =>
    cases q with
    | nil => simp
    | cons c q =>
      have : c ≠ 10 := fun hc => h q (by rw [hc])
      simp [this]

/-- One round of the loop of `pnm_get_line` on a buffer of at least 256 bytes. -/
theorem get_line_loop_succ (k : Nat) (p buf : List Nat) (hb : 256 ≤ buf.length) :
    get_line_loop (k + 1) p buf
      = if (p.takeWhile (fun c => decide (32 ≤ c))).head? = some 35 then
          get_line_loop k (skip_newline (p.dropWhile (fun c => decide (32 ≤ c))))
            ((p.takeWhile (fun c => decide (32 ≤ c))).take 255 ++ 0 ::
              buf.drop (min 255 (p.takeWhile (fun c => decide (32 ≤ c))).length + 1))
        else
          (skip_newline (p.dropWhile (fun c => decide (32 ≤ c))),
            (p.takeWhile (fun c => decide (32 ≤ c))).take 255 ++ 0 ::
              buf.drop (min 255 (p.takeWhile (fun c => decide (32 ≤ c))).length + 1)) := by
  have hcopy := get_line_copy_eq p 0 buf (by omega) (by omega)
  simp only [List.take_zero, List.nil_append, Nat.zero_add, Nat.sub_zero] at hcopy
  generalize p.takeWhile (fun c => decide (32 ≤ c)) = run at hcopy ⊢
  have hlen : (run.take 255).length = min 255 run.length := by simp
  have hset : (run.take 255 ++ buf.drop (min 255 run.length)).set (min 255 run.length) 0
      = run.take 255 ++ 0 :: buf.drop (min 255 run.length + 1) := by
    rw [List.set_append_right _ _ (by rw [hlen]), hlen, Nat.sub_self,
      List.drop_eq_getElem_cons (by omega : min 255 run.length < buf.length)]
    rfl
  have hhead : (run.take 255 ++ 0 :: buf.drop (min 255 run.length + 1)).head? = some 35
      ↔ run.head? = some 35 := by
    cases run with
    | nil => simp
    | cons c run => simp
  simp only [get_line_loop, hcopy, hset, hhead]


theorem skip_newline_length (q : List Nat) : (skip_newline q).length ≤ q.length := by
  unfold skip_newline
  split
  · simp
  · exact le_refl _

theorem run_length (p : List Nat) :
    (p.takeWhile (fun c => decide (32 ≤ c))).length
      + (p.dropWhile (fun c => decide (32 ≤ c))).length = p.length := by
  conv_rhs => rw [← List.takeWhile_append_dropWhile (fun c => decide (32 ≤ c)) p]
  rw [List.length_append]

theorem spec_runs_succ (k : Nat) (p : List Nat) :
    spec_runs (k + 1) p
      = if (p.takeWhile (fun c => decide (32 ≤ c))).head? = some 35 then
          spec_runs k (skip_newline (p.dropWhile (fun c => decide (32 ≤ c))))
        else
          (p.takeWhile (fun c => decide (32 ≤ c)),
            skip_newline (p.dropWhile (fun c => decide (32 ≤ c)))) := by
  rw [spec_runs, skip_newline_eq]

/-- The loop of `pnm_get_line` against the wording of the specification: the cursor returned
is the one after the last run, and the buffer holds the first 255 bytes of that run, then
a NUL. -/
theorem get_line_loop_spec (k : Nat) (p buf : List Nat) (hk : p.length < k)
    (hb : 256 ≤ buf.length) :
    ∃ stale, get_line_loop k p buf
      = ((spec_runs k p).2, (spec_runs k p).1.take 255 ++ 0 :: stale) := by
  induction k generalizing p buf with
  | zero => omega
  | succ k ih =>
    rw [get_line_loop_succ k p buf hb, spec_runs_succ]
    by_cases hh : (p.takeWhile (fun c => decide (32 ≤ c))).head? = some 35
    · rw [if_pos hh, if_pos hh]
      have hne : 1 ≤ (p.takeWhile (fun c => decide (32 ≤ c))).length := by
        cases hr : p.takeWhile (fun c => decide (32 ≤ c)) with
        | nil => rw [hr] at hh; simp at hh
        | cons c r => simp
      have h1 := run_length p
      have h2 := skip_newline_length (p.dropWhile (fun c => decide (32 ≤ c)))
      exact ih _ _ (by omega) (by simp; omega)
    · rw [if_neg hh, if_neg hh]
      exact ⟨_, rfl⟩

/-- The last run of the specification is a maximal run of bytes of at least 0x20 of the
input that does not begin with `'#'`, and the cursor after it is a suffix of the input,
past the run and the newline that may follow it. -/
theorem spec_runs_run (k : Nat) (p : List Nat) (hk : p.length < k) :
    (∀ c ∈ (spec_runs k p).1, 32 ≤ c) ∧ (spec_runs k p).1.head? ≠ some 35 ∧
    ∃ pre nl, p = pre ++ (spec_runs k p).1 ++ nl ++ (spec_runs k p).2 ∧
      (nl = [] ∨ nl = [10]) ∧
      (nl = [] → ∀ c, (spec_runs k p).2.head? = some c → c < 32) := by
  induction k generalizing p with
  | zero => omega
  | succ k ih =>
    rw [spec_runs_succ]
    have hsplit := List.takeWhile_append_dropWhile (fun c => decide (32 ≤ c)) p
    have hnl : ∃ nl, p.dropWhile (fun c => decide (32 ≤ c))
        = nl ++ skip_newline (p.dropWhile (fun c => decide (32 ≤ c))) ∧ (nl = [] ∨ nl = [10]) ∧
        (nl = [] → ∀ c, (skip_newline (p.dropWhile (fun c => decide (32 ≤ c)))).head? = some c
          → c < 32) := by
      cases hd : p.dropWhile (fun c => decide (32 ≤ c)) with
      | nil => exact ⟨[], by simp [skip_newline], Or.inl rfl, by simp [skip_newline]⟩
      | cons c q =>
        have hc : ¬ 32 ≤ c := by
          have := List.head_dropWhile_not (fun c => decide (32 ≤ c)) p (by rw [hd]; simp)
          simpa [hd] using this
        by_cases h10 : c = 10
        · subst h10
          exact ⟨[10], by simp [skip_newline], Or.inr rfl, by simp⟩
        · refine ⟨[], ?_, Or.inl rfl, ?_⟩
          · rw [skip_newline_eq]; simp [h10]
          · intro _ b hb
            rw [skip_newline_eq] at hb
            simp [h10] at hb
            omega
    obtain ⟨nl, hnl1, hnl2, hnl3⟩ := hnl
    by_cases hh : (p.takeWhile (fun c => decide (32 ≤ c))).head? = some 35
    · rw [if_pos hh]
      have hne : 1 ≤ (p.takeWhile (fun c => decide (32 ≤ c))).length := by
        cases hr : p.takeWhile (fun c => decide (32 ≤ c)) with
        | nil => rw [hr] at hh; simp at hh
        | cons c r => simp
      have h1 := run_length p
      have h2 := skip_newline_length (p.dropWhile (fun c => decide (32 ≤ c)))
      obtain ⟨i1, i2, pre, nl2, i3, i4, i5⟩ := ih
        (skip_newline (p.dropWhile (fun c => decide (32 ≤ c)))) (by omega)
      refine ⟨i1, i2, p.takeWhile (fun c => decide (32 ≤ c)) ++ nl ++ pre, nl2, ?_, i4, i5⟩
      conv_lhs => rw [← hsplit, hnl1, i3]
      simp only [List.append_assoc]
    · rw [if_neg hh]
      refine ⟨?_, hh, [], nl, ?_, hnl2, hnl3⟩
      · intro c hc
        have := List.mem_takeWhile_imp hc
        simpa using this
      · conv_lhs => rw [← hsplit, hnl1]
        simp only [List.nil_append, List.append_assoc]


/-- A line of at most 255 printable bytes that begins with `'#'` and is ended by a newline
is discarded: it is written to the buffer, and the next line is read over it. -/
theorem pnm_get_line_comment (cm rest buf : List Nat) (hcm : ∀ c ∈ cm, 32 ≤ c)
    (hfit : cm.length ≤ 255) (hhead : cm.head? = some 35) (h256 : buf.length = 256) :
    pnm_get_line (cm ++ 10 :: rest) buf
      = pnm_get_line rest (cm ++ 0 :: buf.drop (cm.length + 1)) := by
  have htake : (cm ++ 10 :: rest).takeWhile (fun c => decide (32 ≤ c)) = cm := by
    rw [List.takeWhile_append_of_pos (by simpa using hcm)]
    simp
  have hdrop : (cm ++ 10 :: rest).dropWhile (fun c => decide (32 ≤ c)) = 10 :: rest := by
    rw [List.dropWhile_append_of_pos (by simpa using hcm)]
    simp
  unfold pnm_get_line
  rw [get_line_loop_succ _ _ _ (by omega), htake, hdrop, if_pos hhead,
    List.take_of_length_le hfit, Nat.min_eq_right hfit]
  exact get_line_loop_fuel _ _ _ _ (by simp [skip_newline]; omega) (by simp [skip_newline])

/-- The three stores of a pixel succeed when the three offsets are inside the raster, and
they keep its length. -/
theorem store_pixel_ok (res : List Nat) (off : Int) (v : Int × Int × Int) (h0 : 0 ≤ off)
    (h1 : off.toNat + 2 < res.length) :
    ∃ r, store_pixel res off v = Exec.ok r ∧ r.length = res.length := by
  have e0 : (off + 0).toNat = off.toNat := by simp
  have e1 : (off + 1).toNat = off.toNat + 1 := by omega
  have e2 : (off + 2).toNat = off.toNat + 2 := by omega
  refine ⟨((res.set off.toNat (uchar_of_int v.1)).set (off.toNat + 1) (uchar_of_int v.2.1)).set
    (off.toNat + 2) (uchar_of_int v.2.2), ?_, by simp⟩
  unfold store_pixel store
  rw [e0, if_pos ⟨by omega, by omega⟩]
  simp only [Exec.ok_bind]
  rw [e1, if_pos ⟨by omega, by simp; omega⟩]
  simp only [Exec.ok_bind]
  rw [e2, if_pos ⟨by omega, by simp; omega⟩]


/-! ## The token cursor of the ASCII bitmap -/

/-- With the input exhausted, the refill loop leaves the decoder as it is, whatever the
byte under the token cursor. -/
theorem refill_exhausted (n : Nat) (tmp s res : List Nat) (c : Nat) :
    refill (n + 1) ⟨[], tmp, c :: s, res⟩ = Exec.ok ⟨[], tmp, c :: s, res⟩ := by
  by_cases hc : c = 0
  · simp [refill, hc]
  · simp [refill, hc]

/-- An ASCII bitmap whose input is exhausted: every pixel still moves the token cursor by
one byte, terminator or not, so that a row with more pixels left than there are bytes
between the token cursor and the end of `tmp` reads past the end of `tmp`. -/
theorem loop_x_bitmap_overrun (n : Nat) (w ht dp : Int) (p0 tmp0 s0 : List Nat) (y : Nat)
    (tmp : List Nat) :
    ∀ (s : List Nat) (k x : Nat) (res : List Nat), s.length < k →
      (∀ i, i < x + k → 0 ≤ pixel_offset w i y ∧
        (pixel_offset w i y).toNat + 2 < res.length) →
      loop_x (n + 1) ⟨true, 0, w, ht, dp, p0, tmp0, s0⟩ y k x ⟨[], tmp, s, res⟩
        = Exec.fault := by
  intro s
  induction s with
  | nil =>
    intro k x res hk _
    obtain ⟨k, rfl⟩ : ∃ j, k = j + 1 := ⟨k - 1, by simp at hk; omega⟩
    rw [loop_x_succ]
    simp [read_components, read_ascii, refill]
  | cons c s ih =>
    intro k x res hk hin
    obtain ⟨k, rfl⟩ : ∃ j, k = j + 1 := ⟨k - 1, by simp at hk; omega⟩
    obtain ⟨r, hr, hlen⟩ := store_pixel_ok res (pixel_offset w x y)
      (if c = 48 then (255, 255, 255) else (0, 0, 0)) (hin x (by omega)).1 (hin x (by omega)).2
    rw [loop_x_bitmap_step (n + 1) w ht dp p0 tmp0 s0 y k x [] tmp (c :: s) res [] tmp s res r c
      (refill_exhausted n tmp s res c) hr]
    exact ih k (x + 1) r (by simp at hk; omega) (fun i hi => by
      rw [hlen]; exact hin i (by omega))



/-! ## The guards of `memory_write` -/

/-- C11. The call `memory_write(ptr, size, len, memory)` returns 0 and leaves the chunk with
the buffer, the size and the capacity it had, whenever `ptr` is `NULL`, `memory` is `NULL`,
`size * len = 0`, or the buffer of the chunk is `NULL`. -/
theorem memory_write_guards (fuel : Nat) (grant : Nat → Bool) (junk : Nat → Nat)
    (ptr : Option (List Nat)) (size len : Nat) (memory : Option Chunk)
    (h : ptr = none ∨ memory = none ∨ size * len = 0 ∨
      ∃ c, memory = some c ∧ c.buffer = none) :
    memory_write fuel grant junk ptr size len memory = Exec.ok (0, memory) := by
  cases ptr with
  | none => cases memory <;> rfl
  | some src =>
    cases memory with
    | none => rfl
    | some chunk =>
      rcases h with h | h | h | ⟨c, hc, hb⟩
      · cases h
      · cases h
      · simp [memory_write, h, size_t]
      · cases hc
        by_cases hz : size_t (size * len) = 0
        · simp [memory_write, hz]
        · simp [memory_write, hz, hb]

/-- The three calls of `test1`: `memory_write(NULL, 1, 1, NULL)`, then `memory_write(ptr, 1, 1,
&chunk)` and `memory_write(ptr, 0, 1, &chunk)` on the zeroed chunk, each returning 0. -/
theorem memory_write_guards_witness :
    memory_write 0 (fun _ => true) (fun _ => 0) none 1 1 none = Exec.ok (0, none) ∧
    memory_write 0 (fun _ => true) (fun _ => 0) (some (List.replicate 16 0)) 1 1
      (some ⟨none, 0, 0⟩) = Exec.ok (0, some ⟨none, 0, 0⟩) ∧
    memory_write 0 (fun _ => true) (fun _ => 0) (some (List.replicate 16 0)) 0 1
      (some ⟨none, 0, 0⟩) = Exec.ok (0, some ⟨none, 0, 0⟩) :=
  ⟨memory_write_guards 0 _ _ none 1 1 none (Or.inl rfl),
   memory_write_guards 0 _ _ _ 1 1 _ (Or.inr (Or.inr (Or.inr ⟨_, rfl, rfl⟩))),
   memory_write_guards 0 _ _ _ 0 1 _ (Or.inr (Or.inr (Or.inl (by decide))))⟩



/-! ## C12: pixels decoded from stale bytes -/

/-- The header "P1\n#000000\n2 2\n": the comment line is written to `tmp` and the dimension
line over its beginning, so that three characters `'0'` of the comment are left behind the
terminator of the dimension line. -/
theorem parse_header_stale (stack : Nat → Nat) :
    (pnm_get_line [80, 49, 10, 35, 48, 48, 48, 48, 48, 48, 10, 50, 32, 50, 10]
      (initial_tmp stack)).2.getD 0 0 = 80 ∧
    (pnm_get_line [80, 49, 10, 35, 48, 48, 48, 48, 48, 48, 10, 50, 32, 50, 10]
      (initial_tmp stack)).2.getD 1 0 = 49 ∧
    ∃ stale,
      parse_dimensions true 0
        (pnm_get_line [80, 49, 10, 35, 48, 48, 48, 48, 48, 48, 10, 50, 32, 50, 10]
          (initial_tmp stack)).1
        (pnm_get_line [80, 49, 10, 35, 48, 48, 48, 48, 48, 48, 10, 50, 32, 50, 10]
          (initial_tmp stack)).2
      = Exec.ok ⟨true, 0, 2, 2, 1, [], 50 :: 32 :: 50 :: 0 :: 48 :: 48 :: 48 :: 0 :: stale,
          0 :: 48 :: 48 :: 48 :: 0 :: stale⟩ := by
  have h256 := initial_tmp_length stack
  generalize initial_tmp stack = tmp0 at h256 ⊢
  have l1 := pnm_get_line_run [80, 49] [35, 48, 48, 48, 48, 48, 48, 10, 50, 32, 50, 10] tmp0
    (by decide) (by decide) (by decide) h256
  have len1 : ([80, 49] ++ 0 :: tmp0.drop ([80, 49].length + 1)).length = 256 := by
    simp [h256]
  have l2 := pnm_get_line_comment [35, 48, 48, 48, 48, 48, 48] [50, 32, 50, 10]
    ([80, 49] ++ 0 :: tmp0.drop ([80, 49].length + 1)) (by decide) (by decide) rfl len1
  have len2 : ([35, 48, 48, 48, 48, 48, 48] ++ 0 :: List.drop
      ([35, 48, 48, 48, 48, 48, 48].length + 1)
      ([80, 49] ++ 0 :: tmp0.drop ([80, 49].length + 1))).length = 256 := by
    simp [h256]
  have l3 := pnm_get_line_run [50, 32, 50] [] _ (by decide) (by decide) (by decide) len2
  simp only [List.cons_append, List.nil_append, List.length_cons, List.length_nil,
    List.drop_succ_cons, List.drop_zero] at l1 l2 l3
  rw [l1]
  refine ⟨rfl, rfl, List.drop 5 (List.drop 3 tmp0), ?_⟩
  unfold parse_dimensions
  simp only [l2, l3]
  simp [parse_digits, skip_spaces, skip_to_nul, isdigit, wrap32]

/-- C12 (failing input). On the input "P1\n#000000\n2 2\n", an accepted header with a
comment line and no pixel data at all, `load_pnm` returns `SIXEL_OK` with the raster
[(0,0,0),(255,255,255),(255,255,255),(255,255,255)]: the first pixel is read on the
terminator of the dimension line and moves the token cursor past it, and the three other
pixels are decoded from the characters `'0'` that the comment line left in `tmp`.  This
holds whatever the initial content of `tmp`, for every fuel of at least 1. -/
theorem load_pnm_stale_pixels (n : Nat) (stack : Nat → Nat) :
    load_pnm (n + 1) stack (fun _ => true)
        [80, 49, 10, 35, 48, 48, 48, 48, 48, 48, 10, 50, 32, 50, 10]
      = Exec.ok ⟨SIXEL_OK, none,
          some [0, 0, 0, 255, 255, 255, 255, 255, 255, 255, 255, 255, 0],
          some 2, some 2, some SIXEL_PIXELFORMAT_RGB888, some 13⟩ := by
  obtain ⟨h0, h1, stale, hparse⟩ := parse_header_stale stack
  rw [load_pnm_of_magic (n + 1) stack _ _ 49 true 0 (by decide) h0 h1, hparse]
  simp only []
  rw [decode_accepted (n + 1) _ true 0 2 2 1 _ _ _ (by omega) (by omega) (by omega) rfl]
  have hZ : List.replicate (raster_size 2 2) 0 = [0, 0, 0, 0, 0, 0, 0, 0, 0, 0, 0, 0, 0] := by
    rw [raster_size_2_2]; rfl
  rw [hZ]
  have st0 : store_pixel [0, 0, 0, 0, 0, 0, 0, 0, 0, 0, 0, 0, 0] (pixel_offset 2 0 0)
      (if 0 = 48 then (255, 255, 255) else (0, 0, 0))
      = Exec.ok [0, 0, 0, 0, 0, 0, 0, 0, 0, 0, 0, 0, 0] := by decide
  have st1 : store_pixel [0, 0, 0, 0, 0, 0, 0, 0, 0, 0, 0, 0, 0] (pixel_offset 2 1 0)
      (if 48 = 48 then (255, 255, 255) else (0, 0, 0))
      = Exec.ok [0, 0, 0, 255, 255, 255, 0, 0, 0, 0, 0, 0, 0] := by decide
  have st2 : store_pixel [0, 0, 0, 255, 255, 255, 0, 0, 0, 0, 0, 0, 0] (pixel_offset 2 0 1)
      (if 48 = 48 then (255, 255, 255) else (0, 0, 0))
      = Exec.ok [0, 0, 0, 255, 255, 255, 255, 255, 255, 0, 0, 0, 0] := by decide
  have st3 : store_pixel [0, 0, 0, 255, 255, 255, 255, 255, 255, 0, 0, 0, 0]
      (pixel_offset 2 1 1) (if 48 = 48 then (255, 255, 255) else (0, 0, 0))
      = Exec.ok [0, 0, 0, 255, 255, 255, 255, 255, 255, 255, 255, 255, 0] := by decide
  have row0 : loop_x (n + 1) ⟨true, 0, 2, 2, 1, [],
      50 :: 32 :: 50 :: 0 :: 48 :: 48 :: 48 :: 0 :: stale, 0 :: 48 :: 48 :: 48 :: 0 :: stale⟩
      0 2 0
      ⟨[], 50 :: 32 :: 50 :: 0 :: 48 :: 48 :: 48 :: 0 :: stale,
        0 :: 48 :: 48 :: 48 :: 0 :: stale, [0, 0, 0, 0, 0, 0, 0, 0, 0, 0, 0, 0, 0]⟩
      = Exec.ok ⟨[], 50 :: 32 :: 50 :: 0 :: 48 :: 48 :: 48 :: 0 :: stale, 48 :: 48 :: 0 :: stale,
        [0, 0, 0, 255, 255, 255, 0, 0, 0, 0, 0, 0, 0]⟩ := by
    rw [loop_x_bitmap_step (n + 1) 2 2 1 _ _ _ 0 1 0 _ _ _ _ _ _ _ _ _ 0
        (refill_exhausted n _ _ _ 0) st0,
      loop_x_bitmap_step (n + 1) 2 2 1 _ _ _ 0 0 1 _ _ _ _ _ _ _ _ _ 48
        (refill_exhausted n _ _ _ 48) st1, loop_x_zero]
  have row1 : loop_x (n + 1) ⟨true, 0, 2, 2, 1, [],
      50 :: 32 :: 50 :: 0 :: 48 :: 48 :: 48 :: 0 :: stale, 0 :: 48 :: 48 :: 48 :: 0 :: stale⟩
      1 2 0
      ⟨[], 50 :: 32 :: 50 :: 0 :: 48 :: 48 :: 48 :: 0 :: stale, 48 :: 48 :: 0 :: stale,
        [0, 0, 0, 255, 255, 255, 0, 0, 0, 0, 0, 0, 0]⟩
      = Exec.ok ⟨[], 50 :: 32 :: 50 :: 0 :: 48 :: 48 :: 48 :: 0 :: stale, 0 :: stale,
        [0, 0, 0, 255, 255, 255, 255, 255, 255, 255, 255, 255, 0]⟩ := by
    rw [loop_x_bitmap_step (n + 1) 2 2 1 _ _ _ 1 1 0 _ _ _ _ _ _ _ _ _ 48
        (refill_exhausted n _ _ _ 48) st2,
      loop_x_bitmap_step (n + 1) 2 2 1 _ _ _ 1 0 1 _ _ _ _ _ _ _ _ _ 48
        (refill_exhausted n _ _ _ 48) st3, loop_x_zero]
  have hrows : loop_y (n + 1) ⟨true, 0, 2, 2, 1, [],
      50 :: 32 :: 50 :: 0 :: 48 :: 48 :: 48 :: 0 :: stale, 0 :: 48 :: 48 :: 48 :: 0 :: stale⟩
      2 0
      ⟨[], 50 :: 32 :: 50 :: 0 :: 48 :: 48 :: 48 :: 0 :: stale,
        0 :: 48 :: 48 :: 48 :: 0 :: stale, [0, 0, 0, 0, 0, 0, 0, 0, 0, 0, 0, 0, 0]⟩
      = Exec.ok ⟨[], 50 :: 32 :: 50 :: 0 :: 48 :: 48 :: 48 :: 0 :: stale, 0 :: stale,
        [0, 0, 0, 255, 255, 255, 255, 255, 255, 255, 255, 255, 0]⟩ := by
    rw [loop_y]
    simp only [show (2 : Int).toNat = 2 from rfl, row0]
    rw [loop_y]
    simp only [show (2 : Int).toNat = 2 from rfl, row1]
    rfl
  simp only [show (2 : Int).toNat = 2 from rfl, hrows, raster_size_2_2]



/-! ## The pixel loop of the binary bitmap -/

theorem spec_bitmap_length (w : Nat) (d : List Nat) (m : Nat) :
    (spec_bitmap w d m).length = 3 * m := by
  induction m with
  | zero => rfl
  | succ m ih => simp [spec_bitmap, ih]; omega

theorem spec_bitmap_get (w : Nat) (d : List Nat) (m k j : Nat) (hk : k < m) (hj : j < 3) :
    (spec_bitmap w d m)[3 * k + j]? = some (spec_bit_sample w d (k % w) (k / w)) := by
  induction m with
  | zero => omega
  | succ m ih =>
    rw [spec_bitmap]
    by_cases hkm : k < m
    · rw [List.getElem?_append_left (by rw [spec_bitmap_length]; omega)]
      exact ih hkm
    · have hkm2 : k = m := by omega
      subst hkm2
      rw [List.getElem?_append_right (by rw [spec_bitmap_length]; omega), spec_bitmap_length]
      have : 3 * k + j - 3 * k = j := by omega
      rw [this]
      match j, hj with
      | 0, _ => rfl
      | 1, _ => rfl
      | 2, _ => rfl

/-- Pixels whose byte lies beyond the data are 0: the raster filled up to pixel `m` and
zero after it is also the raster filled up to a later pixel. -/
theorem spec_bitmap_extend (w : Nat) (d : List Nat) (m n : Nat)
    (hz : ∀ k, m ≤ k → k < m + n → spec_bit_sample w d (k % w) (k / w) = 0) :
    spec_bitmap w d (m + n) = spec_bitmap w d m ++ List.replicate (3 * n) 0 := by
  induction n with
  | zero => simp
  | succ n ih =>
    rw [← Nat.add_assoc, spec_bitmap, ih (fun k h1 h2 => hz k h1 (by omega)),
      hz (m + n) (by omega) (by omega), List.append_assoc, ← List.replicate_add]
    congr 2

/-- The shifts of line 203, `(*p << (x & 0x7) >> 0x7) & 1`: bit `7 - x mod 8` of the byte. -/
theorem bit_select (c x : Nat) :
    ((c <<< (x % 8)) >>> 7) % 2 = (c / 2 ^ (7 - x % 8)) % 2 := by
  rw [Nat.shiftLeft_eq, Nat.shiftRight_eq_div_pow]
  have hlt : x % 8 < 8 := Nat.mod_lt _ (by omega)
  have hpow : (2 : Nat) ^ 7 = 2 ^ (7 - x % 8) * 2 ^ (x % 8) := by
    rw [← Nat.pow_add]
    congr 1
    omega
  rw [hpow, Nat.mul_div_mul_right _ _ (Nat.two_pow_pos _)]

/-- One component of a binary bitmap: the bit is selected in the byte under the cursor,
which moves to the next byte when `x mod 8 = 7`. -/
theorem read_components_bitmap (fuel x c : Nat) (q tmp s res : List Nat) :
    read_components fuel false 0 x 1 ⟨c :: q, tmp, s, res⟩ []
      = Exec.ok (some [if (c / 2 ^ (7 - x % 8)) % 2 = 0 then 1 else 0],
          ⟨if x % 8 = 7 then q else c :: q, tmp, s, res⟩) := by
  have h7 : x &&& 7 = x % 8 := Nat.and_pow_two_sub_one_eq_mod x 3
  simp [read_components, read_binary, h7, bit_select]


theorem pixel_index (w x y : Nat) (hx : x < w) : (y * w + x) % w = x ∧ (y * w + x) / w = y := by
  have hw : 0 < w := by omega
  constructor
  · rw [Nat.mul_comm, Nat.mul_add_mod, Nat.mod_eq_of_lt hx]
  · rw [Nat.mul_comm, Nat.mul_add_div hw, Nat.div_eq_of_lt hx, Nat.add_zero]

/-- One row of a binary bitmap: from pixel `x` of row `y` on, with the input cursor on the
byte `y * (w / 8) + x / 8` of the data, the pixels of the row receive the values of the
specification, the rest of the raster is unchanged and the cursor ends on the byte
`y * (w / 8) + w / 8`. -/
theorem loop_x_bitmap_row (fuel : Nat) (h : Header) (w y : Nat) (d : List Nat)
    (ha : h.ascii = false) (hm : h.maps = 0) (hw : h.width = (w : Int))
    (hb : (y * w + w) * 3 < 2147483648) :
    ∀ (k x : Nat) (Z tmp s : List Nat), x + k = w →
      loop_x fuel h y k x ⟨d.drop (y * (w / 8) + x / 8), tmp, s,
          spec_bitmap w d (y * w + x) ++ (List.replicate (3 * k) 0 ++ Z)⟩
        = Exec.ok ⟨d.drop (y * (w / 8) + w / 8), tmp, s, spec_bitmap w d (y * w + w) ++ Z⟩ := by
  intro k
  induction k with
  | zero =>
    intro x Z tmp s hx
    have : x = w := by omega
    subst this
    rw [loop_x_zero]
    simp
  | succ k ih =>
    intro x Z tmp s hx
    have hxw : x < w := by omega
    obtain ⟨hmod, hdiv⟩ := pixel_index w x y hxw
    have hle8 : x / 8 ≤ w / 8 := Nat.div_le_div_right (le_of_lt hxw)
    by_cases hend : d.length ≤ y * (w / 8) + x / 8
    · -- the data is exhausted: the row is left
      have hnil : d.drop (y * (w / 8) + x / 8) = [] := List.drop_eq_nil_of_le hend
      have hnil2 : d.drop (y * (w / 8) + w / 8) = [] := List.drop_eq_nil_of_le (by omega)
      have hread : read_components fuel false 0 x 1 ⟨[], tmp, s,
          spec_bitmap w d (y * w + x) ++ (List.replicate (3 * (k + 1)) 0 ++ Z)⟩ []
          = Exec.ok (none, ⟨[], tmp, s,
              spec_bitmap w d (y * w + x) ++ (List.replicate (3 * (k + 1)) 0 ++ Z)⟩) := by
        simp [read_components, read_binary]
      have hext := spec_bitmap_extend w d (y * w + x) (k + 1) (by
        intro j hj1 hj2
        obtain ⟨hm1, hd1⟩ := pixel_index w (j - y * w) y (by omega)
        have hj : j = y * w + (j - y * w) := by omega
        rw [hj, hm1, hd1]
        unfold spec_bit_sample
        have hx8 : x / 8 ≤ (j - y * w) / 8 := Nat.div_le_div_right (by omega)
        rw [List.getElem?_eq_none (by omega)])
      have hsum : y * w + x + (k + 1) = y * w + w := by omega
      rw [hsum] at hext
      rw [loop_x_succ, ha, hm, hnil, hnil2]
      simp only [show ((0 : Nat) = 2) = False by simp, if_false, hread, hext,
        List.append_assoc]
    · -- a byte is under the cursor
      have hlt : y * (w / 8) + x / 8 < d.length := by omega
      have hcons := List.drop_eq_getElem_cons hlt
      have hget : d[y * (w / 8) + x / 8]? = some d[y * (w / 8) + x / 8] :=
        List.getElem?_eq_getElem hlt
      generalize d[y * (w / 8) + x / 8] = c at hcons hget
      have hspec : spec_bit_sample w d x y = if (c / 2 ^ (7 - x % 8)) % 2 = 0 then 255 else 0 := by
        unfold spec_bit_sample
        rw [hget]
      have hnext : (if x % 8 = 7 then d.drop (y * (w / 8) + x / 8 + 1)
          else c :: d.drop (y * (w / 8) + x / 8 + 1)) = d.drop (y * (w / 8) + (x + 1) / 8) := by
        by_cases h7 : x % 8 = 7
        · rw [if_pos h7]
          congr 1
          omega
        · rw [if_neg h7, ← hcons]
          congr 1
          omega
      have hoff : pixel_offset h.width x y
          = ((spec_bitmap w d (y * w + x)).length : Int) := by
        rw [hw, pixel_offset_eq w x y (by omega), spec_bitmap_length]
        congr 1
        ring
      have hsamp : to_samples 0 h.deps [if (c / 2 ^ (7 - x % 8)) % 2 = 0 then 1 else 0]
          = (((spec_bit_sample w d x y : Nat) : Int), ((spec_bit_sample w d x y : Nat) : Int),
              ((spec_bit_sample w d x y : Nat) : Int)) := by
        rw [hspec]
        by_cases hbit : (c / 2 ^ (7 - x % 8)) % 2 = 0 <;> simp [to_samples, hbit]
      have huc : uchar_of_int ((spec_bit_sample w d x y : Nat) : Int) = spec_bit_sample w d x y := by
        rw [hspec]
        by_cases hbit : (c / 2 ^ (7 - x % 8)) % 2 = 0 <;> simp [hbit, uchar_of_int]
      have hrep : List.replicate (3 * (k + 1)) 0 = (0 : Nat) :: 0 :: 0 :: List.replicate (3 * k) 0 := by
        have : 3 * (k + 1) = 3 * k + 1 + 1 + 1 := by ring
        rw [this]
        rfl
      have hstep : spec_bitmap w d (y * w + x) ++ spec_bit_sample w d x y ::
          spec_bit_sample w d x y :: spec_bit_sample w d x y :: (List.replicate (3 * k) 0 ++ Z)
          = spec_bitmap w d (y * w + (x + 1)) ++ (List.replicate (3 * k) 0 ++ Z) := by
        rw [← Nat.add_assoc, spec_bitmap, hmod, hdiv]
        simp [List.replicate]
      have hih := ih (x + 1) Z tmp s (by omega)
      rw [loop_x_succ, ha, hm, hcons]
      simp only [show ((0 : Nat) = 2) = False by simp, if_false, read_components_bitmap]
      rw [hoff, hrep, List.cons_append, List.cons_append, List.cons_append, store_pixel_at,
        hsamp]
      simp only [huc, hstep, hnext]
      exact hih


/-- The rows of a binary bitmap from row `y` on: every pixel receives the value of the
specification and the rest of the raster is unchanged. -/
theorem loop_y_bitmap (fuel : Nat) (h : Header) (w ht : Nat) (d : List Nat)
    (ha : h.ascii = false) (hm : h.maps = 0) (hw : h.width = (w : Int))
    (hb : ht * w * 3 < 2147483648) (Z : List Nat) :
    ∀ (k y : Nat) (tmp s : List Nat), y + k = ht →
      loop_y fuel h k y ⟨d.drop (y * (w / 8)), tmp, s,
          spec_bitmap w d (y * w) ++ (List.replicate (3 * (w * k)) 0 ++ Z)⟩
        = Exec.ok ⟨d.drop (ht * (w / 8)), tmp, s, spec_bitmap w d (ht * w) ++ Z⟩ := by
  intro k
  induction k with
  | zero =>
    intro y tmp s hy
    have : y = ht := by omega
    subst this
    simp [loop_y]
  | succ k ih =>
    intro y tmp s hy
    have hwn : h.width.toNat = w := by rw [hw]; simp
    have hrow_b : (y * w + w) * 3 < 2147483648 := by
      have : (y + 1) * w ≤ ht * w := Nat.mul_le_mul_right _ (by omega)
      rw [Nat.succ_mul] at this
      omega
    have hrep : List.replicate (3 * (w * (k + 1))) 0 ++ Z
        = List.replicate (3 * w) (0 : Nat) ++ (List.replicate (3 * (w * k)) 0 ++ Z) := by
      rw [← List.append_assoc, ← List.replicate_add]
      congr 2
      ring
    have hrow := loop_x_bitmap_row fuel h w y d ha hm hw hrow_b w 0
      (List.replicate (3 * (w * k)) 0 ++ Z) tmp s (by omega)
    simp only [Nat.zero_div, Nat.add_zero] at hrow
    have hih := ih (y + 1) tmp s (by omega)
    rw [Nat.succ_mul, Nat.succ_mul] at hih
    rw [loop_y, hwn, hrep, hrow]
    exact hih

/-- For a binary bitmap whose dimensions are such that `width * height * 3 + 1` is in the
range of `int`, with any data bytes, `load_pnm` returns `SIXEL_OK` and the raster holds,
for every pixel, the value of the specification, followed by one byte 0. -/
theorem load_pnm_bitmap_binary (fuel : Nat) (stack : Nat → Nat) (malloc : Nat → Bool)
    (width height : Nat) (data : List Nat) (hw : 1 ≤ width) (hh : 1 ≤ height)
    (hrange : width * height * 3 + 1 < 2147483648)
    (halloc : malloc (width * height * 3 + 1) = true) :
    load_pnm fuel stack malloc (pbm_file 52 width height data)
      = Exec.ok ⟨SIXEL_OK, none, some (spec_bitmap width data (height * width) ++ [0]),
          some (width : Int), some (height : Int), some SIXEL_PIXELFORMAT_RGB888,
          some (width * height * 3 + 1)⟩ := by
  have hw2 : width < 2147483648 := by
    have : width * 1 ≤ width * height := Nat.mul_le_mul_left _ hh
    omega
  have hh2 : height < 2147483648 := by
    have : 1 * height ≤ width * height := Nat.mul_le_mul_right _ hw
    omega
  obtain ⟨h0, h1, stale, _, hparse⟩ := parse_header_pbm_file stack 52 width height data
    false (by decide) hw hw2 hh hh2
  have hsize := raster_size_eq width height hrange
  rw [load_pnm_of_magic fuel stack _ _ 52 false 0 (by decide) h0 h1, hparse]
  simp only []
  rw [decode_accepted fuel _ false 0 width height 1 data _ _ (by omega) (by omega)
      (by omega) (by rw [hsize]; exact halloc), hsize]
  have hcomm : height * width = width * height := Nat.mul_comm _ _
  have hloop := loop_y_bitmap fuel ⟨false, 0, width, height, 1, data,
      (decimal width ++ 32 :: decimal height) ++ 0 :: stale, 0 :: stale⟩ width
    height data rfl rfl rfl (by rw [hcomm]; omega) [0] height 0
    ((decimal width ++ 32 :: decimal height) ++ 0 :: stale) (0 :: stale) (by omega)
  have hrep : List.replicate (width * height * 3 + 1) 0
      = List.replicate (3 * (width * height)) 0 ++ [0] := by
    have e : width * height * 3 = 3 * (width * height) := by ring
    rw [List.replicate_succ', e]
  rw [Nat.zero_mul, Nat.zero_mul, List.drop_zero] at hloop
  rw [show spec_bitmap width data 0 = [] from rfl, List.nil_append] at hloop
  rw [Int.toNat_ofNat, hrep, hloop]



/-- When the width is a multiple of 8, pixel number `k = y * width + x` of a binary
bitmap comes from bit `7 - k mod 8` of the byte `d[k / 8]`. -/
theorem spec_bit_sample_aligned (w : Nat) (d : List Nat) (x y : Nat) (h8 : w % 8 = 0) :
    spec_bit_sample w d x y
      = match d[(y * w + x) / 8]? with
        | none => 0
        | some b => if (b / 2 ^ (7 - (y * w + x) % 8)) % 2 = 0 then 255 else 0 := by
  obtain ⟨f, rfl⟩ : ∃ f, w = 8 * f := ⟨w / 8, by omega⟩
  have e1 : (y * (8 * f) + x) / 8 = y * (8 * f / 8) + x / 8 := by
    rw [Nat.mul_div_cancel_left f (by omega : 0 < 8)]
    have : y * (8 * f) + x = x + 8 * (y * f) := by ring
    rw [this, Nat.add_mul_div_left _ _ (by omega : 0 < 8)]
    omega
  have e2 : (y * (8 * f) + x) % 8 = x % 8 := by
    have : y * (8 * f) + x = x + 8 * (y * f) := by ring
    rw [this, Nat.add_mul_mod_self_left]
  rw [e1, e2]
  rfl

/-- For a binary bitmap whose dimensions are such that `width * height * 3 + 1` is in the
range of `int`, every sample of every pixel `(x, y)` of the raster returned is the value
of the specification. -/
theorem load_pnm_bitmap_pixel (fuel : Nat) (stack : Nat → Nat) (malloc : Nat → Bool)
    (width height : Nat) (data : List Nat) (hw : 1 ≤ width) (hh : 1 ≤ height)
    (hrange : width * height * 3 + 1 < 2147483648)
    (halloc : malloc (width * height * 3 + 1) = true) :
    ∃ R, load_pnm fuel stack malloc (pbm_file 52 width height data)
        = Exec.ok ⟨SIXEL_OK, none, some R, some (width : Int), some (height : Int),
            some SIXEL_PIXELFORMAT_RGB888, some (width * height * 3 + 1)⟩ ∧
      R.length = width * height * 3 + 1 ∧
      ∀ x y j, x < width → y < height → j < 3 →
        R[(y * width + x) * 3 + j]? = some (spec_bit_sample width data x y) := by
  refine ⟨_, load_pnm_bitmap_binary fuel stack malloc width height data hw hh hrange halloc,
    ?_, ?_⟩
  · rw [List.length_append, spec_bitmap_length]
    simp only [List.length_cons, List.length_nil]
    ring
  · intro x y j hx hy hj
    obtain ⟨hmod, hdiv⟩ := pixel_index width x y hx
    have hlt : y * width + x < height * width := by
      have : (y + 1) * width ≤ height * width := Nat.mul_le_mul_right _ (by omega)
      rw [Nat.succ_mul] at this
      omega
    have hg := spec_bitmap_get width data (height * width) (y * width + x) j hlt hj
    rw [hmod, hdiv] at hg
    rw [Nat.mul_comm (y * width + x) 3,
      List.getElem?_append_left (by rw [spec_bitmap_length]; omega)]
    exact hg

/-! ## C13: the binary bitmap -/

/-- C13 (failing input). On the input "P4\n65536 65536\n" followed by one data byte 0 the
header is accepted, but the raster allocated for it (size `width * height * 3 + 1` in
`int` arithmetic) holds one byte: pixel (0,0), read from bit 7 of `d[0]`, does not become
(255,255,255) in the raster, its second sample is stored outside of it and the run is a
fault.  This holds for every fuel and every initial content of `tmp`. -/
theorem load_pnm_bitmap_overflow (fuel : Nat) (stack : Nat → Nat) :
    load_pnm fuel stack (fun _ => true)
        [80, 52, 10, 54, 53, 53, 51, 54, 32, 54, 53, 53, 51, 54, 10, 0]
      = Exec.fault := by
  have hfile : [80, 52, 10, 54, 53, 53, 51, 54, 32, 54, 53, 53, 51, 54, 10, 0]
      = pbm_file 52 65536 65536 [0] := by
    simp [pbm_file, decimal_65536]
  obtain ⟨h0, h1, stale, _, hparse⟩ := parse_header_pbm_file stack 52 65536 65536 [0] false
    (by decide) (by omega) (by omega) (by omega) (by omega)
  rw [hfile, load_pnm_of_magic fuel stack _ _ 52 false 0 (by decide) h0 h1, hparse]
  simp only [Nat.cast_ofNat]
  generalize (decimal 65536 ++ 32 :: decimal 65536) ++ 0 :: stale = tmp
  generalize 0 :: stale = s
  rw [decode_accepted fuel _ false 0 65536 65536 1 [0] tmp s (by omega) (by omega)
    (by omega) rfl]
  obtain ⟨k, hk⟩ : ∃ k, (65536 : Int).toNat = k + 1 := ⟨65535, rfl⟩
  rw [hk, raster_size_65536, loop_y_first_row_fault]
  show loop_x fuel ⟨false, 0, 65536, 65536, 1, [0], tmp, s⟩ 0 (65536 : Int).toNat 0
    ⟨[0], tmp, s, [0]⟩ = Exec.fault
  rw [hk]
  exact loop_x_store_fault fuel _ 0 k 0 _ ⟨[0], tmp, s, [0]⟩ [1]
    (by simp [read_components, read_binary])
    (by
      show store_pixel [0] (pixel_offset 65536 0 0) (to_samples 0 1 [1]) = Exec.fault
      decide)



/-! ## C14: the scaling of samples -/

/-- The expression `c * 255 / deps` when `c * 255` is in the range of `int`. -/
theorem scale_eq (c D : Int) (h0 : 0 ≤ c) (hr : c * 255 ≤ 2147483647) (hD : 1 ≤ D) :
    scale c D = c * 255 / D := by
  unfold scale
  have h1 : wrap32 (c * 255) = c * 255 := wrap32_eq _ (by omega) (by omega)
  have h2 : (c * 255).tdiv D = c * 255 / D := Int.tdiv_eq_ediv (by omega) (by omega)
  have h3 : 0 ≤ c * 255 / D := Int.ediv_nonneg (by omega) (by omega)
  have h4 : c * 255 / D ≤ c * 255 := Int.ediv_le_self _ (by omega)
  rw [h1, h2, wrap32_eq _ (by omega) (by omega)]

theorem scale_le (c D : Int) (hc : c ≤ D) (hD : 1 ≤ D) : c * 255 / D ≤ 255 := by
  have h1 : c * 255 ≤ 255 * D := by nlinarith
  have h2 : c * 255 / D ≤ 255 * D / D := Int.ediv_le_ediv (by omega) h1
  rwa [Int.mul_ediv_cancel _ (by omega : D ≠ 0)] at h2

/-- C14. Sample scaling, for a depth `D >= 1` and a component `c` with `0 <= c <= D` and
`c * 255` in the range of `int`: the byte stored is `floor(c * 255 / D)`; it lies in
0..255, is 0 for `c = 0`, is 255 for `c = D`, and is monotone in `c`.  A graymap stores that
byte in the three channels of the pixel; a pixmap stores for each of its three components
the byte scaled from that component alone. -/
theorem sample_scaling (D c : Int) (hD : 1 ≤ D) (h0 : 0 ≤ c) (hc : c ≤ D)
    (hr : c * 255 ≤ 2147483647) :
    (uchar_of_int (scale c D) : Int) = c * 255 / D ∧
    uchar_of_int (scale c D) ≤ 255 ∧
    uchar_of_int (scale 0 D) = 0 ∧
    (c = D → uchar_of_int (scale c D) = 255) ∧
    (∀ c1, 0 ≤ c1 → c1 ≤ c → uchar_of_int (scale c1 D) ≤ uchar_of_int (scale c D)) ∧
    (∀ A C b0 b1 b2, store_pixel (A ++ b0 :: b1 :: b2 :: C) (A.length : Int)
        (to_samples 1 D [c])
      = Exec.ok (A ++ uchar_of_int (scale c D) :: uchar_of_int (scale c D) ::
          uchar_of_int (scale c D) :: C)) ∧
    (∀ A C b0 b1 b2 c1 c2, store_pixel (A ++ b0 :: b1 :: b2 :: C) (A.length : Int)
        (to_samples 2 D [c, c1, c2])
      = Exec.ok (A ++ uchar_of_int (scale c D) :: uchar_of_int (scale c1 D) ::
          uchar_of_int (scale c2 D) :: C)) := by
  have hs := scale_eq c D h0 hr hD
  have hle := scale_le c D hc hD
  have hnn : 0 ≤ c * 255 / D := Int.ediv_nonneg (by omega) (by omega)
  have hu : (uchar_of_int (scale c D) : Int) = c * 255 / D := by
    rw [hs]
    unfold uchar_of_int
    omega
  refine ⟨hu, by omega, ?_, ?_, ?_, ?_, ?_⟩
  · rw [scale_eq 0 D (le_refl _) (by omega) hD]
    simp [uchar_of_int]
  · intro hcd
    have : c * 255 / D = 255 := by
      rw [hcd, Int.mul_comm, Int.mul_ediv_cancel _ (by omega : D ≠ 0)]
    omega
  · intro c1 h10 h1c
    have hs1 := scale_eq c1 D h10 (by omega) hD
    have hle1 := scale_le c1 D (by omega) hD
    have hnn1 : 0 ≤ c1 * 255 / D := Int.ediv_nonneg (by omega) (by omega)
    have hmono : c1 * 255 / D ≤ c * 255 / D := Int.ediv_le_ediv (by omega) (by omega)
    have hu1 : (uchar_of_int (scale c1 D) : Int) = c1 * 255 / D := by
      rw [hs1]
      unfold uchar_of_int
      omega
    omega
  · intro A C b0 b1 b2
    rw [store_pixel_at]
    simp [to_samples]
  · intro A C b0 b1 b2 c1 c2
    rw [store_pixel_at]
    simp [to_samples]

/-- Witness of C14: depth 15 and component 7, stored as `floor(7 * 255 / 15) = 119`. -/
theorem sample_scaling_witness :
    (uchar_of_int (scale 7 15) : Int) = 7 * 255 / 15 ∧ uchar_of_int (scale 7 15) ≤ 255 :=
  ⟨(sample_scaling 15 7 (by decide) (by decide) (by decide) (by decide)).1,
   (sample_scaling 15 7 (by decide) (by decide) (by decide) (by decide)).2.1⟩



/-! ## C15: the line reader -/

/-- C15. The function `pnm_get_line` against the wording of the specification, for every
cursor `p` and every line buffer of at least 256 bytes.  The loop ends: every fuel above
the number of bytes left gives the result of `pnm_get_line`.  The cursor returned is the
one after the last run taken (a maximal run of bytes of at least 0x20, not beginning with
`'#'`, with one following newline consumed); it is a suffix of the input, past the whole
run.  The buffer has kept its length and holds the first min(255, L) bytes of that run,
none of them NUL, followed by a NUL. -/
theorem pnm_get_line_spec (p buf : List Nat) (hb : 256 ≤ buf.length) :
    (∀ k, p.length < k → get_line_loop k p buf = pnm_get_line p buf) ∧
    (pnm_get_line p buf).1 = (spec_get_line p).2 ∧
    (pnm_get_line p buf).2.take (min 255 (spec_get_line p).1.length + 1)
      = (spec_get_line p).1.take 255 ++ [0] ∧
    (∀ c ∈ (spec_get_line p).1, 32 ≤ c) ∧
    (spec_get_line p).1.head? ≠ some 35 ∧
    (pnm_get_line p buf).2.length = buf.length ∧
    ∃ pre nl, p = pre ++ (spec_get_line p).1 ++ nl ++ (pnm_get_line p buf).1 ∧
      (nl = [] ∨ nl = [10]) ∧
      (nl = [] → ∀ c, (pnm_get_line p buf).1.head? = some c → c < 32) := by
  obtain ⟨stale, hloop⟩ := get_line_loop_spec (p.length + 1) p buf (Nat.lt_succ_self _) hb
  obtain ⟨h1, h2, pre, nl, h3, h4, h5⟩ := spec_runs_run (p.length + 1) p (Nat.lt_succ_self _)
  have hcur : (pnm_get_line p buf).1 = (spec_get_line p).2 := by
    unfold pnm_get_line spec_get_line
    rw [hloop]
  refine ⟨fun k hk => get_line_loop_fuel k (p.length + 1) p buf hk (Nat.lt_succ_self _),
    hcur, ?_, h1, h2, pnm_get_line_length p buf, pre, nl, ?_, h4, ?_⟩
  · unfold pnm_get_line spec_get_line
    rw [hloop]
    have hlen : (List.take 255 (spec_runs (p.length + 1) p).1).length
        = min 255 (spec_runs (p.length + 1) p).1.length := by simp
    rw [List.take_append_eq_append_take, hlen]
    simp [List.take_of_length_le, hlen]
  · rw [hcur]; exact h3
  · rw [hcur]; exact h5

/-- Witness of C15: a comment line, the line "ab" and the byte 'c' with no newline after
it, read into a buffer of 256 bytes of value 7: the line returned is "ab" and the cursor is
on 'c'. -/
theorem pnm_get_line_spec_witness :
    (pnm_get_line [35, 120, 10, 97, 98, 10, 99] (List.replicate 256 7)).1 = [99] ∧
    (pnm_get_line [35, 120, 10, 97, 98, 10, 99] (List.replicate 256 7)).2.take 3
      = [97, 98, 0] :=
  ⟨(pnm_get_line_spec [35, 120, 10, 97, 98, 10, 99] (List.replicate 256 7)
      (le_of_eq (List.length_replicate 256 7).symm)).2.1.trans (by decide),
   (pnm_get_line_spec [35, 120, 10, 97, 98, 10, 99] (List.replicate 256 7)
      (le_of_eq (List.length_replicate 256 7).symm)).2.2.1.trans (by decide)⟩



/-! ## C16: comment lines in the pixel data -/

/-- C16 (amended). In the ASCII pixel loop the token buffer is refilled by `pnm_get_line`,
with the comment semantics of the header.  When the token cursor is on a terminator and
the input continues with a line that begins with `'#'` (at most 255 bytes of at least
0x20), a newline, and a non-empty line that does not begin with `'#'` (at most 255 bytes,
ended by a newline), then for every fuel of at least 2: the refill loop discards the first
line and leaves the token cursor on the first byte of the second; the next component, of
any variant, is the one read from the second line; for a bitmap it is decoded from the
first byte of the second line.  The token buffer then holds the second line, a NUL, and
behind it what the discarded line and the earlier lines left there. -/
theorem refill_discards_comment (n : Nat) (cm run rest tmp s res : List Nat) (c : Nat)
    (q : List Nat) (hcm : ∀ b ∈ cm, 32 ≤ b) (hcmfit : cm.length ≤ 255)
    (hcmhead : cm.head? = some 35) (hq : run = c :: q) (hrun : ∀ b ∈ run, 32 ≤ b)
    (hfit : run.length ≤ 255) (hc : c ≠ 35) (h256 : tmp.length = 256) :
    refill (n + 2) ⟨cm ++ 10 :: (run ++ 10 :: rest), tmp, 0 :: s, res⟩
      = Exec.ok ⟨rest,
          run ++ 0 :: (cm ++ 0 :: tmp.drop (cm.length + 1)).drop (run.length + 1),
          run ++ 0 :: (cm ++ 0 :: tmp.drop (cm.length + 1)).drop (run.length + 1), res⟩ ∧
    (∀ maps, read_ascii (n + 2) maps ⟨cm ++ 10 :: (run ++ 10 :: rest), tmp, 0 :: s, res⟩
      = read_ascii (n + 1) maps ⟨rest,
          run ++ 0 :: (cm ++ 0 :: tmp.drop (cm.length + 1)).drop (run.length + 1),
          run ++ 0 :: (cm ++ 0 :: tmp.drop (cm.length + 1)).drop (run.length + 1), res⟩) ∧
    read_ascii (n + 2) 0 ⟨cm ++ 10 :: (run ++ 10 :: rest), tmp, 0 :: s, res⟩
      = Exec.ok (if c = 48 then 1 else 0, ⟨rest,
          run ++ 0 :: (cm ++ 0 :: tmp.drop (cm.length + 1)).drop (run.length + 1),
          q ++ 0 :: (cm ++ 0 :: tmp.drop (cm.length + 1)).drop (run.length + 1), res⟩) := by
  have hlen : (cm ++ 0 :: tmp.drop (cm.length + 1)).length = 256 := by
    simp only [List.length_append, List.length_cons, List.length_drop]
    omega
  have hl : pnm_get_line (cm ++ 10 :: (run ++ 10 :: rest)) tmp
      = (rest, run ++ 0 :: (cm ++ 0 :: tmp.drop (cm.length + 1)).drop (run.length + 1)) := by
    rw [pnm_get_line_comment cm _ tmp hcm hcmfit hcmhead h256,
      pnm_get_line_run run rest _ hrun hfit (by rw [hq]; simpa using hc) hlen]
  have hne : cm ++ 10 :: (run ++ 10 :: rest) ≠ [] := by simp
  have hc0 : c ≠ 0 := by
    have := hrun c (by rw [hq]; simp)
    omega
  generalize (cm ++ 0 :: tmp.drop (cm.length + 1)).drop (run.length + 1) = stale at hl ⊢
  have hready : ∀ k, refill (k + 1) ⟨rest, run ++ 0 :: stale, run ++ 0 :: stale, res⟩
      = Exec.ok ⟨rest, run ++ 0 :: stale, run ++ 0 :: stale, res⟩ :=
    fun k => refill_ready k _ c (q ++ 0 :: stale) (by rw [hq]; rfl) hc0
  have hrefill : refill (n + 2) ⟨cm ++ 10 :: (run ++ 10 :: rest), tmp, 0 :: s, res⟩
      = Exec.ok ⟨rest, run ++ 0 :: stale, run ++ 0 :: stale, res⟩ := by
    rw [refill]
    simp only [if_true, hne, if_false, hl]
    exact hready n
  refine ⟨hrefill, ?_, ?_⟩
  · intro maps
    simp only [read_ascii, hrefill, hready n]
  · simp only [read_ascii, hrefill, Exec.ok_bind, if_true]
    rw [hq]
    rfl

/-- Witness of C16 (amended): the comment line "#1" followed by the line "0", read into a
token buffer of 256 zero bytes. -/
theorem refill_discards_comment_witness :
    refill 2 ⟨[35, 49] ++ 10 :: ([48] ++ 10 :: []), List.replicate 256 0, 0 :: [], []⟩
      = Exec.ok ⟨[],
          [48] ++ 0 :: ([35, 49] ++ 0 :: (List.replicate 256 0).drop ([35, 49].length + 1)).drop
            ([48].length + 1),
          [48] ++ 0 :: ([35, 49] ++ 0 :: (List.replicate 256 0).drop ([35, 49].length + 1)).drop
            ([48].length + 1), []⟩ :=
  (refill_discards_comment 0 [35, 49] [48] [] (List.replicate 256 0) [] [] 48 [] (by decide)
    (by decide) rfl rfl (by decide) (by decide) (by decide) (List.length_replicate 256 0)).1

/-- C16 (counterexample). A pixel-data line that begins with `'#'` is not tokenized like
any other line.  The refill loop does not hand out the line "#1" as it does a line with
another first byte; and on the input "P1\n1 1\n#1\n0\n" the pixel is (255,255,255), decoded
from the `'0'` of the line after it, as on the input "P1\n1 1\n0\n" without that line: the
characters `'#'` and `'1'`, which are not `'0'`, would both have given (0,0,0). -/
theorem load_pnm_comment_in_data :
    refill 2 ⟨[35, 49] ++ 10 :: [48, 10], List.replicate 256 0, [0], []⟩
      ≠ Exec.ok ⟨[48, 10], [35, 49] ++ 0 :: (List.replicate 256 0).drop 3,
          [35, 49] ++ 0 :: (List.replicate 256 0).drop 3, []⟩ ∧
    load_pnm 2 (fun _ => 0) (fun _ => true) [80, 49, 10, 49, 32, 49, 10, 35, 49, 10, 48, 10]
      = Exec.ok ⟨SIXEL_OK, none, some [255, 255, 255, 0], some 1, some 1,
          some SIXEL_PIXELFORMAT_RGB888, some 4⟩ ∧
    load_pnm 2 (fun _ => 0) (fun _ => true) [80, 49, 10, 49, 32, 49, 10, 48, 10]
      = Exec.ok ⟨SIXEL_OK, none, some [255, 255, 255, 0], some 1, some 1,
          some SIXEL_PIXELFORMAT_RGB888, some 4⟩ := by
  refine ⟨?_, by decide, by decide⟩
  decide

/-- The bytes of a discarded line stay in `tmp`: on the input "P1\n4 1\n#000\n1\n" the
first pixel is decoded from the `'1'` of the last line, the second on its terminator, and
the two others from the characters `'0'` that the line "#000" left behind it. -/
theorem load_pnm_comment_left_in_tmp :
    load_pnm 2 (fun _ => 0) (fun _ => true)
        [80, 49, 10, 52, 32, 49, 10, 35, 48, 48, 48, 10, 49, 10]
      = Exec.ok ⟨SIXEL_OK, none, some [0, 0, 0, 0, 0, 0, 255, 255, 255, 255, 255, 255, 0],
          some 4, some 1, some SIXEL_PIXELFORMAT_RGB888, some 13⟩ := by
  decide


/-! ## C17: the capacity of the chunk in the read loop -/

theorem realloc_length (grant : Nat → Bool) (junk : Nat → Nat) (block : List Nat) (n : Nat)
    (buf : List Nat) (h : realloc grant junk block n = some buf) (hn : block.length ≤ n) :
    grant n = true ∧ buf.length = n := by
  unfold realloc at h
  by_cases hg : grant n = true
  · rw [if_pos hg] at h
    cases h
    refine ⟨hg, ?_⟩
    simp
    omega
  · rw [if_neg hg] at h
    cases h

/-- A read of at most the spare capacity is inside the buffer and keeps its length. -/
theorem from_file_read_ok (block buf : List Nat) (size cap : Nat)
    (hfit : size + block.length ≤ buf.length) :
    ∃ buf1, buf1.length = buf.length ∧
      from_file_read block buf size cap
        = if block.length = 0 then Exec.ok (some SIXEL_OK, ⟨some buf1, size, cap⟩)
          else Exec.ok (none, ⟨some buf1, size_t (size + block.length), cap⟩) := by
  refine ⟨buf.take size ++ block.take block.length ++ buf.drop (size + block.length), ?_, ?_⟩
  · simp only [List.length_append, List.length_take, List.length_drop]
    omega
  · unfold from_file_read memcpy
    rw [if_pos ⟨hfit, le_refl _⟩]

/-- The invariant of the read loop: the size is at most the capacity, the capacity is at
least the initial one and below `2 ^ 63`, and the buffer has the capacity as its length. -/
theorem from_file_invariant (malloc grant : Nat → Bool) (junk : Nat → Nat)
    (hlimit : ∀ k, grant k = true → k < 9223372036854775808) (c : Chunk)
    (hreach : from_file_reachable malloc grant junk c) :
    c.size ≤ c.max_size ∧ 32768 ≤ c.max_size ∧ c.max_size < 9223372036854775808 ∧
      ∃ buf, c.buffer = some buf ∧ buf.length = c.max_size := by
  induction hreach with
  | init c hinit =>
    unfold sixel_chunk_init at hinit
    by_cases hm : malloc (1024 * 32) = true
    · rw [if_pos hm] at hinit
      cases hinit
      exact ⟨by simp, by simp, by simp, _, rfl, by simp⟩
    · rw [if_neg hm] at hinit
      have := congrArg Prod.fst hinit
      simp [SIXEL_BAD_ALLOCATION, SIXEL_RUNTIME_ERROR, SIXEL_FALSE, SIXEL_OK] at this
  | step c c1 block _ hblock hstep ih =>
    obtain ⟨h1, h2, h3, buf, hbuf, hlen⟩ := ih
    obtain ⟨b, sz, mx⟩ := c
    simp only [] at h1 h2 h3 hbuf hlen
    subst hbuf
    have hsub : size_t (mx + 18446744073709551616 - sz) = mx - sz := by
      unfold size_t
      omega
    have hdbl : size_t (mx * 2) = mx * 2 := by
      unfold size_t
      omega
    unfold from_file_iteration at hstep
    simp only [hsub, hdbl, Option.getD_some] at hstep
    by_cases hg : mx - sz < 4096
    · rw [if_pos hg] at hstep
      cases hre : realloc grant junk buf (mx * 2) with
      | none => rw [hre] at hstep; simp at hstep
      | some buf2 =>
        rw [hre] at hstep
        obtain ⟨hgr, hl2⟩ := realloc_length grant junk buf (mx * 2) buf2 hre (by omega)
        have hlim := hlimit _ hgr
        obtain ⟨buf1, hl1, hrd⟩ := from_file_read_ok block buf2 sz (mx * 2) (by omega)
        simp only [hrd] at hstep
        by_cases hz : block.length = 0
        · rw [if_pos hz] at hstep; simp at hstep
        · rw [if_neg hz] at hstep
          have hs : size_t (sz + block.length) = sz + block.length := by
            unfold size_t
            omega
          simp only [Exec.ok.injEq, Prod.mk.injEq, true_and] at hstep
          subst hstep
          exact ⟨by simp only [hs]; omega, by simp only []; omega, hlim, buf1, rfl,
            by rw [hl1, hl2]⟩
    · rw [if_neg hg] at hstep
      obtain ⟨buf1, hl1, hrd⟩ := from_file_read_ok block buf sz mx (by omega)
      simp only [hrd] at hstep
      by_cases hz : block.length = 0
      · rw [if_pos hz] at hstep; simp at hstep
      · rw [if_neg hz] at hstep
        have hs : size_t (sz + block.length) = sz + block.length := by
          unfold size_t
          omega
        simp only [Exec.ok.injEq, Prod.mk.injEq, true_and] at hstep
        subst hstep
        exact ⟨by simp only [hs]; omega, h2, h3, buf1, rfl, by rw [hl1, hlen]⟩

/-- A request that `realloc` grants gives a block of the size asked for, which begins with
the old block. -/
theorem realloc_of_grant (grant : Nat → Bool) (junk : Nat → Nat) (block : List Nat) (n : Nat)
    (hg : grant n = true) (hn : block.length ≤ n) :
    ∃ buf, realloc grant junk block n = some buf ∧ buf.length = n := by
  refine ⟨_, by unfold realloc; rw [if_pos hg], ?_⟩
  simp
  omega

/-- The read of a non-empty block inside the buffer: the loop goes on, the block lies at
the old size and the size has grown by its length. -/
theorem from_file_read_block (block buf : List Nat) (size cap : Nat)
    (hfit : size + block.length ≤ buf.length) (hne : 1 ≤ block.length) :
    ∃ buf1, from_file_read block buf size cap
        = Exec.ok (none, ⟨some buf1, size_t (size + block.length), cap⟩) ∧
      buf1.length = buf.length ∧ (buf1.drop size).take block.length = block := by
  refine ⟨buf.take size ++ block.take block.length ++ buf.drop (size + block.length), ?_, ?_,
    ?_⟩
  · unfold from_file_read memcpy
    rw [if_pos ⟨hfit, le_refl _⟩]
    simp only []
    rw [if_neg (by omega)]
  · simp only [List.length_append, List.length_take, List.length_drop]
    omega
  · have hl : (buf.take size).length = size := by
      rw [List.length_take]
      omega
    rw [List.take_length, List.append_assoc, List.drop_append_of_le_length (by omega),
      List.drop_of_length_le (by omega), List.nil_append, List.take_left']
    rfl

/-- The end of the stream: with no byte delivered the function returns `SIXEL_OK` and the
size is unchanged. -/
theorem from_file_read_end (buf : List Nat) (size cap : Nat) (hfit : size ≤ buf.length) :
    ∃ buf1, from_file_read [] buf size cap = Exec.ok (some SIXEL_OK, ⟨some buf1, size, cap⟩) := by
  refine ⟨buf.take size ++ ([] : List Nat).take 0 ++ buf.drop (size + 0), ?_⟩
  unfold from_file_read memcpy
  simp only [List.length_nil, Nat.add_zero]
  rw [if_pos ⟨hfit, le_refl _⟩]
  simp

/-- C17. Capacity invariant of the read loop of `sixel_chunk_from_file`, for every chunk at
the head of the loop (from the chunk of size 0 and capacity `1024 * 32` made by
`sixel_chunk_init`, each iteration reading between 1 and 4096 bytes), `realloc` granting no
block of `2 ^ 63` bytes or more.  `size <= max_size`.  The capacity after the growth test is
`max_size` doubled once if `max_size - size < 4096` and `max_size` otherwise; it leaves at
least 4096 spare bytes for the read and is not less than `max_size`.  The iteration is no
fault and ends with that capacity and with `size <= max_size`.  When `fread` delivers
between 1 and 4096 bytes (and `realloc`, if called, grants the doubled capacity), the
loop goes on with a chunk at the head of the loop again, whose size is the old size plus
the number of bytes read and whose buffer holds these bytes from the old size on; when it
delivers none, the function returns `SIXEL_OK` with the size unchanged; when `realloc`
refuses the doubled capacity, it returns `SIXEL_BAD_ALLOCATION`. -/
theorem from_file_capacity_invariant (malloc grant : Nat → Bool) (junk : Nat → Nat)
    (hlimit : ∀ k, grant k = true → k < 9223372036854775808) (c : Chunk)
    (hreach : from_file_reachable malloc grant junk c) :
    c.size ≤ c.max_size ∧
    c.size + 4096 ≤ from_file_capacity c ∧
    (from_file_capacity c = c.max_size ∨ from_file_capacity c = c.max_size * 2) ∧
    c.max_size ≤ from_file_capacity c ∧
    (∀ block : List Nat, block.length ≤ 4096 →
      ∃ st c1, from_file_iteration grant junk block c = Exec.ok (st, c1) ∧
        c1.max_size = from_file_capacity c ∧ c1.size ≤ c1.max_size ∧
        (st = none → 1 ≤ block.length ∧ c1.size = c.size + block.length)) ∧
    from_file_capacity c
      = (if c.max_size - c.size < 4096 then c.max_size * 2 else c.max_size) ∧
    (∀ block : List Nat, 1 ≤ block.length → block.length ≤ 4096 →
      (4096 ≤ c.max_size - c.size ∨ grant (c.max_size * 2) = true) →
      ∃ c1 b, from_file_iteration grant junk block c = Exec.ok (none, c1) ∧
        c1.size = c.size + block.length ∧ c1.max_size = from_file_capacity c ∧
        c1.buffer = some b ∧ b.length = c1.max_size ∧
        (b.drop c.size).take block.length = block ∧
        from_file_reachable malloc grant junk c1) ∧
    ((4096 ≤ c.max_size - c.size ∨ grant (c.max_size * 2) = true) →
      ∃ c1, from_file_iteration grant junk [] c = Exec.ok (some SIXEL_OK, c1) ∧
        c1.size = c.size ∧ c1.max_size = from_file_capacity c) ∧
    (c.max_size - c.size < 4096 → grant (c.max_size * 2) = false →
      ∀ block : List Nat, from_file_iteration grant junk block c
        = Exec.ok (some SIXEL_BAD_ALLOCATION, ⟨none, c.size, c.max_size * 2⟩)) := by
  obtain ⟨h1, h2, h3, buf, hbuf, hlen⟩ := from_file_invariant malloc grant junk hlimit c hreach
  have hstep := fun (block : List Nat) (hb : block.length ≤ 4096) (c1 : Chunk)
      (h : from_file_iteration grant junk block c = Exec.ok (none, c1)) =>
    from_file_reachable.step c c1 block hreach hb h
  clear hreach
  obtain ⟨b, sz, mx⟩ := c
  simp only [] at h1 h2 h3 hbuf hlen
  subst hbuf
  have hsub : size_t (mx + 18446744073709551616 - sz) = mx - sz := by
    unfold size_t
    omega
  have hdbl : size_t (mx * 2) = mx * 2 := by
    unfold size_t
    omega
  have hs : ∀ block : List Nat, block.length ≤ 4096 →
      size_t (sz + block.length) = sz + block.length := by
    intro block hb
    unfold size_t
    omega
  have hcap : from_file_capacity ⟨some buf, sz, mx⟩
      = (if mx - sz < 4096 then mx * 2 else mx) := by
    unfold from_file_capacity
    simp only [hsub, hdbl]
  unfold from_file_iteration at hstep ⊢
  simp only [hsub, hdbl, Option.getD_some] at hstep ⊢
  rw [hcap]
  simp only []
  by_cases hg : mx - sz < 4096
  · simp only [if_pos hg] at hstep ⊢
    refine ⟨h1, by omega, Or.inr trivial, by omega, ?_, trivial, ?_, ?_, ?_⟩
    · intro block hblock
      cases hre : realloc grant junk buf (mx * 2) with
      | none => exact ⟨_, _, rfl, rfl, by simp only []; omega, by intro h; cases h⟩
      | some buf2 =>
        obtain ⟨_, hl2⟩ := realloc_length grant junk buf (mx * 2) buf2 hre (by omega)
        obtain ⟨buf1, _, hrd⟩ := from_file_read_ok block buf2 sz (mx * 2) (by omega)
        simp only [hrd]
        by_cases hz : block.length = 0
        · rw [if_pos hz]
          exact ⟨_, _, rfl, rfl, by simp only []; omega, by intro h; cases h⟩
        · rw [if_neg hz]
          exact ⟨_, _, rfl, rfl, by simp only [hs block hblock]; omega,
            fun _ => ⟨by omega, hs block hblock⟩⟩
    · intro block hb1 hb2 hgr
      have hgrant : grant (mx * 2) = true := by
        rcases hgr with h | h
        · omega
        · exact h
      obtain ⟨buf2, hre, hl2⟩ := realloc_of_grant grant junk buf (mx * 2) hgrant (by omega)
      obtain ⟨buf1, hrd, hl1, hdata⟩ := from_file_read_block block buf2 sz (mx * 2)
        (by omega) hb1
      rw [hs block hb2] at hrd
      have hit := hstep block hb2 ⟨some buf1, sz + block.length, mx * 2⟩ (by
        simp only [hre, hrd])
      refine ⟨⟨some buf1, sz + block.length, mx * 2⟩, buf1, ?_, rfl, rfl, rfl,
        by rw [hl1, hl2], hdata, hit⟩
      simp only [hre, hrd]
    · intro hgr
      have hgrant : grant (mx * 2) = true := by
        rcases hgr with h | h
        · omega
        · exact h
      obtain ⟨buf2, hre, hl2⟩ := realloc_of_grant grant junk buf (mx * 2) hgrant (by omega)
      obtain ⟨buf1, hrd⟩ := from_file_read_end buf2 sz (mx * 2) (by omega)
      exact ⟨⟨some buf1, sz, mx * 2⟩, by simp only [hre, hrd], rfl, rfl⟩
    · intro _ hgf block
      have hre : realloc grant junk buf (mx * 2) = none := by
        unfold realloc
        rw [if_neg (by simp [hgf])]
      simp only [hre]
  · simp only [if_neg hg] at hstep ⊢
    refine ⟨h1, by omega, Or.inl trivial, le_refl _, ?_, trivial, ?_, ?_, ?_⟩
    · intro block hblock
      obtain ⟨buf1, _, hrd⟩ := from_file_read_ok block buf sz mx (by omega)
      simp only [hrd]
      by_cases hz : block.length = 0
      · rw [if_pos hz]
        exact ⟨_, _, rfl, rfl, h1, by intro h; cases h⟩
      · rw [if_neg hz]
        exact ⟨_, _, rfl, rfl, by simp only [hs block hblock]; omega,
          fun _ => ⟨by omega, hs block hblock⟩⟩
    · intro block hb1 hb2 _
      obtain ⟨buf1, hrd, hl1, hdata⟩ := from_file_read_block block buf sz mx (by omega) hb1
      rw [hs block hb2] at hrd
      have hit := hstep block hb2 ⟨some buf1, sz + block.length, mx⟩ hrd
      exact ⟨⟨some buf1, sz + block.length, mx⟩, buf1, hrd, rfl, rfl, rfl,
        by rw [hl1, hlen], hdata, hit⟩
    · intro _
      obtain ⟨buf1, hrd⟩ := from_file_read_end buf sz mx (by omega)
      exact ⟨⟨some buf1, sz, mx⟩, hrd, rfl, rfl⟩
    · intro hlt
      omega

/-- Witness of C17, with an allocator that grants the initial block and a `realloc` that
grants every block below `2 ^ 63` bytes: the chunk made by `sixel_chunk_init` has
`1024 * 32` spare bytes before the first read; and from it nine reads of 4096 bytes each
are made, of which the eight first fill the capacity `1024 * 32` and the ninth doubles it,
so that the chunk at the head of the loop then has size 36864 and capacity 65536. -/
theorem from_file_capacity_invariant_witness :
    (⟨some ((List.range (1024 * 32)).map (fun _ => 0)), 0, 1024 * 32⟩ : Chunk).size + 4096
      ≤ from_file_capacity ⟨some ((List.range (1024 * 32)).map (fun _ => 0)), 0, 1024 * 32⟩ ∧
    ∃ c, from_file_reachable (fun _ => true) (fun k => decide (k < 9223372036854775808))
        (fun _ => 0) c ∧
      c.size = 36864 ∧ c.max_size = 65536 ∧ c.size ≤ c.max_size ∧
      c.size + 4096 ≤ from_file_capacity c := by
  have hlimit : ∀ k, (fun k => decide (k < 9223372036854775808)) k = true
      → k < 9223372036854775808 := fun _ h => of_decide_eq_true h
  have step : ∀ (c : Chunk) (sz mx : Nat),
      from_file_reachable (fun _ => true) (fun k => decide (k < 9223372036854775808))
        (fun _ => 0) c →
      c.size = sz → c.max_size = mx → mx * 2 < 9223372036854775808 →
      ∃ c1, from_file_reachable (fun _ => true) (fun k => decide (k < 9223372036854775808))
          (fun _ => 0) c1 ∧
        c1.size = sz + 4096 ∧ c1.max_size = (if mx - sz < 4096 then mx * 2 else mx) := by
    intro c sz mx hc hsz hmx hlt
    obtain ⟨_, _, _, _, _, hcap, hgo, _, _⟩ :=
      from_file_capacity_invariant (fun _ => true)
        (fun k => decide (k < 9223372036854775808)) (fun _ => 0) hlimit c hc
    obtain ⟨c1, b, _, h1, h2, _, _, _, hr⟩ := hgo (List.replicate 4096 7)
      (by rw [List.length_replicate]; omega) (by rw [List.length_replicate])
      (Or.inr (decide_eq_true (by rw [hmx]; exact hlt)))
    refine ⟨c1, hr, ?_, ?_⟩
    · rw [h1, hsz, List.length_replicate]
    · rw [h2, hcap, hsz, hmx]
  have h0 : from_file_reachable (fun _ => true) (fun k => decide (k < 9223372036854775808))
      (fun _ => 0) ⟨some ((List.range (1024 * 32)).map (fun _ => 0)), 0, 1024 * 32⟩ :=
    from_file_reachable.init _ (if_pos rfl)
  obtain ⟨c1, r1, s1, m1⟩ := step _ 0 32768 h0 rfl rfl (by omega)
  obtain ⟨c2, r2, s2, m2⟩ := step c1 _ _ r1 s1 m1 (by norm_num)
  obtain ⟨c3, r3, s3, m3⟩ := step c2 _ _ r2 s2 m2 (by norm_num)
  obtain ⟨c4, r4, s4, m4⟩ := step c3 _ _ r3 s3 m3 (by norm_num)
  obtain ⟨c5, r5, s5, m5⟩ := step c4 _ _ r4 s4 m4 (by norm_num)
  obtain ⟨c6, r6, s6, m6⟩ := step c5 _ _ r5 s5 m5 (by norm_num)
  obtain ⟨c7, r7, s7, m7⟩ := step c6 _ _ r6 s6 m6 (by norm_num)
  obtain ⟨c8, r8, s8, m8⟩ := step c7 _ _ r7 s7 m7 (by norm_num)
  obtain ⟨c9, r9, s9, m9⟩ := step c8 _ _ r8 s8 m8 (by norm_num)
  have hinv := from_file_capacity_invariant (fun _ => true)
    (fun k => decide (k < 9223372036854775808)) (fun _ => 0) hlimit c9 r9
  refine ⟨(from_file_capacity_invariant (fun _ => true)
    (fun k => decide (k < 9223372036854775808)) (fun _ => 0) hlimit _ h0).2.1,
    c9, r9, ?_, ?_, hinv.1, hinv.2.1⟩
  · rw [s9]
  · rw [m9]
    norm_num


/-! ## C18: the growth of the capacity in `memory_write` -/

/-- C18 (amended). Growth policy of `memory_write`, for a chunk with a buffer of
`max_size > 0` bytes and an append of `nbytes = size * len > 0` bytes (no `size_t`
overflow: twice `chunk.size + nbytes` is in the range of `size_t`; `realloc` granted), for
every fuel above `chunk.size + nbytes`: the call returns `nbytes` and the new capacity is
`max_size * 2 ^ k`, where `k >= 0` is the least exponent for which
`max_size * 2 ^ k > chunk.size + nbytes`, so that at least one byte stays spare after the
append.  The capacity is unchanged when `max_size - chunk.size > nbytes`, and it never
decreases. -/
theorem memory_write_growth (fuel : Nat) (grant : Nat → Bool) (junk : Nat → Nat)
    (hgrant : ∀ n, grant n = true) (c : Chunk) (buf src : List Nat) (size len : Nat)
    (hbuf : c.buffer = some buf) (hlen : buf.length = c.max_size) (hmax : 0 < c.max_size)
    (hn : 0 < size * len) (hsrc : size * len ≤ src.length)
    (hov : 2 * (c.size + size * len) < 18446744073709551616)
    (hfuel : c.size + size * len < fuel) :
    ∃ k c1, memory_write fuel grant junk (some src) size len (some c)
        = Exec.ok (size * len, some c1) ∧
      c1.max_size = c.max_size * 2 ^ k ∧
      c.size + size * len < c.max_size * 2 ^ k ∧
      (∀ j, j < k → c.max_size * 2 ^ j ≤ c.size + size * len) ∧
      (c.size + size * len < c.max_size → c1.max_size = c.max_size) ∧
      c.max_size ≤ c1.max_size ∧ c1.size = c.size + size * len := by
  obtain ⟨b, sz, mx⟩ := c
  simp only [] at hbuf hlen hmax hov hfuel ⊢
  subst hbuf
  have hs1 : size_t (size * len) = size * len := by
    unfold size_t
    exact Nat.mod_eq_of_lt (by omega)
  have hs2 : size_t (sz + size * len) = sz + size * len := by
    unfold size_t
    exact Nat.mod_eq_of_lt (by omega)
  unfold memory_write
  simp only [hs1, hs2]
  rw [if_neg (by omega)]
  by_cases hfull : mx ≤ sz + size * len
  · rw [if_pos hfull]
    obtain ⟨k, hk, h1, h2⟩ := grow_spec fuel mx (sz + size * len) hmax hfull hov (by omega)
    have hmle : mx ≤ mx * 2 ^ (k + 1) := Nat.le_mul_of_pos_right _ (Nat.two_pow_pos _)
    obtain ⟨tail, hre, hrl⟩ := realloc_granted grant junk hgrant buf (mx * 2 ^ (k + 1))
      (by omega)
    have hcopy : memcpy (buf ++ tail) sz src (size * len)
        = Exec.ok ((buf ++ tail).take sz ++ src.take (size * len)
            ++ (buf ++ tail).drop (sz + size * len)) := by
      unfold memcpy
      rw [if_pos ⟨by omega, hsrc⟩]
    simp only [hk, hre, hcopy]
    refine ⟨k + 1, _, rfl, rfl, h1, ?_, fun h => by omega, hmle, rfl⟩
    intro j hj
    have : mx * 2 ^ j ≤ mx * 2 ^ k :=
      Nat.mul_le_mul_left _ (Nat.pow_le_pow_right (by omega) (by omega))
    omega
  · rw [if_neg hfull]
    have hcopy : memcpy buf sz src (size * len)
        = Exec.ok (buf.take sz ++ src.take (size * len) ++ buf.drop (sz + size * len)) := by
      unfold memcpy
      rw [if_pos ⟨by omega, hsrc⟩]
    simp only [hcopy]
    exact ⟨0, _, rfl, by simp, by simpa using Nat.lt_of_not_le hfull,
      fun j hj => by omega, fun _ => rfl, le_refl _, rfl⟩

/-- Witness of C18 (amended): 8 bytes appended to an empty chunk of capacity 8; the
capacity becomes `8 * 2 ^ k` with `0 + 8 < 8 * 2 ^ k`. -/
theorem memory_write_growth_witness :
    ∃ k c1, memory_write 9 (fun _ => true) (fun _ => 0) (some [1, 2, 3, 4, 5, 6, 7, 8]) 1 8
        (some ⟨some [0, 0, 0, 0, 0, 0, 0, 0], 0, 8⟩)
        = Exec.ok (1 * 8, some c1) ∧
      c1.max_size = (⟨some [0, 0, 0, 0, 0, 0, 0, 0], 0, 8⟩ : Chunk).max_size * 2 ^ k ∧
      (⟨some [0, 0, 0, 0, 0, 0, 0, 0], 0, 8⟩ : Chunk).size + 1 * 8
        < (⟨some [0, 0, 0, 0, 0, 0, 0, 0], 0, 8⟩ : Chunk).max_size * 2 ^ k ∧
      (∀ j, j < k → (⟨some [0, 0, 0, 0, 0, 0, 0, 0], 0, 8⟩ : Chunk).max_size * 2 ^ j
        ≤ (⟨some [0, 0, 0, 0, 0, 0, 0, 0], 0, 8⟩ : Chunk).size + 1 * 8) ∧
      ((⟨some [0, 0, 0, 0, 0, 0, 0, 0], 0, 8⟩ : Chunk).size + 1 * 8
          < (⟨some [0, 0, 0, 0, 0, 0, 0, 0], 0, 8⟩ : Chunk).max_size →
        c1.max_size = (⟨some [0, 0, 0, 0, 0, 0, 0, 0], 0, 8⟩ : Chunk).max_size) ∧
      (⟨some [0, 0, 0, 0, 0, 0, 0, 0], 0, 8⟩ : Chunk).max_size ≤ c1.max_size ∧
      c1.size = (⟨some [0, 0, 0, 0, 0, 0, 0, 0], 0, 8⟩ : Chunk).size + 1 * 8 :=
  memory_write_growth 9 (fun _ => true) (fun _ => 0) (fun _ => rfl)
    ⟨some [0, 0, 0, 0, 0, 0, 0, 0], 0, 8⟩ [0, 0, 0, 0, 0, 0, 0, 0] [1, 2, 3, 4, 5, 6, 7, 8] 1 8
    rfl rfl (by decide) (by decide) (by decide) (by decide) (by decide)

/-- C18 (counterexample). A chunk of capacity 8 and size 0 to which 8 bytes are appended:
the spare capacity `8 * 2 ^ 0 - 0` is already at least the 8 bytes, so that the least
exponent with a spare capacity of at least `nbytes` is 0 and the capacity would stay 8;
`memory_write` doubles it to 16. -/
theorem memory_write_growth_counterexample :
    8 ≤ (⟨some [0, 0, 0, 0, 0, 0, 0, 0], 0, 8⟩ : Chunk).max_size * 2 ^ 0
      - (⟨some [0, 0, 0, 0, 0, 0, 0, 0], 0, 8⟩ : Chunk).size ∧
    memory_write 9 (fun _ => true) (fun _ => 0) (some [1, 2, 3, 4, 5, 6, 7, 8]) 1 8
        (some ⟨some [0, 0, 0, 0, 0, 0, 0, 0], 0, 8⟩)
      = Exec.ok (8, some ⟨some [1, 2, 3, 4, 5, 6, 7, 8, 0, 0, 0, 0, 0, 0, 0, 0], 8, 16⟩) := by
  decide

/-- The capacity may double more than once in a call: 20 bytes appended to an empty chunk
of capacity 8 leave the capacity `8 * 2 ^ 2 = 32`. -/
theorem memory_write_doubles_twice :
    memory_write 21 (fun _ => true) (fun _ => 0) (some (List.replicate 20 1)) 1 20
        (some ⟨some [0, 0, 0, 0, 0, 0, 0, 0], 0, 8⟩)
      = Exec.ok (20, some ⟨some (List.replicate 20 1 ++ List.replicate 12 0), 20, 32⟩) := by
  decide


/-! ## C19: the token cursor leaves the buffer -/

theorem decimal_300 : decimal 300 = [51, 48, 48] := by norm_num [decimal]

theorem raster_size_300_1 : raster_size 300 1 = 901 := by decide

/-- C19 (failing input). On the input "P1\n300 1\n", a header with no pixel data, the token
cursor stands on the terminator of the line "300 1" (index 5 of `tmp`) when the pixel loop
begins; each pixel moves it by one byte although the input is exhausted, and pixel 251
reads `tmp[256]`, outside the array: the run is a fault, whatever the initial content of
`tmp`, for every fuel of at least 1. -/
theorem load_pnm_cursor_overrun (n : Nat) (stack : Nat → Nat) :
    load_pnm (n + 1) stack (fun _ => true) [80, 49, 10, 51, 48, 48, 32, 49, 10]
      = Exec.fault := by
  have hfile : [80, 49, 10, 51, 48, 48, 32, 49, 10] = pbm_file 49 300 1 [] := by
    simp [pbm_file, decimal_300, decimal_1]
  obtain ⟨h0, h1, stale, hlen, hparse⟩ := parse_header_pbm_file stack 49 300 1 [] true
    (by decide) (by omega) (by omega) (by omega) (by omega)
  rw [hfile, load_pnm_of_magic (n + 1) stack _ _ 49 true 0 (by decide) h0 h1, hparse]
  simp only [Nat.cast_ofNat, Nat.cast_one, decimal_300, decimal_1] at hlen ⊢
  rw [decode_accepted (n + 1) _ true 0 300 1 1 _ _ _ (by omega) (by omega) (by omega) rfl]
  have hstale : stale.length = 250 := by simpa using hlen
  have hrow : loop_x (n + 1) ⟨true, 0, 300, 1, 1, [], ([51, 48, 48] ++ 32 :: [49]) ++ 0 :: stale,
      0 :: stale⟩ 0 300 0
      ⟨[], ([51, 48, 48] ++ 32 :: [49]) ++ 0 :: stale, 0 :: stale,
        List.replicate (raster_size 300 1) 0⟩ = Exec.fault := by
    apply loop_x_bitmap_overrun
    · simp [hstale]
    · intro i hi
      have := pixel_offset_eq 300 i 0 (by omega)
      simp only [Nat.cast_ofNat] at this
      rw [this, raster_size_300_1, List.length_replicate, Int.toNat_ofNat]
      exact ⟨Int.ofNat_nonneg _, by omega⟩
  have h1 : (1 : Int).toNat = 0 + 1 := rfl
  rw [h1]
  exact (by rw [loop_y_first_row_fault (n + 1) _ 0 _ hrow])



/-! ## C20: components above the depth -/

theorem raster_size_1_1 : raster_size 1 1 = 4 := by decide

/-- The input "P5\n1 1\n1\n" followed by the byte 0xFF: the pixel is (1,1,1). -/
theorem load_pnm_above_depth (fuel : Nat) (stack : Nat → Nat) (malloc : Nat → Bool)
    (halloc : malloc 4 = true) :
    load_pnm fuel stack malloc [80, 53, 10, 49, 32, 49, 10, 49, 10, 255]
      = Exec.ok ⟨SIXEL_OK, none, some [1, 1, 1, 0], some 1, some 1,
          some SIXEL_PIXELFORMAT_RGB888, some 4⟩ := by
  have hfile : [80, 53, 10, 49, 32, 49, 10, 49, 10, 255] = pnm_file 53 1 1 1 [255] := by
    simp [pnm_file, decimal_1]
  obtain ⟨h0, h1, tmp, s, hparse⟩ := parse_header_pnm_file stack 53 1 1 1 [255] false 1
    (by decide) (by omega) (by omega) (by omega) (by omega) (by omega) (by omega) (by omega)
  rw [hfile, load_pnm_of_magic fuel stack _ _ 53 false 1 (by decide) h0 h1, hparse]
  simp only [Nat.cast_one]
  rw [decode_accepted fuel _ false 1 1 1 1 [255] tmp s (by omega) (by omega) (by omega)
    (by rw [raster_size_1_1]; exact halloc)]
  have hZ : List.replicate (raster_size 1 1) 0 = [0, 0, 0, 0] := by
    rw [raster_size_1_1]; rfl
  have hread : read_components fuel false 1 0 1 ⟨[255], tmp, s, [0, 0, 0, 0]⟩ []
      = Exec.ok (some [255], ⟨[], tmp, s, [0, 0, 0, 0]⟩) := by
    simp [read_components, read_binary]
  have hstore : store_pixel [0, 0, 0, 0] (pixel_offset 1 0 0) (to_samples 1 1 [255])
      = Exec.ok [1, 1, 1, 0] := by decide
  have hrow : loop_x fuel ⟨false, 1, 1, 1, 1, [255], tmp, s⟩ 0 1 0
      ⟨[255], tmp, s, [0, 0, 0, 0]⟩ = Exec.ok ⟨[], tmp, s, [1, 1, 1, 0]⟩ := by
    rw [loop_x_succ]
    simp only [show ((1 : Nat) = 2) = False by simp, if_false, hread, hstore]
    rw [loop_x_zero]
  have hrows : loop_y fuel ⟨false, 1, 1, 1, 1, [255], tmp, s⟩ 1 0
      ⟨[255], tmp, s, [0, 0, 0, 0]⟩ = Exec.ok ⟨[], tmp, s, [1, 1, 1, 0]⟩ := by
    rw [loop_y]
    simp only [show (1 : Int).toNat = 1 from rfl, hrow]
    rfl
  rw [hZ]
  simp only [show (1 : Int).toNat = 1 from rfl, hrows, raster_size_1_1]

/-- C20 (amended). Components above the depth wrap instead of clamping, as long as
`c * 255` is in the range of `int` (every raw byte of a binary file; in ASCII mode a
token of at most 8421504): for a depth `D >= 1` and such a component `c`, the byte stored
is `floor(c * 255 / D) mod 256`, in the three channels for a graymap and for each component
by itself for a pixmap; and the input "P5\n1 1\n1\n" followed by the byte 0xFF yields the
pixel (1,1,1). -/
theorem sample_wraps (D c : Int) (hD : 1 ≤ D) (h0 : 0 ≤ c) (hr : c * 255 ≤ 2147483647) :
    (uchar_of_int (scale c D) : Int) = c * 255 / D % 256 ∧
    (∀ A C b0 b1 b2, store_pixel (A ++ b0 :: b1 :: b2 :: C) (A.length : Int)
        (to_samples 1 D [c])
      = Exec.ok (A ++ uchar_of_int (scale c D) :: uchar_of_int (scale c D) ::
          uchar_of_int (scale c D) :: C)) ∧
    (∀ A C b0 b1 b2 c1 c2, store_pixel (A ++ b0 :: b1 :: b2 :: C) (A.length : Int)
        (to_samples 2 D [c, c1, c2])
      = Exec.ok (A ++ uchar_of_int (scale c D) :: uchar_of_int (scale c1 D) ::
          uchar_of_int (scale c2 D) :: C)) ∧
    (∀ (fuel : Nat) (stack : Nat → Nat),
      load_pnm fuel stack (fun _ => true) [80, 53, 10, 49, 32, 49, 10, 49, 10, 255]
        = Exec.ok ⟨SIXEL_OK, none, some [1, 1, 1, 0], some 1, some 1,
            some SIXEL_PIXELFORMAT_RGB888, some 4⟩) := by
  refine ⟨?_, ?_, ?_, fun fuel stack => load_pnm_above_depth fuel stack _ rfl⟩
  · rw [scale_eq c D h0 hr hD]
    unfold uchar_of_int
    omega
  · intro A C b0 b1 b2
    rw [store_pixel_at]
    simp [to_samples]
  · intro A C b0 b1 b2 c1 c2
    rw [store_pixel_at]
    simp [to_samples]

/-- Witness of C20 (amended): depth 1 and component 255, stored as
`floor(255 * 255 / 1) mod 256 = 1`. -/
theorem sample_wraps_witness :
    (uchar_of_int (scale 255 1) : Int) = 255 * 255 / 1 % 256 :=
  (sample_wraps 1 255 (by decide) (by decide) (by decide)).1

/-- C20 (counterexample). On the ASCII graymap "P2\n1 1\n2\n8421505\n" the component
8421505 exceeds the depth 2 and `8421505 * 255` is above `INT_MAX`: the sample stored is 64,
where `floor(8421505 * 255 / 2) mod 256` is 63. -/
theorem load_pnm_above_depth_counterexample :
    load_pnm 2 (fun _ => 0) (fun _ => true)
        [80, 50, 10, 49, 32, 49, 10, 50, 10, 56, 52, 50, 49, 53, 48, 53, 10]
      = Exec.ok ⟨SIXEL_OK, none, some [64, 64, 64, 0], some 1, some 1,
          some SIXEL_PIXELFORMAT_RGB888, some 4⟩ ∧
    (8421505 * 255 / 2 % 256 : Int) = 63 := by
  decide


end Sixel
